import Mathlib

/-!
# Verification of the `uvaoj-scrawl` bounded-concurrency BFS crawlers

This file embeds the core of the repository in Lean 4:

* the scheduler loops `CatalogCrawler.crawl` (`src/main.py`) and
  `FullCatalogCrawler.crawl` (`src/catalog_to_json.py`), modelled as a small
  step relation over an explicit scheduler state (node store, FIFO frontier,
  in-flight set, visited-identity set);
* the address normalizer `normalize_url` (identical in both files), modelled
  down to the behaviour of the CPython `urllib.parse` functions it calls
  (`urlparse`, `parse_qsl`, `urlencode`, `urlunparse`), at the level of
  character lists.

External collaborators are modelled at their interface, as the spec directs:
the composite `_fetch_entries` (HTTP fetch + BeautifulSoup parse) is an
oracle `fetch : String → Option (List Entry)` where `none` is a raised
transport/parse exception and `some es` the parsed entry list; the optional
per-request delay only affects timing and is not modelled.  The `wait(...,
FIRST_COMPLETED)` nondeterminism (which outstanding future completes first)
is modelled by the nondeterministic choice in the `complete` step rule.  All
shared state is owned by the single scheduler loop in the source, so one
sequential step relation captures every interleaving of completions.
-/

namespace Scrawl

/-- A parsed page entry `(name, url, kind)` with `kind ∈ {"FOLDER", "FILE"}`:
the `Entry` dataclass of `main.py`, and the `(name, url, kind)` tuples
produced by `parse_entries` in `catalog_to_json.py`. -/
structure Entry where
  name : String
  url : String
  kind : String
deriving DecidableEq, Repr

/-- Replace the element at index `i` of a list by `f` of it; out-of-range
indices leave the list unchanged.  Used to model in-place mutation of one
node (`node.children.append`, `node.has_file_children = ...`) inside the
node store. -/
def modifyIdx (f : α → α) : Nat → List α → List α
  | _, [] => []
  | 0, a :: as => f a :: as
  | n + 1, a :: as => a :: modifyIdx f n as

/-! ## `CatalogCrawler` (`src/main.py`) -/

/-- A `CatalogNode` of `main.py`: `children` holds node ids (indices into the
crawl state's node store) in insertion order. -/
structure MNode where
  name : String
  url : String
  depth : Nat
  children : List Nat := []
  has_file_children : Bool := false
deriving DecidableEq, Repr

/-- Scheduler state of `CatalogCrawler.crawl`: the node store (a node id is
its index, ids are never removed), the FIFO frontier `queue`, the ids of
nodes whose fetch futures are outstanding (the `futures` dict, keyed here by
the spawning node), and the `seen` set of normalized identities, modelled as
its insertion-ordered list of elements. -/
structure MState where
  nodes : List MNode
  queue : List Nat
  inflight : List Nat
  seen : List String
deriving DecidableEq, Repr

variable (norm : String → String) (fetch : String → Option (List Entry))

/-- Body of `for entry in folder_entries` in `CatalogCrawler.crawl`
(main.py lines 161-172): if the entry's normalized identity is in `seen` the
entry is skipped entirely (`continue`); otherwise a child node is created at
depth `d + 1`, appended to the children of node `i`, its identity is added to
`seen` and the child is pushed onto the frontier. -/
def stepFolderM (i : Nat) (d : Nat) (s : MState) (e : Entry) : MState :=
  if norm e.url ∈ s.seen then s
  else
    { nodes := modifyIdx (fun n => { n with children := n.children ++ [s.nodes.length] }) i s.nodes
        ++ [{ name := e.name, url := e.url, depth := d + 1 }]
      queue := s.queue ++ [s.nodes.length]
      inflight := s.inflight
      seen := s.seen ++ [norm e.url] }

/-- Processing of one completed future in `CatalogCrawler.crawl` (body of
`for future in done`, main.py lines 146-172), applied after the
`(future, node)` pair has been popped from the `futures` dict.  A raised
fetch/parse exception (`fetch _ = none`) is caught, reported to the
diagnostic sink (a print, not modelled) and processing continues; on success
`has_file_children` is computed from the full entry list and the
FOLDER-entry loop runs. -/
def completeM (i : Nat) (s : MState) : MState :=
  match s.nodes[i]? with
  | none => s
  | some n =>
    match fetch n.url with
    | none => s
    | some es =>
      let s1 : MState := { s with
        nodes := modifyIdx
          (fun m => { m with has_file_children := es.any (·.kind == "FILE") }) i s.nodes }
      (es.filter (·.kind == "FOLDER")).foldl (stepFolderM norm i n.depth) s1

/-- One scheduler transition of `CatalogCrawler.crawl` (main.py lines
136-172).  `dispatch` pops the frontier head and submits its fetch while
fewer than `max_workers` futures are outstanding (inner `while queue and
len(futures) < self.max_workers`); `complete` consumes any one outstanding
future (`wait(..., FIRST_COMPLETED)` returns an arbitrary non-empty completed
subset, processed one future at a time). -/
inductive MStep (maxc : Nat) : MState → MState → Prop
  | dispatch (s : MState) (i : Nat) (q : List Nat)
      (hq : s.queue = i :: q) (hc : s.inflight.length < maxc) :
      MStep maxc s { s with queue := q, inflight := s.inflight ++ [i] }
  | complete (s : MState) (i : Nat) (hi : i ∈ s.inflight) :
      MStep maxc s (completeM norm fetch i { s with inflight := s.inflight.erase i })

/-- Initial state of `CatalogCrawler.crawl` (main.py lines 130-132): the root
node at depth 0, enqueued, with its normalized identity recorded in `seen`
before the loop starts. -/
def initM (rootName rootUrl : String) : MState :=
  { nodes := [{ name := rootName, url := rootUrl, depth := 0 }]
    queue := [0]
    inflight := []
    seen := [norm rootUrl] }

/-- Reachability under the `CatalogCrawler.crawl` scheduler loop. -/
def ReachM (maxc : Nat) : MState → MState → Prop :=
  Relation.ReflTransGen (MStep norm fetch maxc)

/-! ## `FullCatalogCrawler` (`src/catalog_to_json.py`) -/

/-- A `CatalogNode` of `catalog_to_json.py`: carries its `kind`
(`"FOLDER"`/`"FILE"`) and no depth or `has_file_children` field. -/
structure FNode where
  name : String
  url : String
  kind : String
  children : List Nat := []
deriving DecidableEq, Repr

/-- Scheduler state of `FullCatalogCrawler.crawl`.  `enq` is a history
variable recording, in order, the ids that have ever been pushed onto the
frontier (the root before the loop, then exactly the children that pass the
`seen` check); it shadows the pushes and carries no extra behaviour. -/
structure FState where
  nodes : List FNode
  queue : List Nat
  inflight : List Nat
  seen : List String
  enq : List Nat
deriving DecidableEq, Repr

/-- Body of `for name, url, kind in entries` in `FullCatalogCrawler.crawl`
(catalog_to_json.py lines 134-142): every entry (FOLDER or FILE) is appended
as a child of node `i`; a FOLDER entry whose normalized identity is not in
`seen` is additionally recorded in `seen` and pushed onto the frontier. -/
def stepEntryF (i : Nat) (s : FState) (e : Entry) : FState :=
  let j := s.nodes.length
  let s' : FState := { s with
    nodes := modifyIdx (fun n => { n with children := n.children ++ [j] }) i s.nodes
      ++ [{ name := e.name, url := e.url, kind := e.kind }] }
  if e.kind == "FOLDER" then
    if norm e.url ∈ s'.seen then s'
    else { s' with
      seen := s'.seen ++ [norm e.url]
      queue := s'.queue ++ [j]
      enq := s'.enq ++ [j] }
  else s'

/-- Processing of one completed future in `FullCatalogCrawler.crawl`
(catalog_to_json.py lines 126-142), after the `(future, node)` pop.  A raised
exception is caught and reported; on success every parsed entry is processed
in page order. -/
def completeF (i : Nat) (s : FState) : FState :=
  match s.nodes[i]? with
  | none => s
  | some n =>
    match fetch n.url with
    | none => s
    | some es => es.foldl (stepEntryF norm i) s

/-- One scheduler transition of `FullCatalogCrawler.crawl`
(catalog_to_json.py lines 116-142), with the same dispatch/complete
discipline as `MStep`. -/
inductive FStep (maxc : Nat) : FState → FState → Prop
  | dispatch (s : FState) (i : Nat) (q : List Nat)
      (hq : s.queue = i :: q) (hc : s.inflight.length < maxc) :
      FStep maxc s { s with queue := q, inflight := s.inflight ++ [i] }
  | complete (s : FState) (i : Nat) (hi : i ∈ s.inflight) :
      FStep maxc s (completeF norm fetch i { s with inflight := s.inflight.erase i })

/-- Initial state of `FullCatalogCrawler.crawl` (catalog_to_json.py lines
110-112): the root node (kind `"FOLDER"`), enqueued, its normalized identity
in `seen` before the loop. -/
def initF (rootName rootUrl : String) : FState :=
  { nodes := [{ name := rootName, url := rootUrl, kind := "FOLDER" }]
    queue := [0]
    inflight := []
    seen := [norm rootUrl]
    enq := [0] }

/-- Reachability under the `FullCatalogCrawler.crawl` scheduler loop. -/
def ReachF (maxc : Nat) : FState → FState → Prop :=
  Relation.ReflTransGen (FStep norm fetch maxc)

/-! ## The address normalizer

`normalize_url` (main.py lines 59-67 = catalog_to_json.py lines 49-54) is a
five-line composition of CPython `urllib.parse` functions.  Those library
functions are embedded here at the level of character lists, following the
CPython (3.11) sources of `urlsplit`, `urlparse`, `parse_qsl`, `urlencode`,
`quote_plus`, `unquote` and `urlunparse`/`urlunsplit`. -/

/-- UTF-8 encoding of one code point (`str.encode("utf-8")` works code point
by code point; `Char` validity rules out surrogates). -/
def utf8Bytes (c : Char) : List Nat :=
  let n := c.toNat
  if n < 0x80 then [n]
  else if n < 0x800 then [0xC0 + n / 64, 0x80 + n % 64]
  else if n < 0x10000 then [0xE0 + n / 4096, 0x80 + n / 64 % 64, 0x80 + n % 64]
  else [0xF0 + n / 262144, 0x80 + n / 4096 % 64, 0x80 + n / 64 % 64, 0x80 + n % 64]

/-- UTF-8 encoding of a string, as its list of bytes. -/
def utf8EncodeList (s : List Char) : List Nat := s.flatMap utf8Bytes

/-- U+FFFD, the replacement character produced by `errors="replace"`. -/
def replChar : Char := Char.ofNat 0xFFFD

/-- UTF-8 decoding of a byte list with `errors="replace"`, following
CPython's maximal-subpart policy: each lead byte restricts its second byte
(`E0` → `A0..BF`, `ED` → `80..9F`, `F0` → `90..BF`, `F4` → `80..8F`, which
rules out overlong and surrogate encodings up front), a failed check emits
one replacement for the consumed prefix and resumes at the failing byte,
and a sequence truncated by the end of input emits one replacement.

The worker recurses on a fuel argument that drops by one per produced
character; since every produced character consumes at least one byte, fuel
equal to the byte count is always sufficient, and the wrapper `utf8Decode`
supplies exactly that. -/
def utf8DecodeF : Nat → List Nat → List Char
  | 0, _ => []
  | _ + 1, [] => []
  | f + 1, b :: bs =>
    if b < 0x80 then Char.ofNat b :: utf8DecodeF f bs
    else if b < 0xC2 then replChar :: utf8DecodeF f bs
    else if b < 0xE0 then
      match bs with
      | b1 :: bs1 =>
        if 0x80 ≤ b1 ∧ b1 < 0xC0 then
          Char.ofNat ((b - 0xC0) * 64 + (b1 - 0x80)) :: utf8DecodeF f bs1
        else replChar :: utf8DecodeF f bs
      | [] => [replChar]
    else if b < 0xF0 then
      match bs with
      | b1 :: bs1 =>
        if (if b = 0xE0 then 0xA0 ≤ b1 ∧ b1 < 0xC0
            else if b = 0xED then 0x80 ≤ b1 ∧ b1 < 0xA0
            else 0x80 ≤ b1 ∧ b1 < 0xC0) then
          match bs1 with
          | b2 :: bs2 =>
            if 0x80 ≤ b2 ∧ b2 < 0xC0 then
              Char.ofNat ((b - 0xE0) * 4096 + (b1 - 0x80) * 64 + (b2 - 0x80)) ::
                utf8DecodeF f bs2
            else replChar :: utf8DecodeF f bs1
          | [] => [replChar]
        else replChar :: utf8DecodeF f bs
      | [] => [replChar]
    else if b < 0xF5 then
      match bs with
      | b1 :: bs1 =>
        if (if b = 0xF0 then 0x90 ≤ b1 ∧ b1 < 0xC0
            else if b = 0xF4 then 0x80 ≤ b1 ∧ b1 < 0x90
            else 0x80 ≤ b1 ∧ b1 < 0xC0) then
          match bs1 with
          | b2 :: bs2 =>
            if 0x80 ≤ b2 ∧ b2 < 0xC0 then
              match bs2 with
              | b3 :: bs3 =>
                if 0x80 ≤ b3 ∧ b3 < 0xC0 then
                  Char.ofNat ((b - 0xF0) * 262144 + (b1 - 0x80) * 4096 +
                    (b2 - 0x80) * 64 + (b3 - 0x80)) :: utf8DecodeF f bs3
                else replChar :: utf8DecodeF f bs2
              | [] => [replChar]
            else replChar :: utf8DecodeF f bs1
          | [] => [replChar]
        else replChar :: utf8DecodeF f bs
      | [] => [replChar]
    else replChar :: utf8DecodeF f bs

/-- UTF-8 decoding with `errors="replace"` (see `utf8DecodeF`). -/
def utf8Decode (bs : List Nat) : List Char := utf8DecodeF bs.length bs

/-- The `_ALWAYS_SAFE` characters of `urllib.parse` (ASCII letters, digits
and `_.-~`); `quote_plus` is called with `safe=''`. -/
def alwaysSafe (c : Char) : Bool :=
  ('A' ≤ c && c ≤ 'Z') || ('a' ≤ c && c ≤ 'z') || ('0' ≤ c && c ≤ '9') ||
    c == '_' || c == '.' || c == '-' || c == '~'

/-- Upper-case hex digit of a nibble (CPython formats escapes as `%02X`). -/
def hexDigit (n : Nat) : Char :=
  if n < 10 then Char.ofNat (48 + n) else Char.ofNat (55 + n)

/-- The `%XX` escape of one byte. -/
def pctHex (b : Nat) : List Char := ['%', hexDigit (b / 16), hexDigit (b % 16)]

/-- `quote_plus` restricted to one character: safe characters pass through,
a space becomes `+`, anything else is the `%XX` escape of its UTF-8 bytes.
This is `quote_plus(s, safe='')` pointwise: byte-level `quote` distributes
over the per-character UTF-8 encoding because all safe bytes are ASCII, and
the `replace(' ', '+')` step only ever hits the quoted spaces since a
literal `+` is percent-escaped. -/
def quotePlusChar (c : Char) : List Char :=
  if alwaysSafe c then [c]
  else if c = ' ' then ['+']
  else (utf8Bytes c).flatMap pctHex

/-- `urllib.parse.quote_plus(s, safe='')`. -/
def quotePlus (s : List Char) : List Char := s.flatMap quotePlusChar

/-- Hex-digit test of `_hextobyte` (both cases accepted). -/
def isHex (c : Char) : Bool :=
  ('0' ≤ c && c ≤ '9') || ('A' ≤ c && c ≤ 'F') || ('a' ≤ c && c ≤ 'f')

/-- Value of a hex digit. -/
def hexVal (c : Char) : Nat :=
  if '0' ≤ c ∧ c ≤ '9' then c.toNat - 48
  else if 'A' ≤ c ∧ c ≤ 'F' then c.toNat - 55
  else c.toNat - 87

/-- `unquote_to_bytes` on an ASCII segment: literal characters contribute
their code points, `%` followed by two hex digits contributes that byte, and
a `%` not followed by two hex digits stays literal. -/
def pctDecodeBytes : List Char → List Nat
  | [] => []
  | '%' :: c1 :: c2 :: r =>
    if isHex c1 && isHex c2 then (hexVal c1 * 16 + hexVal c2) :: pctDecodeBytes r
    else 37 :: pctDecodeBytes (c1 :: c2 :: r)
  | c :: r => c.toNat :: pctDecodeBytes r

/-- One maximal ASCII segment of `unquote`: percent-decode to bytes, then
UTF-8-decode with `errors="replace"`. -/
def decodeRun (run : List Char) : List Char := utf8Decode (pctDecodeBytes run)

/-- Worker for `unquote`: the string is alternating maximal ASCII segments
(percent-decoded then UTF-8-decoded) and non-ASCII characters (passed
through, they can never be part of an escape); `acc` holds the current
ASCII segment in reverse. -/
def unquoteGo (acc : List Char) : List Char → List Char
  | [] => decodeRun acc.reverse
  | c :: cs =>
    if c.toNat < 128 then unquoteGo (c :: acc) cs
    else decodeRun acc.reverse ++ c :: unquoteGo [] cs

/-- `urllib.parse.unquote(s, encoding="utf-8", errors="replace")`. -/
def unquote (s : List Char) : List Char := unquoteGo [] s

/-- The field decoding of `parse_qsl`: `replace('+', ' ')`, then `unquote`. -/
def unquotePlus (s : List Char) : List Char :=
  unquote (s.map fun c => if c = '+' then ' ' else c)

/-- `str.split(sep)` for a one-character separator. -/
def splitSep (sep : Char) : List Char → List (List Char)
  | [] => [[]]
  | c :: cs =>
    if c = sep then [] :: splitSep sep cs
    else
      match splitSep sep cs with
      | g :: gs => (c :: g) :: gs
      | [] => [[c]]

/-- `s.split(sep, 1)`: `(before, some after)` at the first occurrence of
`sep`, `(s, none)` when `sep` does not occur. -/
def splitFirst (sep : Char) : List Char → List Char × Option (List Char)
  | [] => ([], none)
  | c :: cs =>
    if c = sep then ([], some cs)
    else
      let p := splitFirst sep cs
      (c :: p.1, p.2)

/-- `urllib.parse.parse_qsl(qs, keep_blank_values=True)` with the default
`&` separator: split on `&`, skip empty fields, split each field at its
first `=` (a field without `=` is a name with blank value, kept because
`keep_blank_values=True`), then decode name and value. -/
def parseQsl (qs : List Char) : List (List Char × List Char) :=
  if qs = [] then []
  else
    (splitSep '&' qs).filterMap fun nv =>
      if nv = [] then none
      else
        let p := splitFirst '=' nv
        some (unquotePlus p.1, unquotePlus (p.2.getD []))

/-- `'&'.join`. -/
def joinAmp : List (List Char) → List Char
  | [] => []
  | [x] => x
  | x :: xs => x ++ '&' :: joinAmp xs

/-- `urllib.parse.urlencode(pairs, doseq=True)` on string pairs: each name
and value goes through `quote_plus`, pairs render as `k=v` joined by `&`. -/
def urlencode (pairs : List (List Char × List Char)) : List Char :=
  joinAmp (pairs.map fun p => quotePlus p.1 ++ '=' :: quotePlus p.2)

/-- Result of `urlsplit` (the `params` field is split later by `urlparse`). -/
structure SplitResult where
  scheme : List Char
  netloc : List Char
  path : List Char
  query : List Char
  fragment : List Char
deriving DecidableEq, Repr

/-- `scheme_chars` of `urllib.parse`. -/
def schemeChars : List Char :=
  "abcdefghijklmnopqrstuvwxyzABCDEFGHIJKLMNOPQRSTUVWXYZ0123456789+-.".data

/-- ASCII-letter test (`c.isascii() and c.isalpha()`). -/
def isAsciiAlpha (c : Char) : Bool :=
  ('A' ≤ c && c ≤ 'Z') || ('a' ≤ c && c ≤ 'z')

/-- ASCII lower-casing; `str.lower()` coincides with it on the scheme
candidates it is applied to, which are all ASCII `scheme_chars`. -/
def toLowerAscii (c : Char) : Char :=
  if 'A' ≤ c ∧ c ≤ 'Z' then Char.ofNat (c.toNat + 32) else c

/-- Scheme detection of `urlsplit` (CPython ≥ 3.11): the text before the
first `:` is a scheme iff it is non-empty, starts with an ASCII letter and
continues with `scheme_chars` only; a detected scheme is lower-cased. -/
def splitScheme (u : List Char) : List Char × List Char :=
  match splitFirst ':' u with
  | (_, none) => ([], u)
  | (pre, some rest) =>
    match pre with
    | [] => ([], u)
    | c :: cs =>
      if isAsciiAlpha c && cs.all (fun d => decide (d ∈ schemeChars)) then
        ((c :: cs).map toLowerAscii, rest)
      else ([], u)

/-- `_splitnetloc`: the netloc extends to the first `/`, `?` or `#`. -/
def netlocSplit (u : List Char) : List Char × List Char :=
  (u.takeWhile fun c => !(c == '/' || c == '?' || c == '#'),
   u.dropWhile fun c => !(c == '/' || c == '?' || c == '#'))

/-- Fragment then query split of `urlsplit` (`allow_fragments=True`); the
source guards each split by a containment test, which agrees with the
unconditional first-occurrence split since a missing separator yields the
whole string and an empty component either way. -/
def splitFragQuery (u : List Char) : List Char × List Char × List Char :=
  let f := splitFirst '#' u
  let q := splitFirst '?' f.1
  (q.1, q.2.getD [], f.2.getD [])

/-- `urllib.parse.urlsplit` (CPython ≥ 3.11 string-level behaviour):
tab/CR/LF removal, scheme detection, netloc split with the
`Invalid IPv6 URL` `ValueError` on unbalanced brackets, then fragment and
query splits.  The initial step is the WHATWG strip: leading C0-control and
space characters are removed, then every tab/CR/LF.  The further CPython
3.11 netloc validations (`_check_bracketed_host` for bracketed hosts,
`_checknetloc` for non-ASCII netlocs) are not modelled: they only add more
raising inputs and are never triggered by the strings in this file. -/
def urlsplitE (url : List Char) : Except String SplitResult :=
  let u0 := (url.dropWhile fun c => c.toNat ≤ 32).filter
    fun c => !(c == '\t' || c == '\r' || c == '\n')
  let sp := splitScheme u0
  if sp.2.take 2 = ['/', '/'] then
    let nl := netlocSplit (sp.2.drop 2)
    if ('[' ∈ nl.1 ∧ ']' ∉ nl.1) ∨ (']' ∈ nl.1 ∧ '[' ∉ nl.1) then
      .error "Invalid IPv6 URL"
    else
      let pqf := splitFragQuery nl.2
      .ok ⟨sp.1, nl.1, pqf.1, pqf.2.1, pqf.2.2⟩
  else
    let pqf := splitFragQuery sp.2
    .ok ⟨sp.1, [], pqf.1, pqf.2.1, pqf.2.2⟩

/-- Result of `urlparse`. -/
structure ParseResult where
  scheme : List Char
  netloc : List Char
  path : List Char
  params : List Char
  query : List Char
  fragment : List Char
deriving DecidableEq, Repr

/-- `uses_params` of `urllib.parse` (CPython 3.11). -/
def usesParams : List (List Char) :=
  ["", "ftp", "hdl", "prospero", "http", "imap", "https", "shttp", "rtsp",
   "rtsps", "rtspu", "sip", "sips", "mms", "sftp", "tel"].map String.data

/-- `uses_netloc` of `urllib.parse` (CPython 3.11). -/
def usesNetloc : List (List Char) :=
  ["", "ftp", "http", "gopher", "nntp", "telnet", "imap", "wais", "file",
   "mms", "https", "shttp", "snews", "prospero", "rtsp", "rtsps", "rtspu",
   "rsync", "svn", "svn+ssh", "sftp", "nfs", "git", "git+ssh", "ws",
   "wss"].map String.data

/-- Split `u` as `p.1 ++ '/' :: p.2` around the last `/`, when one exists. -/
def rsplitSlash : List Char → Option (List Char × List Char)
  | [] => none
  | c :: cs =>
    match rsplitSlash cs with
    | some p => some (c :: p.1, p.2)
    | none => if c = '/' then some ([], cs) else none

/-- `_splitparams`: split at the first `;` that follows the last `/` (at the
first `;` overall when there is no `/`); no such `;` means no parameters. -/
def splitParams (u : List Char) : List Char × List Char :=
  match rsplitSlash u with
  | some p =>
    match splitFirst ';' p.2 with
    | (b1, some b2) => (p.1 ++ '/' :: b1, b2)
    | (_, none) => (u, [])
  | none =>
    match splitFirst ';' u with
    | (b1, some b2) => (b1, b2)
    | (_, none) => (u, [])

/-- `urllib.parse.urlparse`: `urlsplit`, then the params split when the
scheme uses params and the path contains a `;`. -/
def urlparseE (url : List Char) : Except String ParseResult :=
  (urlsplitE url).map fun r =>
    if r.scheme ∈ usesParams ∧ ';' ∈ r.path then
      let p := splitParams r.path
      ⟨r.scheme, r.netloc, p.1, p.2, r.query, r.fragment⟩
    else ⟨r.scheme, r.netloc, r.path, [], r.query, r.fragment⟩

/-- `urllib.parse.urlunsplit` (CPython 3.11: the `//` is inserted when a
netloc is present, or when the scheme is a known netloc-using scheme and the
path does not already begin with `//`). -/
def urlunsplit (scheme netloc path query fragment : List Char) : List Char :=
  let u1 :=
    if netloc ≠ [] ∨ (scheme ≠ [] ∧ scheme ∈ usesNetloc ∧ path.take 2 ≠ ['/', '/']) then
      ['/', '/'] ++ netloc ++ (if path ≠ [] ∧ path.take 1 ≠ ['/'] then '/' :: path else path)
    else path
  let u2 := if scheme ≠ [] then scheme ++ ':' :: u1 else u1
  let u3 := if query ≠ [] then u2 ++ '?' :: query else u2
  if fragment ≠ [] then u3 ++ '#' :: fragment else u3

/-- `urllib.parse.urlunparse`. -/
def urlunparse (p : ParseResult) : List Char :=
  urlunsplit p.scheme p.netloc
    (if p.params ≠ [] then p.path ++ ';' :: p.params else p.path) p.query p.fragment

/-- The noise query keys removed by `normalize_url`. -/
def noiseKeys : List (List Char) := ["limit", "limitstart"].map String.data

/-- `normalize_url` (main.py lines 59-67, catalog_to_json.py lines 49-54) on
character lists: parse, drop query pairs whose decoded key is `limit` or
`limitstart`, re-encode the remaining pairs in original order, unparse.  The
`ValueError` that `urlparse` can raise propagates — the Python function has
no handler. -/
def normalizeUrlL (url : List Char) : Except String (List Char) :=
  (urlparseE url).map fun parsed =>
    let pairs := parseQsl parsed.query
    let filtered := pairs.filter fun kv => !decide (kv.1 ∈ noiseKeys)
    urlunparse { parsed with query := urlencode filtered }

/-- `normalize_url` on `String`s. -/
def normalize_url (s : String) : Except String String :=
  (normalizeUrlL s.data).map List.asString

/-- Total wrapper around `normalize_url`, used to instantiate the scheduler
models in the concrete runs below: `crawl` would propagate a `normalize_url`
exception, and on every url appearing in those runs `normalize_url`
succeeds, so the wrapper agrees with the code there. -/
def normOr (s : String) : String :=
  match normalize_url s with
  | .ok y => y
  | .error _ => s

/-- The path/params merge of `urlunparse`: re-join a split `(path, params)`
pair with `;` when the params component is non-empty. -/
def pglue (pr : List Char × List Char) : List Char :=
  if pr.2 ≠ [] then pr.1 ++ ';' :: pr.2 else pr.1

/-- The path/params split of `urlparse` as a pair: `_splitparams` is applied
when the scheme uses params and the path contains a `;`. -/
def pparts (sch p : List Char) : List Char × List Char :=
  if sch ∈ usesParams ∧ ';' ∈ p then splitParams p else (p, [])

/-! ## Invariants and specification functions used by the theorems -/

/-- Structural invariant of the `CatalogCrawler.crawl` scheduler state. -/
structure MInv (norm : String → String) (s : MState) : Prop where
  ids_lt : ∀ i ∈ s.queue ++ s.inflight, i < s.nodes.length
  ids_nodup : (s.queue ++ s.inflight).Nodup
  pending_blank : ∀ i ∈ s.queue ++ s.inflight, ∀ n, s.nodes[i]? = some n →
    n.children = [] ∧ n.has_file_children = false
  ident_nodup : (s.nodes.map fun n => norm n.url).Nodup
  ident_seen : ∀ n ∈ s.nodes, norm n.url ∈ s.seen
  seen_nodup : s.seen.Nodup
  children_lt : ∀ n ∈ s.nodes, ∀ j ∈ n.children, j < s.nodes.length
  depth_rel : ∀ (i : Nat) (ni : MNode), s.nodes[i]? = some ni → ∀ j ∈ ni.children,
    ∀ (nj : MNode), s.nodes[j]? = some nj → nj.depth = ni.depth + 1
  root_depth : ∀ n, s.nodes[0]? = some n → n.depth = 0

/-- Structural invariant of the `FullCatalogCrawler.crawl` scheduler state. -/
structure FInv (norm : String → String) (s : FState) : Prop where
  ids_lt : ∀ i ∈ s.queue ++ s.inflight, i < s.nodes.length
  ids_nodup : (s.queue ++ s.inflight).Nodup
  sub_enq : ∀ i ∈ s.queue ++ s.inflight, i ∈ s.enq
  enq_lt : ∀ i ∈ s.enq, i < s.nodes.length
  ident_inj : ∀ (i j : Nat) (ni nj : FNode), i ∈ s.enq → j ∈ s.enq →
    s.nodes[i]? = some ni → s.nodes[j]? = some nj → i ≠ j →
    norm ni.url ≠ norm nj.url
  ident_seen : ∀ i ∈ s.enq, ∀ n, s.nodes[i]? = some n → norm n.url ∈ s.seen
  seen_nodup : s.seen.Nodup
  children_enq : ∀ (i : Nat) (n : FNode), s.nodes[i]? = some n → n.children ≠ [] → i ∈ s.enq
  pending_blank : ∀ i ∈ s.queue ++ s.inflight, ∀ n, s.nodes[i]? = some n →
    n.children = []
  children_lt : ∀ n ∈ s.nodes, ∀ j ∈ n.children, j < s.nodes.length

/-- The subsequence of a parsed FOLDER-entry list that `CatalogCrawler`
actually attaches and enqueues: entries whose normalized identity is fresh
with respect to the evolving `seen` set, in page order. -/
def freshFoldersM (norm : String → String) (seen : List String) : List Entry → List Entry
  | [] => []
  | e :: es =>
    if norm e.url ∈ seen then freshFoldersM norm seen es
    else e :: freshFoldersM norm (seen ++ [norm e.url]) es

/-- Termination measure for `CatalogCrawler.crawl` relative to a finite
universe `U` of reachable identities: three steps of budget per identity not
yet visited, two per frontier slot, one per in-flight fetch. -/
def measureM (U : List String) (s : MState) : Nat :=
  3 * (U.countP fun u => decide (u ∉ s.seen)) + 2 * s.queue.length + s.inflight.length

/-- Termination measure for `FullCatalogCrawler.crawl` (same budget). -/
def measureF (U : List String) (s : FState) : Nat :=
  3 * (U.countP fun u => decide (u ∉ s.seen)) + 2 * s.queue.length + s.inflight.length

/-- `U` is closed under discovery: the FOLDER entries of any successfully
fetched page whose address identity lies in `U` have identities in `U`. -/
def FolderClosed (norm : String → String) (fetch : String → Option (List Entry))
    (U : List String) : Prop :=
  ∀ url es, norm url ∈ U → fetch url = some es → ∀ e ∈ es, e.kind = "FOLDER" →
    norm e.url ∈ U

/-- Identity-tracking invariant for the termination argument: every node id
on the frontier or in flight resolves to a node whose identity lies in `U`. -/
def MUInv (norm : String → String) (U : List String) (s : MState) : Prop :=
  ∀ i ∈ s.queue ++ s.inflight, ∃ n, s.nodes[i]? = some n ∧ norm n.url ∈ U

/-- Identity-tracking invariant for `FullCatalogCrawler` termination. -/
def FUInv (norm : String → String) (U : List String) (s : FState) : Prop :=
  ∀ i ∈ s.queue ++ s.inflight, ∃ n, s.nodes[i]? = some n ∧ norm n.url ∈ U

/-- Invariant carried through the FOLDER-entry loop of `CatalogCrawler`:
the structural invariant, plus the facts that the completing node `i` exists,
is neither queued nor in flight (its future was already popped), and has
depth `d`. -/
def MFold (norm : String → String) (i d : Nat) (s : MState) : Prop :=
  MInv norm s ∧ i < s.nodes.length ∧ i ∉ s.queue ∧ i ∉ s.inflight ∧
    ∀ n, s.nodes[i]? = some n → n.depth = d

/-- Invariant carried through the entry loop of `FullCatalogCrawler`. -/
def FFold (norm : String → String) (i : Nat) (s : FState) : Prop :=
  FInv norm s ∧ i < s.nodes.length ∧ i ∉ s.queue ∧ i ∉ s.inflight ∧ i ∈ s.enq

/-- A node id that exists but is neither on the frontier nor in flight: its
fetch (if any) has been fully processed, and the scheduler will never touch
it again. -/
def RetiredM (s : MState) (i : Nat) : Prop :=
  i < s.nodes.length ∧ i ∉ s.queue ∧ i ∉ s.inflight

/-- `RetiredM` for the `FullCatalogCrawler` state. -/
def RetiredF (s : FState) (i : Nat) : Prop :=
  i < s.nodes.length ∧ i ∉ s.queue ∧ i ∉ s.inflight

/-- Observable data of the node stored at id `j` (name, url, depth). -/
def childData (s : MState) (j : Nat) : Option (String × String × Nat) :=
  s.nodes[j]?.map fun n => (n.name, n.url, n.depth)

/-- Observable data of the node stored at id `j` (name, url, kind). -/
def childDataF (s : FState) (j : Nat) : Option (String × String × String) :=
  s.nodes[j]?.map fun n => (n.name, n.url, n.kind)

/-! Concrete fetch oracles used in the closed runs below.  `normalize_url`
succeeds and acts as the identity on the plain addresses `"r"`, `"a"`,
`"uf1"`, `"uf2"` involved, so `normOr` agrees with the code on them. -/

/-- Root page lists a fresh FOLDER `A` and a FOLDER `R2` whose address
normalizes to the already-visited root identity; `A`'s page is empty. -/
def fetchC4 : String → Option (List Entry)
  | "r" => some [{ name := "A", url := "a", kind := "FOLDER" },
                 { name := "R2", url := "r", kind := "FOLDER" }]
  | "a" => some []
  | _ => none

/-- Final state of the `CatalogCrawler` run over `fetchC4`. -/
def stateC4 : MState :=
  { nodes := [{ name := "Root", url := "r", depth := 0, children := [1] },
              { name := "A", url := "a", depth := 1 }]
    queue := []
    inflight := []
    seen := ["r", "a"] }

/-- Root page parses to a single FILE entry. -/
def fetchC5 : String → Option (List Entry)
  | "r" => some [{ name := "p1", url := "uf1", kind := "FILE" }]
  | _ => none

/-- Final state of the `CatalogCrawler` run over `fetchC5`. -/
def stateC5 : MState :=
  { nodes := [{ name := "Root", url := "r", depth := 0, children := [],
                has_file_children := true }]
    queue := []
    inflight := []
    seen := ["r"] }

/-- Root page parses to two FILE entries. -/
def fetchC7 : String → Option (List Entry)
  | "r" => some [{ name := "p1", url := "uf1", kind := "FILE" },
                 { name := "p2", url := "uf2", kind := "FILE" }]
  | _ => none

/-- Root page lists one FOLDER and one FILE entry (used to exercise the
completion characterizations on a concrete input). -/
def fetchW5 : String → Option (List Entry)
  | "r" => some [{ name := "A", url := "a", kind := "FOLDER" },
                 { name := "p1", url := "uf1", kind := "FILE" }]
  | _ => none

/-- Same page shape, used for the `has_file_children` witness. -/
def fetchW7 : String → Option (List Entry)
  | "r" => some [{ name := "A", url := "a", kind := "FOLDER" },
                 { name := "p1", url := "uf1", kind := "FILE" }]
  | _ => none

/-- Final state of the `CatalogCrawler` run over `fetchC7`. -/
def stateC7 : MState :=
  { nodes := [{ name := "Root", url := "r", depth := 0, children := [],
                has_file_children := true }]
    queue := []
    inflight := []
    seen := ["r"] }

/-! ## List helper lemmas -/

theorem length_modifyIdx (f : α → α) (i : Nat) (l : List α) :
    (modifyIdx f i l).length = l.length := by
  induction l generalizing i with
  | nil => cases i <;> rfl
  | cons a as ih =>
    cases i with
    | zero => rfl
    | succ n => simpa [modifyIdx] using ih n

theorem getElem?_modifyIdx_ne (f : α → α) {i j : Nat} (l : List α) (h : i ≠ j) :
    (modifyIdx f i l)[j]? = l[j]? := by
  induction l generalizing i j with
  | nil => cases i <;> rfl
  | cons a as ih =>
    cases i with
    | zero =>
      cases j with
      | zero => exact absurd rfl h
      | succ m => simp [modifyIdx]
    | succ n =>
      cases j with
      | zero => simp [modifyIdx]
      | succ m =>
        simpa [modifyIdx] using ih (i := n) (j := m) (by omega)

theorem getElem?_modifyIdx_self (f : α → α) (i : Nat) (l : List α) :
    (modifyIdx f i l)[i]? = l[i]?.map f := by
  induction l generalizing i with
  | nil => cases i <;> rfl
  | cons a as ih =>
    cases i with
    | zero => simp [modifyIdx]
    | succ n => simpa [modifyIdx] using ih n

theorem map_modifyIdx (f : α → α) (g : α → β) (i : Nat) (l : List α)
    (h : ∀ a, g (f a) = g a) : (modifyIdx f i l).map g = l.map g := by
  induction l generalizing i with
  | nil => cases i <;> rfl
  | cons a as ih =>
    cases i with
    | zero => simp [modifyIdx, h]
    | succ n => simp [modifyIdx, ih n]

theorem mem_modifyIdx (f : α → α) (i : Nat) (l : List α) {b : α}
    (hb : b ∈ modifyIdx f i l) : b ∈ l ∨ ∃ a ∈ l, b = f a := by
  induction l generalizing i with
  | nil => cases i <;> cases hb
  | cons a as ih =>
    cases i with
    | zero =>
      rcases List.mem_cons.1 hb with h | h
      · exact Or.inr ⟨a, List.mem_cons_self _ _, h⟩
      · exact Or.inl (List.mem_cons_of_mem _ h)
    | succ n =>
      rcases List.mem_cons.1 hb with h | h
      · exact Or.inl (h ▸ List.mem_cons_self _ _)
      · rcases ih n h with h' | ⟨a', ha', hb'⟩
        · exact Or.inl (List.mem_cons_of_mem _ h')
        · exact Or.inr ⟨a', List.mem_cons_of_mem _ ha', hb'⟩

theorem ext_lookup_lt (g : α → α) (c : α) {i j : Nat} (l : List α) (hij : i ≠ j)
    (hj : j < l.length) : (modifyIdx g i l ++ [c])[j]? = l[j]? := by
  rw [List.getElem?_append_left (by simpa [length_modifyIdx] using hj)]
  exact getElem?_modifyIdx_ne g l hij

theorem ext_lookup_self (g : α → α) (c : α) {i : Nat} (l : List α)
    (hi : i < l.length) : (modifyIdx g i l ++ [c])[i]? = l[i]?.map g := by
  rw [List.getElem?_append_left (by simpa [length_modifyIdx] using hi)]
  exact getElem?_modifyIdx_self g i l

theorem ext_lookup_len (g : α → α) (c : α) (i : Nat) (l : List α) :
    (modifyIdx g i l ++ [c])[l.length]? = some c := by
  rw [List.getElem?_append_right (by simp [length_modifyIdx])]
  simp [length_modifyIdx]

theorem ext_lookup_gt (g : α → α) (c : α) {i j : Nat} (l : List α)
    (hj : l.length < j) : (modifyIdx g i l ++ [c])[j]? = none := by
  apply List.getElem?_eq_none
  simp only [List.length_append, length_modifyIdx, List.length_singleton]
  omega

theorem ext_length (g : α → α) (c : α) (i : Nat) (l : List α) :
    (modifyIdx g i l ++ [c]).length = l.length + 1 := by
  simp [length_modifyIdx]

/-! ## Preservation of the `CatalogCrawler` invariant -/

theorem stepFolderM_skip {i d : Nat} {s : MState} {e : Entry}
    (hseen : norm e.url ∈ s.seen) : stepFolderM norm i d s e = s := by
  simp [stepFolderM, hseen]

theorem stepFolderM_pres (norm : String → String) {i d : Nat} {s : MState} (e : Entry)
    (h : MFold norm i d s) : MFold norm i d (stepFolderM norm i d s e) := by
  obtain ⟨inv, hilen, hiq, hii, hidep⟩ := h
  by_cases hseen : norm e.url ∈ s.seen
  · rw [stepFolderM_skip norm hseen]
    exact ⟨inv, hilen, hiq, hii, hidep⟩
  · obtain ⟨hlt, hnd, hpb, hin, his, hsn, hcl, hdr, hrd⟩ := inv
    simp only [stepFolderM, if_neg hseen]
    constructor
    · constructor
      · -- ids_lt
        intro j hj
        rw [ext_length]
        rcases List.mem_append.1 hj with hj | hj
        · rcases List.mem_append.1 hj with hj | hj
          · have := hlt j (List.mem_append.2 (Or.inl hj)); omega
          · rw [List.mem_singleton] at hj; omega
        · have := hlt j (List.mem_append.2 (Or.inr hj)); omega
      · -- ids_nodup
        have hLnot : s.nodes.length ∉ s.queue ++ s.inflight :=
          fun h => absurd (hlt _ h) (lt_irrefl _)
        rw [List.nodup_append] at hnd
        obtain ⟨hq, hinf, hdisj⟩ := hnd
        rw [List.nodup_append, List.nodup_append]
        refine ⟨⟨hq, List.nodup_singleton _, ?_⟩, hinf, ?_⟩
        · intro a ha hb
          rw [List.mem_singleton] at hb
          subst hb
          exact hLnot (List.mem_append.2 (Or.inl ha))
        · intro a ha hb
          rcases List.mem_append.1 ha with ha | ha
          · exact hdisj ha hb
          · rw [List.mem_singleton] at ha
            subst ha
            exact hLnot (List.mem_append.2 (Or.inr hb))
      · -- pending_blank
        intro j hj n hn
        have hj' : j ∈ s.queue ∨ j = s.nodes.length ∨ j ∈ s.inflight := by
          rcases List.mem_append.1 hj with hj | hj
          · rcases List.mem_append.1 hj with hj | hj
            · exact Or.inl hj
            · exact Or.inr (Or.inl (List.mem_singleton.1 hj))
          · exact Or.inr (Or.inr hj)
        rcases hj' with hj' | hj' | hj'
        · have hij : i ≠ j := fun h => hiq (h ▸ hj')
          have hjL : j < s.nodes.length := hlt j (List.mem_append.2 (Or.inl hj'))
          rw [ext_lookup_lt _ _ _ hij hjL] at hn
          exact hpb j (List.mem_append.2 (Or.inl hj')) n hn
        · subst hj'
          rw [ext_lookup_len] at hn
          obtain rfl := (Option.some.inj hn).symm
          exact ⟨rfl, rfl⟩
        · have hij : i ≠ j := fun h => hii (h ▸ hj')
          have hjL : j < s.nodes.length := hlt j (List.mem_append.2 (Or.inr hj'))
          rw [ext_lookup_lt _ _ _ hij hjL] at hn
          exact hpb j (List.mem_append.2 (Or.inr hj')) n hn
      · -- ident_nodup
        rw [List.map_append,
          map_modifyIdx (fun n => { n with children := n.children ++ [s.nodes.length] })
            (fun n => norm n.url) i s.nodes (fun a => rfl)]
        rw [List.nodup_append]
        refine ⟨hin, by simp, ?_⟩
        intro a ha hb
        simp only [List.map_cons, List.map_nil, List.mem_singleton] at hb
        subst hb
        rw [List.mem_map] at ha
        obtain ⟨n, hn, hna⟩ := ha
        exact hseen (hna ▸ his n hn)
      · -- ident_seen
        intro n hn
        rcases List.mem_append.1 hn with hn | hn
        · rcases mem_modifyIdx _ _ _ hn with hn | ⟨a, ha, rfl⟩
          · exact List.mem_append.2 (Or.inl (his n hn))
          · exact List.mem_append.2 (Or.inl (his a ha))
        · rw [List.mem_singleton] at hn
          subst hn
          exact List.mem_append.2 (Or.inr (List.mem_singleton.2 rfl))
      · -- seen_nodup
        rw [List.nodup_append]
        refine ⟨hsn, List.nodup_singleton _, ?_⟩
        intro a ha hb
        rw [List.mem_singleton] at hb
        subst hb
        exact hseen ha
      · -- children_lt
        intro n hn j hj
        rw [ext_length]
        rcases List.mem_append.1 hn with hn | hn
        · rcases mem_modifyIdx _ _ _ hn with hn | ⟨a, ha, rfl⟩
          · have := hcl n hn j hj; omega
          · rcases List.mem_append.1 hj with hj | hj
            · have := hcl a ha j hj; omega
            · rw [List.mem_singleton] at hj; omega
        · rw [List.mem_singleton] at hn
          subst hn
          simp at hj
      · -- depth_rel
        intro j nj hj k hk nk hk'
        rcases Nat.lt_trichotomy j s.nodes.length with hjL | hjL | hjL
        · by_cases hij : i = j
          · subst hij
            rw [ext_lookup_self _ _ _ hilen] at hj
            rw [Option.map_eq_some'] at hj
            obtain ⟨a, ha, rfl⟩ := hj
            rcases List.mem_append.1 hk with hk | hk
            · have hkL : k < s.nodes.length := hcl a (List.getElem?_mem ha) k hk
              by_cases hik : i = k
              · subst hik
                exact absurd (hdr i a ha i hk a ha) (by omega)
              · rw [ext_lookup_lt _ _ _ hik hkL] at hk'
                exact hdr i a ha k hk nk hk'
            · rw [List.mem_singleton] at hk
              subst hk
              rw [ext_lookup_len] at hk'
              obtain rfl := (Option.some.inj hk').symm
              have : a.depth = d := hidep a ha
              simp [this]
          · rw [ext_lookup_lt _ _ _ hij hjL] at hj
            have hkL : k < s.nodes.length := hcl nj (List.getElem?_mem hj) k hk
            by_cases hik : i = k
            · subst hik
              rw [ext_lookup_self _ _ _ hilen] at hk'
              rw [Option.map_eq_some'] at hk'
              obtain ⟨a, ha, rfl⟩ := hk'
              exact hdr j nj hj i hk a ha
            · rw [ext_lookup_lt _ _ _ hik hkL] at hk'
              exact hdr j nj hj k hk nk hk'
        · subst hjL
          rw [ext_lookup_len] at hj
          obtain rfl := (Option.some.inj hj).symm
          simp at hk
        · rw [ext_lookup_gt _ _ _ hjL] at hj
          cases hj
      · -- root_depth
        intro n hn
        by_cases hi0 : i = 0
        · subst hi0
          rw [ext_lookup_self _ _ _ hilen] at hn
          rw [Option.map_eq_some'] at hn
          obtain ⟨a, ha, rfl⟩ := hn
          exact hrd a ha
        · rw [ext_lookup_lt _ _ _ (by omega) (by omega)] at hn
          exact hrd n hn
    · refine ⟨?_, ?_, hii, ?_⟩
      · rw [ext_length]; omega
      · intro hmem
        rcases List.mem_append.1 hmem with hmem | hmem
        · exact hiq hmem
        · rw [List.mem_singleton] at hmem; omega
      · intro n hn
        rw [ext_lookup_self _ _ _ hilen] at hn
        rw [Option.map_eq_some'] at hn
        obtain ⟨a, ha, rfl⟩ := hn
        exact hidep a ha

theorem foldM_pres (norm : String → String) (es : List Entry) {i d : Nat} {s : MState}
    (h : MFold norm i d s) : MFold norm i d (es.foldl (stepFolderM norm i d) s) := by
  induction es generalizing s with
  | nil => exact h
  | cons e es ih => exact ih (stepFolderM_pres norm e h)

theorem hfcSet_pres (norm : String → String) {i d : Nat} {s : MState} (b : Bool)
    (h : MFold norm i d s) :
    MFold norm i d
      { s with nodes := modifyIdx (fun m => { m with has_file_children := b }) i s.nodes } := by
  obtain ⟨⟨hlt, hnd, hpb, hin, his, hsn, hcl, hdr, hrd⟩, hilen, hiq, hii, hidep⟩ := h
  have hlook : ∀ j : Nat, j ≠ i →
      (modifyIdx (fun m => { m with has_file_children := b }) i s.nodes)[j]? = s.nodes[j]? :=
    fun j hj => getElem?_modifyIdx_ne _ s.nodes (fun h => hj h.symm)
  have hlooki :
      (modifyIdx (fun m => { m with has_file_children := b }) i s.nodes)[i]? =
        s.nodes[i]?.map (fun m => { m with has_file_children := b }) :=
    getElem?_modifyIdx_self _ i s.nodes
  refine ⟨⟨?_, hnd, ?_, ?_, ?_, hsn, ?_, ?_, ?_⟩, ?_, hiq, hii, ?_⟩
  · intro j hj
    rw [length_modifyIdx]
    exact hlt j hj
  · intro j hj n hn
    have hij : j ≠ i := by
      intro h
      subst h
      rcases List.mem_append.1 hj with hj | hj
      · exact hiq hj
      · exact hii hj
    rw [hlook j hij] at hn
    exact hpb j hj n hn
  · rw [map_modifyIdx (fun m => { m with has_file_children := b })
      (fun n => norm n.url) i s.nodes (fun a => rfl)]
    exact hin
  · intro n hn
    rcases mem_modifyIdx _ _ _ hn with hn | ⟨a, ha, rfl⟩
    · exact his n hn
    · exact his a ha
  · intro n hn j hj
    rw [length_modifyIdx]
    rcases mem_modifyIdx _ _ _ hn with hn | ⟨a, ha, rfl⟩
    · exact hcl n hn j hj
    · exact hcl a ha j hj
  · intro p np hp k hk nk hk'
    dsimp only at hp hk'
    by_cases hpi : p = i
    · rw [hpi, hlooki, Option.map_eq_some'] at hp
      obtain ⟨a, ha, rfl⟩ := hp
      by_cases hki : k = i
      · rw [hki, hlooki, Option.map_eq_some'] at hk'
        obtain ⟨a', ha', rfl⟩ := hk'
        exact hdr i a ha i (hki ▸ hk) a' ha'
      · rw [hlook k hki] at hk'
        exact hdr i a ha k hk nk hk'
    · rw [hlook p hpi] at hp
      by_cases hki : k = i
      · rw [hki, hlooki, Option.map_eq_some'] at hk'
        obtain ⟨a', ha', rfl⟩ := hk'
        exact hdr p np hp i (hki ▸ hk) a' ha'
      · rw [hlook k hki] at hk'
        exact hdr p np hp k hk nk hk'
  · intro n hn
    dsimp only at hn
    by_cases hi0 : i = 0
    · rw [← hi0] at hn
      rw [hlooki, Option.map_eq_some'] at hn
      obtain ⟨a, ha, rfl⟩ := hn
      exact hrd a (hi0 ▸ ha)
    · rw [hlook 0 (fun h => hi0 h.symm)] at hn
      exact hrd n hn
  · dsimp only
    rw [length_modifyIdx]
    exact hilen
  · intro n hn
    dsimp only at hn
    rw [hlooki, Option.map_eq_some'] at hn
    obtain ⟨a, ha, rfl⟩ := hn
    exact hidep a ha

theorem completeM_pres (norm : String → String) (fetch : String → Option (List Entry))
    {i : Nat} {s : MState} (inv : MInv norm s) (hilen : i < s.nodes.length)
    (hiq : i ∉ s.queue) (hii : i ∉ s.inflight) :
    MInv norm (completeM norm fetch i s) := by
  cases hn : s.nodes[i]? with
  | none => simpa [completeM, hn] using inv
  | some n =>
    cases hf : fetch n.url with
    | none => simpa [completeM, hn, hf] using inv
    | some es =>
      have h1 : MFold norm i n.depth s :=
        ⟨inv, hilen, hiq, hii, fun m hm => by rw [hn] at hm; cases hm; rfl⟩
      have h2 := (foldM_pres norm (es.filter (·.kind == "FOLDER"))
        (hfcSet_pres norm (es.any (·.kind == "FILE")) h1)).1
      simpa [completeM, hn, hf] using h2

theorem MStep_inv (norm : String → String) (fetch : String → Option (List Entry))
    (maxc : Nat) {s s' : MState} (inv : MInv norm s)
    (hstep : MStep norm fetch maxc s s') : MInv norm s' := by
  cases hstep with
  | dispatch i q hq hc =>
    obtain ⟨hlt, hnd, hpb, hin, his, hsn, hcl, hdr, hrd⟩ := inv
    have hperm : List.Perm (q ++ (s.inflight ++ [i])) (s.queue ++ s.inflight) := by
      rw [hq, ← List.append_assoc]
      exact List.perm_append_singleton i (q ++ s.inflight)
    refine ⟨?_, ?_, ?_, hin, his, hsn, hcl, hdr, hrd⟩
    · intro j hj
      exact hlt j (hperm.mem_iff.1 hj)
    · exact (hperm.symm).nodup hnd
    · intro j hj n hn
      exact hpb j (hperm.mem_iff.1 hj) n hn
  | complete i hi =>
    obtain ⟨hlt, hnd, hpb, hin, his, hsn, hcl, hdr, hrd⟩ := inv
    have hsub : (s.queue ++ s.inflight.erase i).Sublist (s.queue ++ s.inflight) :=
      (s.inflight.erase_sublist i).append_left s.queue
    have inv' : MInv norm { s with inflight := s.inflight.erase i } := by
      refine ⟨?_, hsub.nodup hnd, ?_, hin, his, hsn, hcl, hdr, hrd⟩
      · intro j hj
        exact hlt j (hsub.subset hj)
      · intro j hj n hn
        exact hpb j (hsub.subset hj) n hn
    have hiq : i ∉ s.queue := by
      intro h
      rw [List.nodup_append] at hnd
      exact hnd.2.2 h hi
    have hii : i ∉ s.inflight.erase i := by
      rw [List.nodup_append] at hnd
      exact hnd.2.1.not_mem_erase
    exact completeM_pres norm fetch inv' (hlt i (List.mem_append.2 (Or.inr hi))) hiq hii

theorem MInv_init (norm : String → String) (rn ru : String) :
    MInv norm (initM norm rn ru) := by
  refine ⟨?_, ?_, ?_, ?_, ?_, ?_, ?_, ?_, ?_⟩
  · intro j hj
    simp [initM] at hj
    simp [initM, hj]
  · simp [initM]
  · intro j hj n hn
    simp [initM] at hj
    subst hj
    simp [initM] at hn
    subst hn
    exact ⟨rfl, rfl⟩
  · simp [initM]
  · intro n hn
    simp [initM] at hn
    subst hn
    simp [initM]
  · simp [initM]
  · intro n hn
    simp [initM] at hn
    subst hn
    simp
  · intro p np hp k hk nk hk'
    cases p with
    | zero =>
      simp [initM] at hp
      subst hp
      simp at hk
    | succ m =>
      simp [initM] at hp
  · intro n hn
    simp [initM] at hn
    subst hn
    rfl

theorem ReachM_inv (norm : String → String) (fetch : String → Option (List Entry))
    (maxc : Nat) (rn ru : String) {s : MState}
    (h : ReachM norm fetch maxc (initM norm rn ru) s) : MInv norm s := by
  induction h with
  | refl => exact MInv_init norm rn ru
  | tail _ hstep ih => exact MStep_inv norm fetch maxc ih hstep

/-! ## Frame lemmas for `CatalogCrawler` -/

theorem stepFolderM_inflight (norm : String → String) (i d : Nat) (s : MState) (e : Entry) :
    (stepFolderM norm i d s e).inflight = s.inflight := by
  by_cases h : norm e.url ∈ s.seen <;> simp [stepFolderM, h]

theorem foldM_inflight (norm : String → String) (es : List Entry) (i d : Nat) (s : MState) :
    (es.foldl (stepFolderM norm i d) s).inflight = s.inflight := by
  induction es generalizing s with
  | nil => rfl
  | cons e es ih => rw [List.foldl_cons, ih, stepFolderM_inflight]

theorem completeM_inflight (norm : String → String) (fetch : String → Option (List Entry))
    (i : Nat) (t : MState) : (completeM norm fetch i t).inflight = t.inflight := by
  cases hn : t.nodes[i]? with
  | none => simp [completeM, hn]
  | some n =>
    cases hf : fetch n.url with
    | none => simp [completeM, hn, hf]
    | some es => simp [completeM, hn, hf, foldM_inflight]

theorem MStep_bound (norm : String → String) (fetch : String → Option (List Entry))
    {maxc : Nat} {s s' : MState} (h : MStep norm fetch maxc s s')
    (hb : s.inflight.length ≤ maxc) : s'.inflight.length ≤ maxc := by
  cases h with
  | dispatch i q hq hc =>
    simp only [List.length_append, List.length_singleton]
    omega
  | complete i hi =>
    have h1 : (completeM norm fetch i { s with inflight := s.inflight.erase i }).inflight
        = s.inflight.erase i := completeM_inflight norm fetch i _
    rw [h1]
    have h2 := List.length_erase_of_mem hi
    omega

theorem stepFolderM_frame (norm : String → String) {c d r : Nat} {s : MState} (e : Entry)
    (hr : r < s.nodes.length) (hrc : c ≠ r) :
    (stepFolderM norm c d s e).nodes[r]? = s.nodes[r]? ∧
      s.nodes.length ≤ (stepFolderM norm c d s e).nodes.length := by
  by_cases h : norm e.url ∈ s.seen
  · simp [stepFolderM, h]
  · simp only [stepFolderM, if_neg h]
    refine ⟨ext_lookup_lt _ _ _ hrc hr, ?_⟩
    rw [ext_length]
    omega

theorem foldM_lookup_frame (norm : String → String) (es : List Entry) {c d r : Nat}
    {s : MState} (hr : r < s.nodes.length) (hrc : c ≠ r) :
    (es.foldl (stepFolderM norm c d) s).nodes[r]? = s.nodes[r]? ∧
      s.nodes.length ≤ (es.foldl (stepFolderM norm c d) s).nodes.length := by
  induction es generalizing s with
  | nil => exact ⟨rfl, le_refl _⟩
  | cons e es ih =>
    obtain ⟨h1, h2⟩ := stepFolderM_frame norm e hr hrc
    obtain ⟨h3, h4⟩ := ih (s := stepFolderM norm c d s e) (lt_of_lt_of_le hr h2)
    exact ⟨h3.trans h1, le_trans h2 h4⟩

theorem foldM_queue_frame (norm : String → String) (es : List Entry) {c d r : Nat}
    {s : MState} (hr : r < s.nodes.length) (hq : r ∉ s.queue) :
    r ∉ (es.foldl (stepFolderM norm c d) s).queue := by
  induction es generalizing s with
  | nil => exact hq
  | cons e es ih =>
    by_cases h : norm e.url ∈ s.seen
    · rw [List.foldl_cons, stepFolderM_skip norm h]
      exact ih hr hq
    · rw [List.foldl_cons]
      refine ih (s := stepFolderM norm c d s e) ?_ ?_
      · simp only [stepFolderM, if_neg h]
        rw [ext_length]
        omega
      · simp only [stepFolderM, if_neg h]
        intro hmem
        rcases List.mem_append.1 hmem with hmem | hmem
        · exact hq hmem
        · rw [List.mem_singleton] at hmem
          omega

theorem completeM_frame (norm : String → String) (fetch : String → Option (List Entry))
    {c r : Nat} {t : MState} (hr : r < t.nodes.length) (hrc : c ≠ r) (hq : r ∉ t.queue) :
    (completeM norm fetch c t).nodes[r]? = t.nodes[r]? ∧
      r ∉ (completeM norm fetch c t).queue ∧
      t.nodes.length ≤ (completeM norm fetch c t).nodes.length := by
  cases hn : t.nodes[c]? with
  | none => simp [completeM, hn, hq]
  | some n =>
    cases hf : fetch n.url with
    | none => simp [completeM, hn, hf, hq]
    | some es =>
      have hr1 : r < (modifyIdx
          (fun m => { m with has_file_children := es.any (·.kind == "FILE") }) c t.nodes).length := by
        rw [length_modifyIdx]
        exact hr
      have hlook : (modifyIdx
          (fun m => { m with has_file_children := es.any (·.kind == "FILE") }) c t.nodes)[r]?
          = t.nodes[r]? := getElem?_modifyIdx_ne _ t.nodes hrc
      obtain ⟨h1, h2⟩ := foldM_lookup_frame norm (es.filter (·.kind == "FOLDER"))
        (s := { t with nodes := modifyIdx (fun m => { m with has_file_children := es.any (·.kind == "FILE") }) c t.nodes })
        (d := n.depth) hr1 hrc
      have h3 := foldM_queue_frame norm (es.filter (·.kind == "FOLDER"))
        (s := { t with nodes := modifyIdx (fun m => { m with has_file_children := es.any (·.kind == "FILE") }) c t.nodes })
        (c := c) (d := n.depth) hr1 hq
      refine ⟨?_, ?_, ?_⟩
      · simp only [completeM, hn, hf]
        exact h1.trans hlook
      · simp only [completeM, hn, hf]
        exact h3
      · simp only [completeM, hn, hf]
        rw [length_modifyIdx] at h2
        exact h2

theorem completeM_fail (norm : String → String) (fetch : String → Option (List Entry))
    {i : Nat} {t : MState} {n : MNode} (hn : t.nodes[i]? = some n)
    (hf : fetch n.url = none) : completeM norm fetch i t = t := by
  simp [completeM, hn, hf]

theorem MStep_retired (norm : String → String) (fetch : String → Option (List Entry))
    {maxc : Nat} {s s' : MState} {r : Nat} (h : MStep norm fetch maxc s s')
    (hr : RetiredM s r) : RetiredM s' r ∧ s'.nodes[r]? = s.nodes[r]? := by
  obtain ⟨hlen, hq, hi⟩ := hr
  cases h with
  | dispatch i q hq' hc =>
    refine ⟨⟨hlen, ?_, ?_⟩, rfl⟩
    · intro hmem
      exact hq (hq' ▸ List.mem_cons_of_mem _ hmem)
    · intro hmem
      rcases List.mem_append.1 hmem with hmem | hmem
      · exact hi hmem
      · rw [List.mem_singleton] at hmem
        subst hmem
        exact hq (hq' ▸ List.mem_cons_self _ _)
  | complete i hi' =>
    have hir : i ≠ r := fun h => hi (h ▸ hi')
    obtain ⟨h1, h2, h3⟩ := completeM_frame norm fetch
      (t := { s with inflight := s.inflight.erase i }) (c := i) (r := r) hlen hir hq
    refine ⟨⟨lt_of_lt_of_le hlen h3, h2, ?_⟩, h1⟩
    rw [completeM_inflight]
    intro hmem
    exact hi ((s.inflight.erase_sublist i).subset hmem)

theorem ReachM_retired (norm : String → String) (fetch : String → Option (List Entry))
    {maxc : Nat} {s s' : MState} {r : Nat}
    (h : Relation.ReflTransGen (MStep norm fetch maxc) s s') (hr : RetiredM s r) :
    RetiredM s' r ∧ s'.nodes[r]? = s.nodes[r]? := by
  induction h with
  | refl => exact ⟨hr, rfl⟩
  | tail _ hstep ih =>
    obtain ⟨hr', heq⟩ := ih
    obtain ⟨hr'', heq'⟩ := MStep_retired norm fetch hstep hr'
    exact ⟨hr'', heq'.trans heq⟩

/-! ## What one completed fetch does to the completing node (`CatalogCrawler`) -/

theorem foldM_children (norm : String → String) (es : List Entry) {c d : Nat} {s : MState}
    (h : MFold norm c d s) {a : MNode} (ha : s.nodes[c]? = some a) :
    ∃ a', (es.foldl (stepFolderM norm c d) s).nodes[c]? = some a' ∧
      a'.name = a.name ∧ a'.url = a.url ∧ a'.depth = a.depth ∧
      a'.has_file_children = a.has_file_children ∧
      ∃ ids : List Nat, a'.children = a.children ++ ids ∧
        ids.map (childData (es.foldl (stepFolderM norm c d) s)) =
          (freshFoldersM norm s.seen es).map (fun e => some (e.name, e.url, d + 1)) := by
  induction es generalizing s a with
  | nil =>
    exact ⟨a, ha, rfl, rfl, rfl, rfl, [], by simp, by simp [freshFoldersM]⟩
  | cons e es ih =>
    have hclen : c < s.nodes.length := h.2.1
    by_cases hseen : norm e.url ∈ s.seen
    · rw [List.foldl_cons, stepFolderM_skip norm hseen]
      obtain ⟨a', h1, h2, h3, h4, h5, ids, h6, h7⟩ := ih h ha
      refine ⟨a', h1, h2, h3, h4, h5, ids, h6, ?_⟩
      rw [h7]
      simp [freshFoldersM, hseen]
    · rw [List.foldl_cons]
      have hpres := stepFolderM_pres norm e h
      have hs1c : (stepFolderM norm c d s e).nodes[c]? =
          some { a with children := a.children ++ [s.nodes.length] } := by
        simp only [stepFolderM, if_neg hseen]
        rw [ext_lookup_self _ _ _ hclen, ha]
        rfl
      obtain ⟨a', h1, h2, h3, h4, h5, ids, h6, h7⟩ := ih hpres hs1c
      have hLlt : s.nodes.length < (stepFolderM norm c d s e).nodes.length := by
        simp only [stepFolderM, if_neg hseen]
        rw [ext_length]
        omega
      have hLne : c ≠ s.nodes.length := by omega
      have hLnode : (stepFolderM norm c d s e).nodes[s.nodes.length]? =
          some { name := e.name, url := e.url, depth := d + 1 } := by
        simp only [stepFolderM, if_neg hseen]
        exact ext_lookup_len _ _ _ _
      obtain ⟨hLpres, _⟩ := foldM_lookup_frame norm es (s := stepFolderM norm c d s e)
        (d := d) hLlt hLne
      refine ⟨a', h1, h2, h3, h4, h5, s.nodes.length :: ids, ?_, ?_⟩
      · rw [h6]
        simp
      · rw [List.map_cons, h7]
        have hseen1 : (stepFolderM norm c d s e).seen = s.seen ++ [norm e.url] := by
          simp [stepFolderM, if_neg hseen]
        rw [hseen1]
        simp only [freshFoldersM, if_neg hseen, List.map_cons]
        congr 1
        unfold childData
        rw [hLpres, hLnode]
        rfl

theorem completeM_spec (norm : String → String) (fetch : String → Option (List Entry))
    {c : Nat} {t : MState} (inv : MInv norm t) (hclen : c < t.nodes.length)
    (hcq : c ∉ t.queue) (hci : c ∉ t.inflight) {n : MNode} {es : List Entry}
    (hn : t.nodes[c]? = some n) (hf : fetch n.url = some es) :
    ∃ n', (completeM norm fetch c t).nodes[c]? = some n' ∧
      n'.name = n.name ∧ n'.url = n.url ∧ n'.depth = n.depth ∧
      n'.has_file_children = es.any (·.kind == "FILE") ∧
      ∃ ids : List Nat, n'.children = n.children ++ ids ∧
        ids.map (childData (completeM norm fetch c t)) =
          (freshFoldersM norm t.seen (es.filter (·.kind == "FOLDER"))).map
            (fun e => some (e.name, e.url, n.depth + 1)) := by
  have hfold : MFold norm c n.depth t :=
    ⟨inv, hclen, hcq, hci, fun m hm => by rw [hn] at hm; cases hm; rfl⟩
  have h1 := hfcSet_pres norm (es.any (·.kind == "FILE")) hfold
  have hs1c : ({ t with nodes := modifyIdx (fun m => { m with has_file_children := es.any (·.kind == "FILE") }) c t.nodes } : MState).nodes[c]?
      = some { n with has_file_children := es.any (·.kind == "FILE") } := by
    dsimp only
    rw [getElem?_modifyIdx_self, hn]
    rfl
  obtain ⟨a', ha1, ha2, ha3, ha4, ha5, ids, ha6, ha7⟩ :=
    foldM_children norm (es.filter (·.kind == "FOLDER")) h1 hs1c
  refine ⟨a', ?_, ha2, ha3, ha4, by rw [ha5], ids, by simpa using ha6, ?_⟩
  · simp only [completeM, hn, hf]
    exact ha1
  · simp only [completeM, hn, hf]
    simpa using ha7

/-! ## Preservation of the `FullCatalogCrawler` invariant -/

theorem stepEntryF_not_folder (norm : String → String) {i : Nat} {s : FState} {e : Entry}
    (hkind : ¬e.kind = "FOLDER") :
    stepEntryF norm i s e =
      { s with nodes := modifyIdx (fun n => { n with children := n.children ++ [s.nodes.length] }) i s.nodes ++ [{ name := e.name, url := e.url, kind := e.kind }] } := by
  simp [stepEntryF, hkind]

theorem stepEntryF_dup (norm : String → String) {i : Nat} {s : FState} {e : Entry}
    (hkind : e.kind = "FOLDER") (hseen : norm e.url ∈ s.seen) :
    stepEntryF norm i s e =
      { s with nodes := modifyIdx (fun n => { n with children := n.children ++ [s.nodes.length] }) i s.nodes ++ [{ name := e.name, url := e.url, kind := e.kind }] } := by
  simp [stepEntryF, hkind, hseen]

theorem stepEntryF_fresh (norm : String → String) {i : Nat} {s : FState} {e : Entry}
    (hkind : e.kind = "FOLDER") (hseen : norm e.url ∉ s.seen) :
    stepEntryF norm i s e =
      { nodes := modifyIdx (fun n => { n with children := n.children ++ [s.nodes.length] }) i s.nodes ++ [{ name := e.name, url := e.url, kind := e.kind }]
        queue := s.queue ++ [s.nodes.length]
        inflight := s.inflight
        seen := s.seen ++ [norm e.url]
        enq := s.enq ++ [s.nodes.length] } := by
  simp [stepEntryF, hkind, hseen]

theorem extF_base_pres (norm : String → String) {i : Nat} {s : FState} (e : Entry)
    (h : FFold norm i s) :
    FFold norm i
      { s with nodes := modifyIdx (fun n => { n with children := n.children ++ [s.nodes.length] }) i s.nodes ++ [{ name := e.name, url := e.url, kind := e.kind }] } := by
  obtain ⟨⟨hlt, hnd, hse, hel, hinj, his, hsn, hce, hpb, hcl⟩, hilen, hiq, hii, hienq⟩ := h
  have hurl : ∀ p : Nat, p < s.nodes.length → ∀ np',
      (modifyIdx (fun n => { n with children := n.children ++ [s.nodes.length] }) i s.nodes ++ [{ name := e.name, url := e.url, kind := e.kind }])[p]? = some np' →
      ∃ np, s.nodes[p]? = some np ∧ np'.url = np.url ∧ np'.kind = np.kind := by
    intro p hp np' hnp'
    by_cases hpi : p = i
    · subst hpi
      rw [ext_lookup_self _ _ _ hilen, Option.map_eq_some'] at hnp'
      obtain ⟨a, ha, rfl⟩ := hnp'
      exact ⟨a, ha, rfl, rfl⟩
    · rw [ext_lookup_lt _ _ _ (fun h => hpi h.symm) hp] at hnp'
      exact ⟨np', hnp', rfl, rfl⟩
  refine ⟨⟨?_, hnd, hse, ?_, ?_, ?_, hsn, ?_, ?_, ?_⟩, ?_, hiq, hii, hienq⟩
  · intro j hj
    rw [ext_length]
    have := hlt j hj
    omega
  · intro j hj
    rw [ext_length]
    have := hel j hj
    omega
  · intro p q np' nq' hp hq hnp hnq hpq
    dsimp only at hnp hnq
    obtain ⟨np, hnp0, hnpu, _⟩ := hurl p (hel p hp) np' hnp
    obtain ⟨nq, hnq0, hnqu, _⟩ := hurl q (hel q hq) nq' hnq
    rw [hnpu, hnqu]
    exact hinj p q np nq hp hq hnp0 hnq0 hpq
  · intro p hp np' hnp
    dsimp only at hnp
    obtain ⟨np, hnp0, hnpu, _⟩ := hurl p (hel p hp) np' hnp
    rw [hnpu]
    exact his p hp np hnp0
  · intro p np' hnp hne
    dsimp only at hnp
    rcases Nat.lt_trichotomy p s.nodes.length with hpL | hpL | hpL
    · by_cases hpi : p = i
      · exact hpi ▸ hienq
      · rw [ext_lookup_lt _ _ _ (fun h => hpi h.symm) hpL] at hnp
        exact hce p np' hnp hne
    · subst hpL
      rw [ext_lookup_len] at hnp
      obtain rfl := (Option.some.inj hnp).symm
      exact absurd rfl hne
    · rw [ext_lookup_gt _ _ _ hpL] at hnp
      cases hnp
  · intro j hj n hn
    dsimp only at hn
    have hji : i ≠ j := by
      intro h
      subst h
      rcases List.mem_append.1 hj with hj | hj
      · exact hiq hj
      · exact hii hj
    rw [ext_lookup_lt _ _ _ hji (hlt j hj)] at hn
    exact hpb j hj n hn
  · intro n hn j hj
    rw [ext_length]
    rcases List.mem_append.1 hn with hn | hn
    · rcases mem_modifyIdx _ _ _ hn with hn | ⟨a, ha, rfl⟩
      · have := hcl n hn j hj
        omega
      · rcases List.mem_append.1 hj with hj | hj
        · have := hcl a ha j hj
          omega
        · rw [List.mem_singleton] at hj
          omega
    · rw [List.mem_singleton] at hn
      subst hn
      simp at hj
  · rw [ext_length]
    omega

theorem stepEntryF_pres (norm : String → String) {i : Nat} {s : FState} (e : Entry)
    (h : FFold norm i s) : FFold norm i (stepEntryF norm i s e) := by
  by_cases hkind : e.kind = "FOLDER"
  · by_cases hseen : norm e.url ∈ s.seen
    · rw [stepEntryF_dup norm hkind hseen]
      exact extF_base_pres norm e h
    · rw [stepEntryF_fresh norm hkind hseen]
      have hbase := extF_base_pres norm e h
      obtain ⟨⟨hlt, hnd, hse, hel, hinj, his, hsn, hce, hpb, hcl⟩, hilen, hiq, hii, hienq⟩ := hbase
      have h0 := h
      obtain ⟨⟨hlt0, hnd0, hse0, hel0, hinj0, his0, hsn0, hce0, hpb0, hcl0⟩, hilen0, hiq0, hii0, hienq0⟩ := h0
      refine ⟨⟨?_, ?_, ?_, ?_, ?_, ?_, ?_, ?_, ?_, hcl⟩, hilen, ?_, hii, ?_⟩
      · intro j hj
        have hj' : j ∈ s.queue ++ s.inflight ∨ j = s.nodes.length := by
          rcases List.mem_append.1 hj with hj | hj
          · rcases List.mem_append.1 hj with hj | hj
            · exact Or.inl (List.mem_append.2 (Or.inl hj))
            · exact Or.inr (List.mem_singleton.1 hj)
          · exact Or.inl (List.mem_append.2 (Or.inr hj))
        rcases hj' with hj' | hj'
        · exact hlt j (by simpa using hj')
        · subst hj'
          rw [ext_length]
          omega
      · have hLnot : s.nodes.length ∉ s.queue ++ s.inflight :=
          fun hmem => absurd (hlt0 _ hmem) (lt_irrefl _)
        rw [List.nodup_append] at hnd0
        obtain ⟨hq, hinf, hdisj⟩ := hnd0
        rw [List.nodup_append, List.nodup_append]
        refine ⟨⟨hq, List.nodup_singleton _, ?_⟩, hinf, ?_⟩
        · intro a ha hb
          rw [List.mem_singleton] at hb
          subst hb
          exact hLnot (List.mem_append.2 (Or.inl ha))
        · intro a ha hb
          rcases List.mem_append.1 ha with ha | ha
          · exact hdisj ha hb
          · rw [List.mem_singleton] at ha
            subst ha
            exact hLnot (List.mem_append.2 (Or.inr hb))
      · intro j hj
        rcases List.mem_append.1 hj with hj | hj
        · rcases List.mem_append.1 hj with hj | hj
          · exact List.mem_append.2 (Or.inl (hse j (List.mem_append.2 (Or.inl hj))))
          · exact List.mem_append.2 (Or.inr hj)
        · exact List.mem_append.2 (Or.inl (hse j (List.mem_append.2 (Or.inr hj))))
      · intro j hj
        rcases List.mem_append.1 hj with hj | hj
        · exact hel j hj
        · rw [List.mem_singleton] at hj
          subst hj
          rw [ext_length]
          omega
      · intro p q np nq hp hq hnp hnq hpq
        dsimp only at hnp hnq
        rcases List.mem_append.1 hp with hp | hp
        · rcases List.mem_append.1 hq with hq | hq
          · exact hinj p q np nq hp hq hnp hnq hpq
          · rw [List.mem_singleton] at hq
            subst hq
            rw [ext_lookup_len] at hnq
            obtain rfl := (Option.some.inj hnq).symm
            intro heq
            exact hseen (heq ▸ his p hp np hnp)
        · rw [List.mem_singleton] at hp
          subst hp
          rw [ext_lookup_len] at hnp
          obtain rfl := (Option.some.inj hnp).symm
          rcases List.mem_append.1 hq with hq | hq
          · intro heq
            exact hseen (heq.symm ▸ his q hq nq hnq)
          · rw [List.mem_singleton] at hq
            subst hq
            exact absurd rfl hpq
      · intro p hp np hnp
        dsimp only at hnp
        rcases List.mem_append.1 hp with hp | hp
        · exact List.mem_append.2 (Or.inl (his p hp np hnp))
        · rw [List.mem_singleton] at hp
          subst hp
          rw [ext_lookup_len] at hnp
          obtain rfl := (Option.some.inj hnp).symm
          exact List.mem_append.2 (Or.inr (List.mem_singleton.2 rfl))
      · rw [List.nodup_append]
        refine ⟨hsn0, List.nodup_singleton _, ?_⟩
        intro a ha hb
        rw [List.mem_singleton] at hb
        subst hb
        exact hseen ha
      · intro p np hnp hne
        dsimp only at hnp
        exact List.mem_append.2 (Or.inl (hce p np hnp hne))
      · intro j hj n hn
        dsimp only at hn
        have hj' : j ∈ s.queue ++ s.inflight ∨ j = s.nodes.length := by
          rcases List.mem_append.1 hj with hj | hj
          · rcases List.mem_append.1 hj with hj | hj
            · exact Or.inl (List.mem_append.2 (Or.inl hj))
            · exact Or.inr (List.mem_singleton.1 hj)
          · exact Or.inl (List.mem_append.2 (Or.inr hj))
        rcases hj' with hj' | hj'
        · exact hpb j (by simpa using hj') n hn
        · subst hj'
          rw [ext_lookup_len] at hn
          obtain rfl := (Option.some.inj hn).symm
          rfl
      · intro hmem
        rcases List.mem_append.1 hmem with hmem | hmem
        · exact hiq0 hmem
        · rw [List.mem_singleton] at hmem
          omega
      · exact List.mem_append.2 (Or.inl hienq)
  · rw [stepEntryF_not_folder norm hkind]
    exact extF_base_pres norm e h

theorem foldF_pres (norm : String → String) (es : List Entry) {i : Nat} {s : FState}
    (h : FFold norm i s) : FFold norm i (es.foldl (stepEntryF norm i) s) := by
  induction es generalizing s with
  | nil => exact h
  | cons e es ih => exact ih (stepEntryF_pres norm e h)

theorem completeF_pres (norm : String → String) (fetch : String → Option (List Entry))
    {i : Nat} {s : FState} (inv : FInv norm s) (hilen : i < s.nodes.length)
    (hiq : i ∉ s.queue) (hii : i ∉ s.inflight) (hienq : i ∈ s.enq) :
    FInv norm (completeF norm fetch i s) := by
  cases hn : s.nodes[i]? with
  | none => simpa [completeF, hn] using inv
  | some n =>
    cases hf : fetch n.url with
    | none => simpa [completeF, hn, hf] using inv
    | some es =>
      have h2 := (foldF_pres norm es ⟨inv, hilen, hiq, hii, hienq⟩).1
      simpa [completeF, hn, hf] using h2

theorem FStep_inv (norm : String → String) (fetch : String → Option (List Entry))
    (maxc : Nat) {s s' : FState} (inv : FInv norm s)
    (hstep : FStep norm fetch maxc s s') : FInv norm s' := by
  cases hstep with
  | dispatch i q hq hc =>
    obtain ⟨hlt, hnd, hse, hel, hinj, his, hsn, hce, hpb, hcl⟩ := inv
    have hperm : List.Perm (q ++ (s.inflight ++ [i])) (s.queue ++ s.inflight) := by
      rw [hq, ← List.append_assoc]
      exact List.perm_append_singleton i (q ++ s.inflight)
    refine ⟨?_, ?_, ?_, hel, hinj, his, hsn, hce, ?_, hcl⟩
    · intro j hj
      exact hlt j (hperm.mem_iff.1 hj)
    · exact (hperm.symm).nodup hnd
    · intro j hj
      exact hse j (hperm.mem_iff.1 hj)
    · intro j hj n hn
      exact hpb j (hperm.mem_iff.1 hj) n hn
  | complete i hi =>
    obtain ⟨hlt, hnd, hse, hel, hinj, his, hsn, hce, hpb, hcl⟩ := inv
    have hsub : (s.queue ++ s.inflight.erase i).Sublist (s.queue ++ s.inflight) :=
      (s.inflight.erase_sublist i).append_left s.queue
    have inv' : FInv norm { s with inflight := s.inflight.erase i } := by
      refine ⟨?_, hsub.nodup hnd, ?_, hel, hinj, his, hsn, hce, ?_, hcl⟩
      · intro j hj
        exact hlt j (hsub.subset hj)
      · intro j hj
        exact hse j (hsub.subset hj)
      · intro j hj n hn
        exact hpb j (hsub.subset hj) n hn
    have hiq : i ∉ s.queue := by
      intro h
      rw [List.nodup_append] at hnd
      exact hnd.2.2 h hi
    have hii : i ∉ s.inflight.erase i := by
      rw [List.nodup_append] at hnd
      exact hnd.2.1.not_mem_erase
    exact completeF_pres norm fetch inv' (hlt i (List.mem_append.2 (Or.inr hi))) hiq hii
      (hse i (List.mem_append.2 (Or.inr hi)))

theorem FInv_init (norm : String → String) (rn ru : String) :
    FInv norm (initF norm rn ru) := by
  refine ⟨?_, ?_, ?_, ?_, ?_, ?_, ?_, ?_, ?_, ?_⟩
  · intro j hj
    simp [initF] at hj
    simp [initF, hj]
  · simp [initF]
  · intro j hj
    simp [initF] at hj
    simp [initF, hj]
  · intro j hj
    simp [initF] at hj
    simp [initF, hj]
  · intro p q np nq hp hq hnp hnq hpq
    simp [initF] at hp hq
    subst hp
    subst hq
    exact absurd rfl hpq
  · intro p hp n hn
    simp [initF] at hp
    subst hp
    simp [initF] at hn
    subst hn
    simp [initF]
  · simp [initF]
  · intro p n hn hne
    cases p with
    | zero => simp [initF]
    | succ m => simp [initF] at hn
  · intro j hj n hn
    simp [initF] at hj
    subst hj
    simp [initF] at hn
    subst hn
    rfl
  · intro n hn
    simp [initF] at hn
    subst hn
    simp

theorem ReachF_inv (norm : String → String) (fetch : String → Option (List Entry))
    (maxc : Nat) (rn ru : String) {s : FState}
    (h : ReachF norm fetch maxc (initF norm rn ru) s) : FInv norm s := by
  induction h with
  | refl => exact FInv_init norm rn ru
  | tail _ hstep ih => exact FStep_inv norm fetch maxc ih hstep

/-! ## Frame lemmas for `FullCatalogCrawler` -/

theorem stepEntryF_nodes (norm : String → String) (i : Nat) (s : FState) (e : Entry) :
    (stepEntryF norm i s e).nodes =
      modifyIdx (fun n => { n with children := n.children ++ [s.nodes.length] }) i s.nodes
        ++ [{ name := e.name, url := e.url, kind := e.kind }] := by
  by_cases hkind : e.kind = "FOLDER"
  · by_cases hseen : norm e.url ∈ s.seen
    · rw [stepEntryF_dup norm hkind hseen]
    · rw [stepEntryF_fresh norm hkind hseen]
  · rw [stepEntryF_not_folder norm hkind]

theorem stepEntryF_inflight (norm : String → String) (i : Nat) (s : FState) (e : Entry) :
    (stepEntryF norm i s e).inflight = s.inflight := by
  by_cases hkind : e.kind = "FOLDER"
  · by_cases hseen : norm e.url ∈ s.seen
    · rw [stepEntryF_dup norm hkind hseen]
    · rw [stepEntryF_fresh norm hkind hseen]
  · rw [stepEntryF_not_folder norm hkind]

theorem stepEntryF_seen_mono (norm : String → String) (i : Nat) (s : FState) (e : Entry) :
    ∃ xs : List String, (stepEntryF norm i s e).seen = s.seen ++ xs := by
  by_cases hkind : e.kind = "FOLDER"
  · by_cases hseen : norm e.url ∈ s.seen
    · rw [stepEntryF_dup norm hkind hseen]
      exact ⟨[], by simp⟩
    · rw [stepEntryF_fresh norm hkind hseen]
      exact ⟨[norm e.url], rfl⟩
  · rw [stepEntryF_not_folder norm hkind]
    exact ⟨[], by simp⟩

theorem foldF_inflight (norm : String → String) (es : List Entry) (i : Nat) (s : FState) :
    (es.foldl (stepEntryF norm i) s).inflight = s.inflight := by
  induction es generalizing s with
  | nil => rfl
  | cons e es ih => rw [List.foldl_cons, ih, stepEntryF_inflight]

theorem completeF_inflight (norm : String → String) (fetch : String → Option (List Entry))
    (i : Nat) (t : FState) : (completeF norm fetch i t).inflight = t.inflight := by
  cases hn : t.nodes[i]? with
  | none => simp [completeF, hn]
  | some n =>
    cases hf : fetch n.url with
    | none => simp [completeF, hn, hf]
    | some es => simp [completeF, hn, hf, foldF_inflight]

theorem FStep_bound (norm : String → String) (fetch : String → Option (List Entry))
    {maxc : Nat} {s s' : FState} (h : FStep norm fetch maxc s s')
    (hb : s.inflight.length ≤ maxc) : s'.inflight.length ≤ maxc := by
  cases h with
  | dispatch i q hq hc =>
    simp only [List.length_append, List.length_singleton]
    omega
  | complete i hi =>
    have h1 : (completeF norm fetch i { s with inflight := s.inflight.erase i }).inflight
        = s.inflight.erase i := completeF_inflight norm fetch i _
    rw [h1]
    have h2 := List.length_erase_of_mem hi
    omega

theorem stepEntryF_frame (norm : String → String) {c r : Nat} {s : FState} (e : Entry)
    (hr : r < s.nodes.length) (hrc : c ≠ r) :
    (stepEntryF norm c s e).nodes[r]? = s.nodes[r]? ∧
      s.nodes.length ≤ (stepEntryF norm c s e).nodes.length := by
  rw [stepEntryF_nodes]
  refine ⟨ext_lookup_lt _ _ _ hrc hr, ?_⟩
  rw [ext_length]
  omega

theorem foldF_lookup_frame (norm : String → String) (es : List Entry) {c r : Nat}
    {s : FState} (hr : r < s.nodes.length) (hrc : c ≠ r) :
    (es.foldl (stepEntryF norm c) s).nodes[r]? = s.nodes[r]? ∧
      s.nodes.length ≤ (es.foldl (stepEntryF norm c) s).nodes.length := by
  induction es generalizing s with
  | nil => exact ⟨rfl, le_refl _⟩
  | cons e es ih =>
    obtain ⟨h1, h2⟩ := stepEntryF_frame norm e hr hrc
    obtain ⟨h3, h4⟩ := ih (s := stepEntryF norm c s e) (lt_of_lt_of_le hr h2)
    exact ⟨h3.trans h1, le_trans h2 h4⟩

theorem stepEntryF_queue_frame (norm : String → String) {c r : Nat} {s : FState} (e : Entry)
    (hr : r < s.nodes.length) (hq : r ∉ s.queue) : r ∉ (stepEntryF norm c s e).queue := by
  by_cases hkind : e.kind = "FOLDER"
  · by_cases hseen : norm e.url ∈ s.seen
    · rw [stepEntryF_dup norm hkind hseen]
      exact hq
    · rw [stepEntryF_fresh norm hkind hseen]
      intro hmem
      rcases List.mem_append.1 hmem with hmem | hmem
      · exact hq hmem
      · rw [List.mem_singleton] at hmem
        omega
  · rw [stepEntryF_not_folder norm hkind]
    exact hq

theorem stepEntryF_len (norm : String → String) (c : Nat) (s : FState) (e : Entry) :
    (stepEntryF norm c s e).nodes.length = s.nodes.length + 1 := by
  rw [stepEntryF_nodes, ext_length]

theorem foldF_queue_frame (norm : String → String) (es : List Entry) {c r : Nat}
    {s : FState} (hr : r < s.nodes.length) (hq : r ∉ s.queue) :
    r ∉ (es.foldl (stepEntryF norm c) s).queue := by
  induction es generalizing s with
  | nil => exact hq
  | cons e es ih =>
    rw [List.foldl_cons]
    refine ih ?_ (stepEntryF_queue_frame norm e hr hq)
    rw [stepEntryF_len]
    omega

theorem completeF_frame (norm : String → String) (fetch : String → Option (List Entry))
    {c r : Nat} {t : FState} (hr : r < t.nodes.length) (hrc : c ≠ r) (hq : r ∉ t.queue) :
    (completeF norm fetch c t).nodes[r]? = t.nodes[r]? ∧
      r ∉ (completeF norm fetch c t).queue ∧
      t.nodes.length ≤ (completeF norm fetch c t).nodes.length := by
  cases hn : t.nodes[c]? with
  | none => simp [completeF, hn, hq]
  | some n =>
    cases hf : fetch n.url with
    | none => simp [completeF, hn, hf, hq]
    | some es =>
      obtain ⟨h1, h2⟩ := foldF_lookup_frame norm es (s := t) hr hrc
      have h3 := foldF_queue_frame norm es (s := t) (c := c) hr hq
      refine ⟨?_, ?_, ?_⟩ <;> simp only [completeF, hn, hf]
      · exact h1
      · exact h3
      · exact h2

theorem completeF_fail (norm : String → String) (fetch : String → Option (List Entry))
    {i : Nat} {t : FState} {n : FNode} (hn : t.nodes[i]? = some n)
    (hf : fetch n.url = none) : completeF norm fetch i t = t := by
  simp [completeF, hn, hf]

theorem FStep_retired (norm : String → String) (fetch : String → Option (List Entry))
    {maxc : Nat} {s s' : FState} {r : Nat} (h : FStep norm fetch maxc s s')
    (hr : RetiredF s r) : RetiredF s' r ∧ s'.nodes[r]? = s.nodes[r]? := by
  obtain ⟨hlen, hq, hi⟩ := hr
  cases h with
  | dispatch i q hq' hc =>
    refine ⟨⟨hlen, ?_, ?_⟩, rfl⟩
    · intro hmem
      exact hq (hq' ▸ List.mem_cons_of_mem _ hmem)
    · intro hmem
      rcases List.mem_append.1 hmem with hmem | hmem
      · exact hi hmem
      · rw [List.mem_singleton] at hmem
        subst hmem
        exact hq (hq' ▸ List.mem_cons_self _ _)
  | complete i hi' =>
    have hir : i ≠ r := fun h => hi (h ▸ hi')
    obtain ⟨h1, h2, h3⟩ := completeF_frame norm fetch
      (t := { s with inflight := s.inflight.erase i }) (c := i) (r := r) hlen hir hq
    refine ⟨⟨lt_of_lt_of_le hlen h3, h2, ?_⟩, h1⟩
    rw [completeF_inflight]
    intro hmem
    exact hi ((s.inflight.erase_sublist i).subset hmem)

theorem ReachF_retired (norm : String → String) (fetch : String → Option (List Entry))
    {maxc : Nat} {s s' : FState} {r : Nat}
    (h : Relation.ReflTransGen (FStep norm fetch maxc) s s') (hr : RetiredF s r) :
    RetiredF s' r ∧ s'.nodes[r]? = s.nodes[r]? := by
  induction h with
  | refl => exact ⟨hr, rfl⟩
  | tail _ hstep ih =>
    obtain ⟨hr', heq⟩ := ih
    obtain ⟨hr'', heq'⟩ := FStep_retired norm fetch hstep hr'
    exact ⟨hr'', heq'.trans heq⟩

/-! ## What one completed fetch does to the completing node (`FullCatalogCrawler`) -/

theorem foldF_children (norm : String → String) (es : List Entry) {c : Nat} {s : FState}
    (h : FFold norm c s) {a : FNode} (ha : s.nodes[c]? = some a) :
    ∃ a', (es.foldl (stepEntryF norm c) s).nodes[c]? = some a' ∧
      a'.name = a.name ∧ a'.url = a.url ∧ a'.kind = a.kind ∧
      a'.children = a.children ++ List.range' s.nodes.length es.length ∧
      (es.foldl (stepEntryF norm c) s).nodes.length = s.nodes.length + es.length ∧
      ∀ t, ∀ e, es[t]? = some e →
        (es.foldl (stepEntryF norm c) s).nodes[s.nodes.length + t]? =
          some { name := e.name, url := e.url, kind := e.kind } := by
  induction es generalizing s a with
  | nil =>
    refine ⟨a, ha, rfl, rfl, rfl, by simp, by simp, ?_⟩
    intro t e he
    simp at he
  | cons e es ih =>
    have hclen : c < s.nodes.length := h.2.1
    have hpres := stepEntryF_pres norm e h
    have hs1c : (stepEntryF norm c s e).nodes[c]? =
        some { a with children := a.children ++ [s.nodes.length] } := by
      rw [stepEntryF_nodes]
      rw [ext_lookup_self _ _ _ hclen, ha]
      rfl
    have hs1len : (stepEntryF norm c s e).nodes.length = s.nodes.length + 1 := by
      rw [stepEntryF_nodes, ext_length]
    obtain ⟨a', h1, h2, h3, h4, h5, h6, h7⟩ := ih hpres hs1c
    have hLnode : (stepEntryF norm c s e).nodes[s.nodes.length]? =
        some { name := e.name, url := e.url, kind := e.kind } := by
      rw [stepEntryF_nodes]
      exact ext_lookup_len _ _ _ _
    refine ⟨a', by rw [List.foldl_cons]; exact h1, h2, h3, h4, ?_, ?_, ?_⟩
    · rw [h5, hs1len]
      simp [List.range'_succ]
    · rw [List.foldl_cons, h6, hs1len]
      simp only [List.length_cons]
      omega
    · intro t f hf
      cases t with
      | zero =>
        rw [List.getElem?_cons_zero] at hf
        obtain rfl := Option.some.inj hf
        rw [List.foldl_cons]
        have hLlt : s.nodes.length < (stepEntryF norm c s e).nodes.length := by
          rw [hs1len]
          omega
        have hLne : c ≠ s.nodes.length := by omega
        obtain ⟨hkeep, _⟩ := foldF_lookup_frame norm es (s := stepEntryF norm c s e) hLlt hLne
        rw [Nat.add_zero, hkeep, hLnode]
      | succ m =>
        rw [List.getElem?_cons_succ] at hf
        rw [List.foldl_cons]
        have := h7 m f hf
        rw [hs1len] at this
        rw [show s.nodes.length + (m + 1) = s.nodes.length + 1 + m by omega]
        exact this

theorem completeF_spec (norm : String → String) (fetch : String → Option (List Entry))
    {c : Nat} {t : FState} (inv : FInv norm t) (hclen : c < t.nodes.length)
    (hcq : c ∉ t.queue) (hci : c ∉ t.inflight) (hcenq : c ∈ t.enq) {n : FNode}
    {es : List Entry} (hn : t.nodes[c]? = some n) (hf : fetch n.url = some es) :
    ∃ n', (completeF norm fetch c t).nodes[c]? = some n' ∧
      n'.name = n.name ∧ n'.url = n.url ∧ n'.kind = n.kind ∧
      n'.children = n.children ++ List.range' t.nodes.length es.length ∧
      (completeF norm fetch c t).nodes.length = t.nodes.length + es.length ∧
      ∀ k, ∀ e, es[k]? = some e →
        (completeF norm fetch c t).nodes[t.nodes.length + k]? =
          some { name := e.name, url := e.url, kind := e.kind } := by
  have h := foldF_children norm es (c := c) ⟨inv, hclen, hcq, hci, hcenq⟩ hn
  simpa [completeF, hn, hf] using h

/-! ## Termination: measure decrease and progress (`CatalogCrawler`) -/

theorem countP_seen_lt {U seen : List String} {x : String} (hxU : x ∈ U) (hx : x ∉ seen) :
    (U.countP fun u => decide (u ∉ seen ++ [x])) < U.countP fun u => decide (u ∉ seen) := by
  induction U with
  | nil => cases hxU
  | cons u U ih =>
    rw [List.countP_cons, List.countP_cons]
    have hmono : (U.countP fun u => decide (u ∉ seen ++ [x])) ≤
        U.countP fun u => decide (u ∉ seen) := by
      apply List.countP_mono_left
      intro a _ ha
      simp only [decide_eq_true_eq] at ha ⊢
      intro hmem
      exact ha (List.mem_append.2 (Or.inl hmem))
    by_cases hux : u = x
    · have h1 : (decide (u ∉ seen ++ [x]) : Bool) = false := by
        simp [hux]
      have h2 : (decide (u ∉ seen) : Bool) = true := by
        subst hux
        simpa using hx
      simp only [h1, h2, Bool.false_eq_true, if_false, if_true]
      omega
    · have h3 : (decide (u ∉ seen ++ [x]) : Bool) = decide (u ∉ seen) :=
        decide_eq_decide.2 (by simp [hux])
      have hxU' : x ∈ U := by
        rcases List.mem_cons.1 hxU with h | h
        · exact absurd h.symm hux
        · exact h
      have := ih hxU'
      rw [h3]
      omega

theorem stepFolderM_measure (norm : String → String) {i d : Nat} {s : MState}
    {U : List String} (e : Entry) (heU : norm e.url ∈ U) :
    measureM U (stepFolderM norm i d s e) ≤ measureM U s := by
  by_cases h : norm e.url ∈ s.seen
  · rw [stepFolderM_skip norm h]
  · simp only [stepFolderM, if_neg h]
    unfold measureM
    dsimp only
    have := @countP_seen_lt _ s.seen _ heU h
    simp only [List.length_append, List.length_singleton]
    omega

theorem foldM_measure (norm : String → String) (es : List Entry) {i d : Nat} {s : MState}
    {U : List String} (hes : ∀ e ∈ es, norm e.url ∈ U) :
    measureM U (es.foldl (stepFolderM norm i d) s) ≤ measureM U s := by
  induction es generalizing s with
  | nil => exact le_refl _
  | cons e es ih =>
    rw [List.foldl_cons]
    exact le_trans (ih fun e' he' => hes e' (List.mem_cons_of_mem _ he'))
      (stepFolderM_measure norm e (hes e (List.mem_cons_self _ _)))

theorem completeM_measure (norm : String → String) (fetch : String → Option (List Entry))
    {c : Nat} {t : MState} {U : List String} (hclosed : FolderClosed norm fetch U)
    {n : MNode} (hn : t.nodes[c]? = some n) (hnU : norm n.url ∈ U) :
    measureM U (completeM norm fetch c t) ≤ measureM U t := by
  cases hf : fetch n.url with
  | none => rw [completeM_fail norm fetch hn hf]
  | some es =>
    have hes : ∀ e ∈ es.filter (·.kind == "FOLDER"), norm e.url ∈ U := by
      intro e he
      rw [List.mem_filter] at he
      exact hclosed n.url es hnU hf e he.1 (by simpa using he.2)
    have h1 := foldM_measure norm (es.filter (·.kind == "FOLDER"))
      (i := c) (d := n.depth)
      (s := { t with nodes := modifyIdx (fun m => { m with has_file_children := es.any (·.kind == "FILE") }) c t.nodes })
      hes
    have h2 : measureM U { t with nodes := modifyIdx (fun m => { m with has_file_children := es.any (·.kind == "FILE") }) c t.nodes } = measureM U t := rfl
    simp only [completeM, hn, hf]
    rw [h2] at h1
    exact h1

theorem MStep_measure (norm : String → String) (fetch : String → Option (List Entry))
    {maxc : Nat} {U : List String} {s s' : MState} (hclosed : FolderClosed norm fetch U)
    (hU : MUInv norm U s) (h : MStep norm fetch maxc s s') :
    measureM U s' < measureM U s := by
  cases h with
  | dispatch i q hq hc =>
    unfold measureM
    dsimp only
    rw [hq]
    simp
    omega
  | complete i hi =>
    obtain ⟨n, hn, hnU⟩ := hU i (List.mem_append.2 (Or.inr hi))
    have h1 := completeM_measure norm fetch (t := { s with inflight := s.inflight.erase i })
      hclosed (n := n) hn hnU
    have h2 : measureM U { s with inflight := s.inflight.erase i } < measureM U s := by
      unfold measureM
      dsimp only
      have := List.length_erase_of_mem hi
      have hpos : 0 < s.inflight.length := List.length_pos_of_mem hi
      omega
    exact lt_of_le_of_lt h1 h2

theorem stepFolderM_MUInv (norm : String → String) {i d : Nat} {s : MState}
    {U : List String} (e : Entry) (heU : norm e.url ∈ U) (h : MFold norm i d s)
    (hU : MUInv norm U s) : MUInv norm U (stepFolderM norm i d s e) := by
  obtain ⟨⟨hlt, _, _, _, _, _, _, _, _⟩, hilen, hiq, hii, _⟩ := h
  by_cases hseen : norm e.url ∈ s.seen
  · rw [stepFolderM_skip norm hseen]
    exact hU
  · simp only [stepFolderM, if_neg hseen]
    intro j hj
    dsimp only at hj ⊢
    have hj' : j ∈ s.queue ++ s.inflight ∨ j = s.nodes.length := by
      rcases List.mem_append.1 hj with hj | hj
      · rcases List.mem_append.1 hj with hj | hj
        · exact Or.inl (List.mem_append.2 (Or.inl hj))
        · exact Or.inr (List.mem_singleton.1 hj)
      · exact Or.inl (List.mem_append.2 (Or.inr hj))
    rcases hj' with hj' | hj'
    · obtain ⟨n, hn, hnU⟩ := hU j hj'
      have hij : i ≠ j := by
        intro hh
        subst hh
        rcases List.mem_append.1 hj' with hj' | hj'
        · exact hiq hj'
        · exact hii hj'
      refine ⟨n, ?_, hnU⟩
      rw [ext_lookup_lt _ _ _ hij (hlt j hj')]
      exact hn
    · subst hj'
      refine ⟨{ name := e.name, url := e.url, depth := d + 1 }, ?_, heU⟩
      exact ext_lookup_len _ _ _ _

theorem foldM_MUInv (norm : String → String) (es : List Entry) {i d : Nat} {s : MState}
    {U : List String} (hes : ∀ e ∈ es, norm e.url ∈ U) (h : MFold norm i d s)
    (hU : MUInv norm U s) : MUInv norm U (es.foldl (stepFolderM norm i d) s) := by
  induction es generalizing s with
  | nil => exact hU
  | cons e es ih =>
    rw [List.foldl_cons]
    exact ih (fun e' he' => hes e' (List.mem_cons_of_mem _ he'))
      (stepFolderM_pres norm e h)
      (stepFolderM_MUInv norm e (hes e (List.mem_cons_self _ _)) h hU)

theorem MStep_MUInv (norm : String → String) (fetch : String → Option (List Entry))
    {maxc : Nat} {U : List String} {s s' : MState} (hclosed : FolderClosed norm fetch U)
    (inv : MInv norm s) (hU : MUInv norm U s) (h : MStep norm fetch maxc s s') :
    MUInv norm U s' := by
  cases h with
  | dispatch i q hq hc =>
    have hperm : List.Perm (q ++ (s.inflight ++ [i])) (s.queue ++ s.inflight) := by
      rw [hq, ← List.append_assoc]
      exact List.perm_append_singleton i (q ++ s.inflight)
    intro j hj
    exact hU j (hperm.mem_iff.1 hj)
  | complete i hi =>
    obtain ⟨hlt, hnd, hpb, hin, his, hsn, hcl, hdr, hrd⟩ := inv
    have hsub : (s.queue ++ s.inflight.erase i).Sublist (s.queue ++ s.inflight) :=
      (s.inflight.erase_sublist i).append_left s.queue
    have hUt : MUInv norm U { s with inflight := s.inflight.erase i } := by
      intro j hj
      exact hU j (hsub.subset hj)
    have hiq : i ∉ s.queue := by
      intro hmem
      rw [List.nodup_append] at hnd
      exact hnd.2.2 hmem hi
    have hii : i ∉ s.inflight.erase i := by
      rw [List.nodup_append] at hnd
      exact hnd.2.1.not_mem_erase
    have hilen : i < s.nodes.length := hlt i (List.mem_append.2 (Or.inr hi))
    have invt : MInv norm { s with inflight := s.inflight.erase i } := by
      refine ⟨?_, hsub.nodup hnd, ?_, hin, his, hsn, hcl, hdr, hrd⟩
      · intro j hj
        exact hlt j (hsub.subset hj)
      · intro j hj n hn
        exact hpb j (hsub.subset hj) n hn
    cases hn : s.nodes[i]? with
    | none =>
      intro j hj
      simp only [completeM, hn] at hj ⊢
      exact hUt j hj
    | some n =>
      cases hf : fetch n.url with
      | none =>
        intro j hj
        simp only [completeM, hn, hf] at hj ⊢
        exact hUt j hj
      | some es =>
        obtain ⟨n', hn', hn'U⟩ := hU i (List.mem_append.2 (Or.inr hi))
        rw [hn] at hn'
        obtain rfl := Option.some.inj hn'
        have hes : ∀ e ∈ es.filter (·.kind == "FOLDER"), norm e.url ∈ U := by
          intro e he
          rw [List.mem_filter] at he
          exact hclosed n.url es hn'U hf e he.1 (by simpa using he.2)
        have hfold : MFold norm i n.depth { s with inflight := s.inflight.erase i } :=
          ⟨invt, hilen, hiq, hii, fun m hm => by
            dsimp only at hm
            rw [hn] at hm
            cases hm
            rfl⟩
        have hU1 := hfcSet_pres norm (es.any (·.kind == "FILE")) hfold
        have hUmod : MUInv norm U { ({ s with inflight := s.inflight.erase i } : MState) with nodes := modifyIdx (fun m => { m with has_file_children := es.any (·.kind == "FILE") }) i s.nodes } := by
          intro j hj
          dsimp only at hj ⊢
          obtain ⟨m, hm, hmU⟩ := hUt j hj
          by_cases hji : j = i
          · subst hji
            refine ⟨{ m with has_file_children := es.any (·.kind == "FILE") }, ?_, hmU⟩
            rw [getElem?_modifyIdx_self]
            dsimp only at hm
            rw [hm]
            rfl
          · refine ⟨m, ?_, hmU⟩
            rw [getElem?_modifyIdx_ne _ _ (fun hh => hji hh.symm)]
            exact hm
        have := foldM_MUInv norm (es.filter (·.kind == "FOLDER")) hes hU1 hUmod
        intro j hj
        simp only [completeM, hn, hf] at hj ⊢
        exact this j hj

theorem MUInv_init (norm : String → String) {U : List String} (rn : String) {ru : String}
    (hru : norm ru ∈ U) : MUInv norm U (initM norm rn ru) := by
  intro j hj
  simp [initM] at hj
  subst hj
  exact ⟨{ name := rn, url := ru, depth := 0 }, by simp [initM], hru⟩

theorem no_infinite_run_M (norm : String → String) (fetch : String → Option (List Entry))
    (maxc : Nat) (U : List String) (rn ru : String) (hclosed : FolderClosed norm fetch U)
    (hru : norm ru ∈ U) :
    ¬∃ f : Nat → MState, f 0 = initM norm rn ru ∧
      ∀ k, MStep norm fetch maxc (f k) (f (k + 1)) := by
  rintro ⟨f, h0, hstep⟩
  have hinv : ∀ k, MInv norm (f k) ∧ MUInv norm U (f k) := by
    intro k
    induction k with
    | zero =>
      rw [h0]
      exact ⟨MInv_init norm rn ru, MUInv_init norm rn hru⟩
    | succ k ih =>
      exact ⟨MStep_inv norm fetch maxc ih.1 (hstep k),
        MStep_MUInv norm fetch hclosed ih.1 ih.2 (hstep k)⟩
  have hdec : ∀ k, measureM U (f (k + 1)) < measureM U (f k) :=
    fun k => MStep_measure norm fetch hclosed (hinv k).2 (hstep k)
  have hle : ∀ k, measureM U (f k) + k ≤ measureM U (f 0) := by
    intro k
    induction k with
    | zero => omega
    | succ k ih =>
      have := hdec k
      omega
  have := hle (measureM U (f 0) + 1)
  omega

theorem progress_M (norm : String → String) (fetch : String → Option (List Entry))
    {maxc : Nat} (hmc : 1 ≤ maxc) (s : MState)
    (hne : s.queue ≠ [] ∨ s.inflight ≠ []) : ∃ s', MStep norm fetch maxc s s' := by
  cases hi : s.inflight with
  | nil =>
    rcases hne with hq | hinf
    · cases hq' : s.queue with
      | nil => exact absurd hq' hq
      | cons i q =>
        refine ⟨_, MStep.dispatch s i q hq' ?_⟩
        rw [hi]
        simpa using hmc
    · exact absurd hi hinf
  | cons i infl =>
    exact ⟨_, MStep.complete s i (by rw [hi]; exact List.mem_cons_self _ _)⟩

/-! ## Termination: measure decrease and progress (`FullCatalogCrawler`) -/

theorem stepEntryF_measure (norm : String → String) {i : Nat} {s : FState}
    {U : List String} (e : Entry) (heU : e.kind = "FOLDER" → norm e.url ∈ U) :
    measureF U (stepEntryF norm i s e) ≤ measureF U s := by
  by_cases hkind : e.kind = "FOLDER"
  · by_cases hseen : norm e.url ∈ s.seen
    · rw [stepEntryF_dup norm hkind hseen]
      exact le_refl _
    · rw [stepEntryF_fresh norm hkind hseen]
      unfold measureF
      dsimp only
      have := @countP_seen_lt _ s.seen _ (heU hkind) hseen
      simp only [List.length_append, List.length_singleton]
      omega
  · rw [stepEntryF_not_folder norm hkind]
    exact le_refl _

theorem foldF_measure (norm : String → String) (es : List Entry) {i : Nat} {s : FState}
    {U : List String} (hes : ∀ e ∈ es, e.kind = "FOLDER" → norm e.url ∈ U) :
    measureF U (es.foldl (stepEntryF norm i) s) ≤ measureF U s := by
  induction es generalizing s with
  | nil => exact le_refl _
  | cons e es ih =>
    rw [List.foldl_cons]
    exact le_trans (ih fun e' he' => hes e' (List.mem_cons_of_mem _ he'))
      (stepEntryF_measure norm e (hes e (List.mem_cons_self _ _)))

theorem completeF_measure (norm : String → String) (fetch : String → Option (List Entry))
    {c : Nat} {t : FState} {U : List String} (hclosed : FolderClosed norm fetch U)
    {n : FNode} (hn : t.nodes[c]? = some n) (hnU : norm n.url ∈ U) :
    measureF U (completeF norm fetch c t) ≤ measureF U t := by
  cases hf : fetch n.url with
  | none => rw [completeF_fail norm fetch hn hf]
  | some es =>
    have hes : ∀ e ∈ es, e.kind = "FOLDER" → norm e.url ∈ U :=
      fun e he hk => hclosed n.url es hnU hf e he hk
    have h1 := foldF_measure norm es (i := c) (s := t) hes
    simp only [completeF, hn, hf]
    exact h1

theorem FStep_measure (norm : String → String) (fetch : String → Option (List Entry))
    {maxc : Nat} {U : List String} {s s' : FState} (hclosed : FolderClosed norm fetch U)
    (hU : FUInv norm U s) (h : FStep norm fetch maxc s s') :
    measureF U s' < measureF U s := by
  cases h with
  | dispatch i q hq hc =>
    unfold measureF
    dsimp only
    rw [hq]
    simp
    omega
  | complete i hi =>
    obtain ⟨n, hn, hnU⟩ := hU i (List.mem_append.2 (Or.inr hi))
    have h1 := completeF_measure norm fetch (t := { s with inflight := s.inflight.erase i })
      hclosed (n := n) hn hnU
    have h2 : measureF U { s with inflight := s.inflight.erase i } < measureF U s := by
      unfold measureF
      dsimp only
      have := List.length_erase_of_mem hi
      have hpos : 0 < s.inflight.length := List.length_pos_of_mem hi
      omega
    exact lt_of_le_of_lt h1 h2

theorem stepEntryF_FUInv (norm : String → String) {i : Nat} {s : FState}
    {U : List String} (e : Entry) (heU : e.kind = "FOLDER" → norm e.url ∈ U)
    (h : FFold norm i s) (hU : FUInv norm U s) : FUInv norm U (stepEntryF norm i s e) := by
  obtain ⟨⟨hlt, _, _, _, _, _, _, _, _, _⟩, hilen, hiq, hii, _⟩ := h
  have hkeep : ∀ j ∈ s.queue ++ s.inflight,
      ∃ n, (stepEntryF norm i s e).nodes[j]? = some n ∧ norm n.url ∈ U := by
    intro j hj
    obtain ⟨n, hn, hnU⟩ := hU j hj
    have hij : i ≠ j := by
      intro hh
      subst hh
      rcases List.mem_append.1 hj with hj | hj
      · exact hiq hj
      · exact hii hj
    refine ⟨n, ?_, hnU⟩
    rw [stepEntryF_nodes]
    rw [ext_lookup_lt _ _ _ hij (hlt j hj)]
    exact hn
  by_cases hkind : e.kind = "FOLDER"
  · by_cases hseen : norm e.url ∈ s.seen
    · intro j hj
      rw [stepEntryF_dup norm hkind hseen] at hj
      exact (stepEntryF_dup norm hkind hseen) ▸ hkeep j hj
    · intro j hj
      rw [stepEntryF_fresh norm hkind hseen] at hj
      dsimp only at hj
      have hj' : j ∈ s.queue ++ s.inflight ∨ j = s.nodes.length := by
        rcases List.mem_append.1 hj with hj | hj
        · rcases List.mem_append.1 hj with hj | hj
          · exact Or.inl (List.mem_append.2 (Or.inl hj))
          · exact Or.inr (List.mem_singleton.1 hj)
        · exact Or.inl (List.mem_append.2 (Or.inr hj))
      rcases hj' with hj' | hj'
      · exact hkeep j hj'
      · subst hj'
        refine ⟨{ name := e.name, url := e.url, kind := e.kind }, ?_, heU hkind⟩
        rw [stepEntryF_nodes]
        exact ext_lookup_len _ _ _ _
  · intro j hj
    rw [stepEntryF_not_folder norm hkind] at hj
    exact (stepEntryF_not_folder norm hkind) ▸ hkeep j hj

theorem foldF_FUInv (norm : String → String) (es : List Entry) {i : Nat} {s : FState}
    {U : List String} (hes : ∀ e ∈ es, e.kind = "FOLDER" → norm e.url ∈ U)
    (h : FFold norm i s) (hU : FUInv norm U s) :
    FUInv norm U (es.foldl (stepEntryF norm i) s) := by
  induction es generalizing s with
  | nil => exact hU
  | cons e es ih =>
    rw [List.foldl_cons]
    exact ih (fun e' he' => hes e' (List.mem_cons_of_mem _ he'))
      (stepEntryF_pres norm e h)
      (stepEntryF_FUInv norm e (hes e (List.mem_cons_self _ _)) h hU)

theorem FStep_FUInv (norm : String → String) (fetch : String → Option (List Entry))
    {maxc : Nat} {U : List String} {s s' : FState} (hclosed : FolderClosed norm fetch U)
    (inv : FInv norm s) (hU : FUInv norm U s) (h : FStep norm fetch maxc s s') :
    FUInv norm U s' := by
  cases h with
  | dispatch i q hq hc =>
    have hperm : List.Perm (q ++ (s.inflight ++ [i])) (s.queue ++ s.inflight) := by
      rw [hq, ← List.append_assoc]
      exact List.perm_append_singleton i (q ++ s.inflight)
    intro j hj
    exact hU j (hperm.mem_iff.1 hj)
  | complete i hi =>
    obtain ⟨hlt, hnd, hse, hel, hinj, his, hsn, hce, hpb, hcl⟩ := inv
    have hsub : (s.queue ++ s.inflight.erase i).Sublist (s.queue ++ s.inflight) :=
      (s.inflight.erase_sublist i).append_left s.queue
    have hUt : FUInv norm U { s with inflight := s.inflight.erase i } := by
      intro j hj
      exact hU j (hsub.subset hj)
    have hiq : i ∉ s.queue := by
      intro hmem
      rw [List.nodup_append] at hnd
      exact hnd.2.2 hmem hi
    have hii : i ∉ s.inflight.erase i := by
      rw [List.nodup_append] at hnd
      exact hnd.2.1.not_mem_erase
    have hilen : i < s.nodes.length := hlt i (List.mem_append.2 (Or.inr hi))
    have invt : FInv norm { s with inflight := s.inflight.erase i } := by
      refine ⟨?_, hsub.nodup hnd, ?_, hel, hinj, his, hsn, hce, ?_, hcl⟩
      · intro j hj
        exact hlt j (hsub.subset hj)
      · intro j hj
        exact hse j (hsub.subset hj)
      · intro j hj n hn
        exact hpb j (hsub.subset hj) n hn
    cases hn : s.nodes[i]? with
    | none =>
      intro j hj
      simp only [completeF, hn] at hj ⊢
      exact hUt j hj
    | some n =>
      cases hf : fetch n.url with
      | none =>
        intro j hj
        simp only [completeF, hn, hf] at hj ⊢
        exact hUt j hj
      | some es =>
        obtain ⟨n', hn', hn'U⟩ := hU i (List.mem_append.2 (Or.inr hi))
        rw [hn] at hn'
        obtain rfl := Option.some.inj hn'
        have hes : ∀ e ∈ es, e.kind = "FOLDER" → norm e.url ∈ U :=
          fun e he hk => hclosed n.url es hn'U hf e he hk
        have hfold : FFold norm i { s with inflight := s.inflight.erase i } :=
          ⟨invt, hilen, hiq, hii, hse i (List.mem_append.2 (Or.inr hi))⟩
        have := foldF_FUInv norm es hes hfold hUt
        intro j hj
        simp only [completeF, hn, hf] at hj ⊢
        exact this j hj

theorem FUInv_init (norm : String → String) {U : List String} (rn : String) {ru : String}
    (hru : norm ru ∈ U) : FUInv norm U (initF norm rn ru) := by
  intro j hj
  simp [initF] at hj
  subst hj
  exact ⟨{ name := rn, url := ru, kind := "FOLDER" }, by simp [initF], hru⟩

theorem no_infinite_run_F (norm : String → String) (fetch : String → Option (List Entry))
    (maxc : Nat) (U : List String) (rn ru : String) (hclosed : FolderClosed norm fetch U)
    (hru : norm ru ∈ U) :
    ¬∃ f : Nat → FState, f 0 = initF norm rn ru ∧
      ∀ k, FStep norm fetch maxc (f k) (f (k + 1)) := by
  rintro ⟨f, h0, hstep⟩
  have hinv : ∀ k, FInv norm (f k) ∧ FUInv norm U (f k) := by
    intro k
    induction k with
    | zero =>
      rw [h0]
      exact ⟨FInv_init norm rn ru, FUInv_init norm rn hru⟩
    | succ k ih =>
      exact ⟨FStep_inv norm fetch maxc ih.1 (hstep k),
        FStep_FUInv norm fetch hclosed ih.1 ih.2 (hstep k)⟩
  have hdec : ∀ k, measureF U (f (k + 1)) < measureF U (f k) :=
    fun k => FStep_measure norm fetch hclosed (hinv k).2 (hstep k)
  have hle : ∀ k, measureF U (f k) + k ≤ measureF U (f 0) := by
    intro k
    induction k with
    | zero => omega
    | succ k ih =>
      have := hdec k
      omega
  have := hle (measureF U (f 0) + 1)
  omega

theorem progress_F (norm : String → String) (fetch : String → Option (List Entry))
    {maxc : Nat} (hmc : 1 ≤ maxc) (s : FState)
    (hne : s.queue ≠ [] ∨ s.inflight ≠ []) : ∃ s', FStep norm fetch maxc s s' := by
  cases hi : s.inflight with
  | nil =>
    rcases hne with hq | hinf
    · cases hq' : s.queue with
      | nil => exact absurd hq' hq
      | cons i q =>
        refine ⟨_, FStep.dispatch s i q hq' ?_⟩
        rw [hi]
        simpa using hmc
    · exact absurd hi hinf
  | cons i infl =>
    exact ⟨_, FStep.complete s i (by rw [hi]; exact List.mem_cons_self _ _)⟩

/-! ## Claim theorems -/

theorem map_range_eq {β : Type} {k L : Nat} {g : Nat → Option β} {α : Type}
    {es : List α} {h : α → Option β} (hk : es.length = k)
    (hall : ∀ t, ∀ e, es[t]? = some e → g (L + t) = h e) :
    (List.range' L k).map g = es.map h := by
  induction es generalizing L k with
  | nil =>
    subst hk
    rfl
  | cons e es ih =>
    subst hk
    rw [List.length_cons, List.range'_succ, List.map_cons, List.map_cons]
    congr 1
    · have := hall 0 e (by simp)
      simpa using this
    · refine ih rfl ?_
      intro t f hf
      have := hall (t + 1) f (by simpa using hf)
      rw [show L + (t + 1) = L + 1 + t by omega] at this
      exact this

/-- Claim C1: in every completed crawl of either crawler, two distinct nodes
whose addresses have equal normalized identities never both have non-empty
children (only the first discoverer expands), and each normalized identity
enters the visited set at most once (the `seen` list, which records
insertions in order, has no duplicates; the root identity is inserted at
initialization, all others at the moment their node is enqueued). -/
theorem claim1_dedup_invariant (norm : String → String)
    (fetch : String → Option (List Entry)) (maxc : Nat) (rn ru : String) :
    (∀ s : MState, ReachM norm fetch maxc (initM norm rn ru) s →
      s.queue = [] → s.inflight = [] →
      s.seen.Nodup ∧
      ∀ (i j : Nat) (ni nj : MNode), s.nodes[i]? = some ni →
        s.nodes[j]? = some nj → i ≠ j → norm ni.url = norm nj.url →
        ni.children = [] ∨ nj.children = []) ∧
    (∀ s : FState, ReachF norm fetch maxc (initF norm rn ru) s →
      s.queue = [] → s.inflight = [] →
      s.seen.Nodup ∧
      ∀ (i j : Nat) (ni nj : FNode), s.nodes[i]? = some ni →
        s.nodes[j]? = some nj → i ≠ j → ni.kind = "FOLDER" → nj.kind = "FOLDER" →
        norm ni.url = norm nj.url → ni.children = [] ∨ nj.children = []) := by
  constructor
  · intro s h _ _
    have inv := ReachM_inv norm fetch maxc rn ru h
    refine ⟨inv.seen_nodup, ?_⟩
    intro i j ni nj hni hnj hij heq
    exfalso
    have hmap : (s.nodes.map fun n => norm n.url)[i]? =
        (s.nodes.map fun n => norm n.url)[j]? := by
      rw [List.getElem?_map, List.getElem?_map, hni, hnj]
      simpa using heq
    have hi : i < (s.nodes.map fun n => norm n.url).length := by
      rw [List.length_map]
      exact (List.getElem?_eq_some.1 hni).1
    have hj : j < (s.nodes.map fun n => norm n.url).length := by
      rw [List.length_map]
      exact (List.getElem?_eq_some.1 hnj).1
    exact hij (List.getElem?_inj hi inv.ident_nodup hmap)
  · intro s h _ _
    have inv := ReachF_inv norm fetch maxc rn ru h
    refine ⟨inv.seen_nodup, ?_⟩
    intro i j ni nj hni hnj hij _ _ heq
    by_cases hci : ni.children = []
    · exact Or.inl hci
    by_cases hcj : nj.children = []
    · exact Or.inr hcj
    exact absurd heq (inv.ident_inj i j ni nj (inv.children_enq i ni hni hci)
      (inv.children_enq j nj hnj hcj) hni hnj hij)

/-- Witness for C1: the two-step crawl over an always-failing fetcher ends in
a completed state, at which both conjuncts of C1 are discharged. -/
theorem claim1_dedup_invariant_witness :
    ((⟨[{ name := "Root", url := "r", depth := 0 }], [], [], ["r"]⟩ : MState).seen.Nodup ∧
      ∀ (i j : Nat) (ni nj : MNode),
        (⟨[{ name := "Root", url := "r", depth := 0 }], [], [], ["r"]⟩ : MState).nodes[i]? = some ni →
        (⟨[{ name := "Root", url := "r", depth := 0 }], [], [], ["r"]⟩ : MState).nodes[j]? = some nj →
        i ≠ j → normOr ni.url = normOr nj.url → ni.children = [] ∨ nj.children = []) ∧
    ((⟨[{ name := "Root", url := "r", kind := "FOLDER" }], [], [], ["r"], [0]⟩ : FState).seen.Nodup ∧
      ∀ (i j : Nat) (ni nj : FNode),
        (⟨[{ name := "Root", url := "r", kind := "FOLDER" }], [], [], ["r"], [0]⟩ : FState).nodes[i]? = some ni →
        (⟨[{ name := "Root", url := "r", kind := "FOLDER" }], [], [], ["r"], [0]⟩ : FState).nodes[j]? = some nj →
        i ≠ j → ni.kind = "FOLDER" → nj.kind = "FOLDER" →
        normOr ni.url = normOr nj.url → ni.children = [] ∨ nj.children = []) := by
  constructor
  · have step1 : MStep normOr (fun _ => none) 1 (initM normOr "Root" "r")
        ⟨[{ name := "Root", url := "r", depth := 0 }], [], [0], ["r"]⟩ :=
      MStep.dispatch _ 0 [] rfl (by decide)
    have step2 : MStep normOr (fun _ => none) 1
        ⟨[{ name := "Root", url := "r", depth := 0 }], [], [0], ["r"]⟩
        ⟨[{ name := "Root", url := "r", depth := 0 }], [], [], ["r"]⟩ :=
      MStep.complete _ 0 (by decide)
    exact (claim1_dedup_invariant normOr (fun _ => none) 1 "Root" "r").1 _
      (Relation.ReflTransGen.tail (Relation.ReflTransGen.tail
        Relation.ReflTransGen.refl step1) step2) rfl rfl
  · have step1 : FStep normOr (fun _ => none) 1 (initF normOr "Root" "r")
        ⟨[{ name := "Root", url := "r", kind := "FOLDER" }], [], [0], ["r"], [0]⟩ :=
      FStep.dispatch _ 0 [] rfl (by decide)
    have step2 : FStep normOr (fun _ => none) 1
        ⟨[{ name := "Root", url := "r", kind := "FOLDER" }], [], [0], ["r"], [0]⟩
        ⟨[{ name := "Root", url := "r", kind := "FOLDER" }], [], [], ["r"], [0]⟩ :=
      FStep.complete _ 0 (by decide)
    exact (claim1_dedup_invariant normOr (fun _ => none) 1 "Root" "r").2 _
      (Relation.ReflTransGen.tail (Relation.ReflTransGen.tail
        Relation.ReflTransGen.refl step1) step2) rfl rfl

/-- Claim C2: with `max_concurrency = max_workers ≥ 1`, at every reachable
scheduler state of either crawler the number of outstanding futures (the
`futures` dict, modelled by `inflight`) never exceeds `max_workers`. -/
theorem claim2_bounded_concurrency (norm : String → String)
    (fetch : String → Option (List Entry)) (maxc : Nat) (hmc : 1 ≤ maxc)
    (rn ru : String) :
    (∀ s : MState, ReachM norm fetch maxc (initM norm rn ru) s →
      s.inflight.length ≤ maxc) ∧
    (∀ s : FState, ReachF norm fetch maxc (initF norm rn ru) s →
      s.inflight.length ≤ maxc) := by
  constructor
  · intro s h
    induction h with
    | refl => exact Nat.zero_le maxc
    | tail _ hstep ih => exact MStep_bound norm fetch hstep ih
  · intro s h
    induction h with
    | refl => exact Nat.zero_le maxc
    | tail _ hstep ih => exact FStep_bound norm fetch hstep ih

/-- Witness for C2 at a concrete instance. -/
theorem claim2_bounded_concurrency_witness :
    (initM normOr "Root" "r").inflight.length ≤ 2 ∧
    (initF normOr "Root" "r").inflight.length ≤ 2 :=
  ⟨(claim2_bounded_concurrency normOr (fun _ => none) 2 (by decide) "Root" "r").1 _
      Relation.ReflTransGen.refl,
    (claim2_bounded_concurrency normOr (fun _ => none) 2 (by decide) "Root" "r").2 _
      Relation.ReflTransGen.refl⟩

/-- Claim C3: over any finite universe `U` of reachable identities (closed
under discovery and containing the root identity) and any
`max_concurrency ≥ 1`, neither crawl loop can run forever, and a non-final
state (frontier or in-flight set non-empty) always has a successor, so the
loop ends exactly when both are exhausted. -/
theorem claim3_termination (norm : String → String)
    (fetch : String → Option (List Entry)) (maxc : Nat) (U : List String)
    (rn ru : String) (hmc : 1 ≤ maxc) (hclosed : FolderClosed norm fetch U)
    (hru : norm ru ∈ U) :
    (¬∃ f : Nat → MState, f 0 = initM norm rn ru ∧
        ∀ k, MStep norm fetch maxc (f k) (f (k + 1))) ∧
    (∀ s : MState, s.queue ≠ [] ∨ s.inflight ≠ [] →
      ∃ s', MStep norm fetch maxc s s') ∧
    (¬∃ f : Nat → FState, f 0 = initF norm rn ru ∧
        ∀ k, FStep norm fetch maxc (f k) (f (k + 1))) ∧
    (∀ s : FState, s.queue ≠ [] ∨ s.inflight ≠ [] →
      ∃ s', FStep norm fetch maxc s s') :=
  ⟨no_infinite_run_M norm fetch maxc U rn ru hclosed hru,
    fun s => progress_M norm fetch hmc s,
    no_infinite_run_F norm fetch maxc U rn ru hclosed hru,
    fun s => progress_F norm fetch hmc s⟩

/-- Witness for C3 at a concrete instance (failing fetcher, singleton
universe). -/
theorem claim3_termination_witness :
    (¬∃ f : Nat → MState, f 0 = initM normOr "Root" "r" ∧
        ∀ k, MStep normOr (fun _ => none) 1 (f k) (f (k + 1))) ∧
    (∀ s : MState, s.queue ≠ [] ∨ s.inflight ≠ [] →
      ∃ s', MStep normOr (fun _ => none) 1 s s') ∧
    (¬∃ f : Nat → FState, f 0 = initF normOr "Root" "r" ∧
        ∀ k, FStep normOr (fun _ => none) 1 (f k) (f (k + 1))) ∧
    (∀ s : FState, s.queue ≠ [] ∨ s.inflight ≠ [] →
      ∃ s', FStep normOr (fun _ => none) 1 s s') :=
  claim3_termination normOr (fun _ => none) 1 ["r"] "Root" "r" (by decide)
    (fun url es _ hf => Option.noConfusion hf) (by decide)

/-- Claim C6: a failed fetch is caught: the completion step for the failed
node changes nothing but the in-flight set, the node keeps empty `children`
and `has_file_children = false` (in `CatalogCrawler`) — and keeps them in
every later reachable state — and the scheduler can still make progress
whenever frontier or in-flight work remains, so all other nodes are
processed normally. -/
theorem claim6_failure_resilience (norm : String → String)
    (fetch : String → Option (List Entry)) (maxc : Nat) (rn ru : String) :
    (∀ s : MState, ReachM norm fetch maxc (initM norm rn ru) s →
      ∀ i ∈ s.inflight, ∀ n, s.nodes[i]? = some n → fetch n.url = none →
      completeM norm fetch i { s with inflight := s.inflight.erase i } =
        { s with inflight := s.inflight.erase i } ∧
      n.children = [] ∧ n.has_file_children = false ∧
      (∀ s', Relation.ReflTransGen (MStep norm fetch maxc)
          { s with inflight := s.inflight.erase i } s' → s'.nodes[i]? = some n) ∧
      (1 ≤ maxc → ∀ t : MState, t.queue ≠ [] ∨ t.inflight ≠ [] →
        ∃ t', MStep norm fetch maxc t t')) ∧
    (∀ s : FState, ReachF norm fetch maxc (initF norm rn ru) s →
      ∀ i ∈ s.inflight, ∀ n, s.nodes[i]? = some n → fetch n.url = none →
      completeF norm fetch i { s with inflight := s.inflight.erase i } =
        { s with inflight := s.inflight.erase i } ∧
      n.children = [] ∧
      (∀ s', Relation.ReflTransGen (FStep norm fetch maxc)
          { s with inflight := s.inflight.erase i } s' → s'.nodes[i]? = some n) ∧
      (1 ≤ maxc → ∀ t : FState, t.queue ≠ [] ∨ t.inflight ≠ [] →
        ∃ t', FStep norm fetch maxc t t')) := by
  constructor
  · intro s h i hi n hn hf
    have inv := ReachM_inv norm fetch maxc rn ru h
    have hblank := inv.pending_blank i (List.mem_append.2 (Or.inr hi)) n hn
    have hiq : i ∉ s.queue := by
      intro hmem
      have := inv.ids_nodup
      rw [List.nodup_append] at this
      exact this.2.2 hmem hi
    have hii : i ∉ s.inflight.erase i := by
      have := inv.ids_nodup
      rw [List.nodup_append] at this
      exact this.2.1.not_mem_erase
    have hret : RetiredM { s with inflight := s.inflight.erase i } i :=
      ⟨inv.ids_lt i (List.mem_append.2 (Or.inr hi)), hiq, hii⟩
    refine ⟨completeM_fail norm fetch hn hf, hblank.1, hblank.2, ?_, ?_⟩
    · intro s' h'
      have := (ReachM_retired norm fetch h' hret).2
      rw [this]
      exact hn
    · intro hmc t hne
      exact progress_M norm fetch hmc t hne
  · intro s h i hi n hn hf
    have inv := ReachF_inv norm fetch maxc rn ru h
    have hblank := inv.pending_blank i (List.mem_append.2 (Or.inr hi)) n hn
    have hiq : i ∉ s.queue := by
      intro hmem
      have := inv.ids_nodup
      rw [List.nodup_append] at this
      exact this.2.2 hmem hi
    have hii : i ∉ s.inflight.erase i := by
      have := inv.ids_nodup
      rw [List.nodup_append] at this
      exact this.2.1.not_mem_erase
    have hret : RetiredF { s with inflight := s.inflight.erase i } i :=
      ⟨inv.ids_lt i (List.mem_append.2 (Or.inr hi)), hiq, hii⟩
    refine ⟨completeF_fail norm fetch hn hf, hblank, ?_, ?_⟩
    · intro s' h'
      have := (ReachF_retired norm fetch h' hret).2
      rw [this]
      exact hn
    · intro hmc t hne
      exact progress_F norm fetch hmc t hne

/-- Witness for C6: concrete failing fetch of the root. -/
theorem claim6_failure_resilience_witness :
    (completeM normOr (fun _ => none) 0
        ⟨[{ name := "Root", url := "r", depth := 0 }], [], [], ["r"]⟩ =
      ⟨[{ name := "Root", url := "r", depth := 0 }], [], [], ["r"]⟩) ∧
    ({ name := "Root", url := "r", depth := 0 : MNode }.children = []) ∧
    ({ name := "Root", url := "r", depth := 0 : MNode }.has_file_children = false) := by
  have step1 : MStep normOr (fun _ => none) 1 (initM normOr "Root" "r")
      ⟨[{ name := "Root", url := "r", depth := 0 }], [], [0], ["r"]⟩ :=
    MStep.dispatch _ 0 [] rfl (by decide)
  have h := (claim6_failure_resilience normOr (fun _ => none) 1 "Root" "r").1
    ⟨[{ name := "Root", url := "r", depth := 0 }], [], [0], ["r"]⟩
    (Relation.ReflTransGen.tail Relation.ReflTransGen.refl step1)
    0 (by decide) { name := "Root", url := "r", depth := 0 } rfl rfl
  exact ⟨h.1, h.2.1, h.2.2.1⟩

/-- Claim C10: in every reachable `CatalogCrawler` state the root node has
depth 0 and every child's `depth` field equals its parent's plus one. -/
theorem claim10_depth_invariant (norm : String → String)
    (fetch : String → Option (List Entry)) (maxc : Nat) (rn ru : String)
    (s : MState) (h : ReachM norm fetch maxc (initM norm rn ru) s) :
    (∀ n, s.nodes[0]? = some n → n.depth = 0) ∧
    (∀ (i : Nat) (ni : MNode), s.nodes[i]? = some ni → ∀ j ∈ ni.children,
      ∀ (nj : MNode), s.nodes[j]? = some nj → nj.depth = ni.depth + 1) := by
  have inv := ReachM_inv norm fetch maxc rn ru h
  exact ⟨inv.root_depth, inv.depth_rel⟩

/-- Witness for C10 at the initial state of a concrete crawl. -/
theorem claim10_depth_invariant_witness :
    (∀ n, (initM normOr "Root" "r").nodes[0]? = some n → n.depth = 0) ∧
    (∀ (i : Nat) (ni : MNode), (initM normOr "Root" "r").nodes[i]? = some ni →
      ∀ j ∈ ni.children, ∀ (nj : MNode),
        (initM normOr "Root" "r").nodes[j]? = some nj → nj.depth = ni.depth + 1) :=
  claim10_depth_invariant normOr (fun _ => none) 1 "Root" "r" _
    Relation.ReflTransGen.refl

theorem MInv_erase (norm : String → String) {s : MState} (inv : MInv norm s) {i : Nat}
    (hi : i ∈ s.inflight) :
    MInv norm { s with inflight := s.inflight.erase i } ∧ i < s.nodes.length ∧
      i ∉ s.queue ∧ i ∉ s.inflight.erase i := by
  have hsub : (s.queue ++ s.inflight.erase i).Sublist (s.queue ++ s.inflight) :=
    (s.inflight.erase_sublist i).append_left s.queue
  have hnd := inv.ids_nodup
  rw [List.nodup_append] at hnd
  refine ⟨?_, inv.ids_lt i (List.mem_append.2 (Or.inr hi)), fun hmem => hnd.2.2 hmem hi,
    hnd.2.1.not_mem_erase⟩
  obtain ⟨hlt, hnd', hpb, hin, his, hsn, hcl, hdr, hrd⟩ := inv
  refine ⟨?_, hsub.nodup hnd', ?_, hin, his, hsn, hcl, hdr, hrd⟩
  · intro j hj
    exact hlt j (hsub.subset hj)
  · intro j hj n hn
    exact hpb j (hsub.subset hj) n hn

theorem FInv_erase (norm : String → String) {s : FState} (inv : FInv norm s) {i : Nat}
    (hi : i ∈ s.inflight) :
    FInv norm { s with inflight := s.inflight.erase i } ∧ i < s.nodes.length ∧
      i ∉ s.queue ∧ i ∉ s.inflight.erase i ∧ i ∈ s.enq := by
  have hsub : (s.queue ++ s.inflight.erase i).Sublist (s.queue ++ s.inflight) :=
    (s.inflight.erase_sublist i).append_left s.queue
  have hnd := inv.ids_nodup
  rw [List.nodup_append] at hnd
  refine ⟨?_, inv.ids_lt i (List.mem_append.2 (Or.inr hi)), fun hmem => hnd.2.2 hmem hi,
    hnd.2.1.not_mem_erase, inv.sub_enq i (List.mem_append.2 (Or.inr hi))⟩
  obtain ⟨hlt, hnd', hse, hel, hinj, his, hsn, hce, hpb, hcl⟩ := inv
  refine ⟨?_, hsub.nodup hnd', ?_, hel, hinj, his, hsn, hce, ?_, hcl⟩
  · intro j hj
    exact hlt j (hsub.subset hj)
  · intro j hj
    exact hse j (hsub.subset hj)
  · intro j hj n hn
    exact hpb j (hsub.subset hj) n hn

/-- Counterexample to C4 as stated: in `CatalogCrawler.crawl` (main.py) a
FOLDER entry whose normalized identity is already visited is skipped
entirely.  Concretely, the root page of `fetchC4` parses to the FOLDER
entries `A` (fresh) and `R2` (whose address `"r"` normalizes to the visited
root identity); the completed crawl holds only two nodes and no node named
`R2` exists, so no child was attached for the duplicate entry — against the
claim that the child is still attached to the tree. -/
theorem claim4_counterexample :
    ReachM normOr fetchC4 1 (initM normOr "Root" "r") stateC4 ∧
    stateC4.queue = [] ∧ stateC4.inflight = [] ∧
    fetchC4 "r" = some [{ name := "A", url := "a", kind := "FOLDER" },
                        { name := "R2", url := "r", kind := "FOLDER" }] ∧
    normOr "r" ∈ (initM normOr "Root" "r").seen ∧
    stateC4.nodes.length = 2 ∧
    (∀ n ∈ stateC4.nodes, ¬n.name = "R2") := by
  refine ⟨?_, rfl, rfl, rfl, by decide, rfl, by decide⟩
  have step1 : MStep normOr fetchC4 1 (initM normOr "Root" "r")
      ⟨[{ name := "Root", url := "r", depth := 0 }], [], [0], ["r"]⟩ :=
    MStep.dispatch _ 0 [] rfl (by decide)
  have step2 : MStep normOr fetchC4 1
      ⟨[{ name := "Root", url := "r", depth := 0 }], [], [0], ["r"]⟩
      ⟨[{ name := "Root", url := "r", depth := 0, children := [1] },
        { name := "A", url := "a", depth := 1 }], [1], [], ["r", "a"]⟩ :=
    MStep.complete _ 0 (by decide)
  have step3 : MStep normOr fetchC4 1
      ⟨[{ name := "Root", url := "r", depth := 0, children := [1] },
        { name := "A", url := "a", depth := 1 }], [1], [], ["r", "a"]⟩
      ⟨[{ name := "Root", url := "r", depth := 0, children := [1] },
        { name := "A", url := "a", depth := 1 }], [], [1], ["r", "a"]⟩ :=
    MStep.dispatch _ 1 [] rfl (by decide)
  have step4 : MStep normOr fetchC4 1
      ⟨[{ name := "Root", url := "r", depth := 0, children := [1] },
        { name := "A", url := "a", depth := 1 }], [], [1], ["r", "a"]⟩
      stateC4 :=
    MStep.complete _ 1 (by decide)
  exact Relation.ReflTransGen.tail (Relation.ReflTransGen.tail
    (Relation.ReflTransGen.tail (Relation.ReflTransGen.tail
      Relation.ReflTransGen.refl step1) step2) step3) step4

/-- Claim C4 (amended): the two crawlers genuinely differ on an
already-visited FOLDER entry.  `FullCatalogCrawler` (catalog_to_json.py)
attaches the child node (with empty children), without enqueueing it or
touching `seen`, and any node that is retired (present, not queued, not in
flight) — as such a child is — keeps its stored data in every later state.
`CatalogCrawler` (main.py) skips the entry entirely: the loop body leaves
the whole state unchanged, so no child node is attached at all. -/
theorem claim4_amended (norm : String → String)
    (fetch : String → Option (List Entry)) (maxc : Nat) :
    (∀ (i d : Nat) (s : MState) (e : Entry), norm e.url ∈ s.seen →
      stepFolderM norm i d s e = s) ∧
    (∀ (i : Nat) (s : FState) (e : Entry), e.kind = "FOLDER" → norm e.url ∈ s.seen →
      (stepEntryF norm i s e).nodes[s.nodes.length]? =
        some { name := e.name, url := e.url, kind := e.kind } ∧
      (stepEntryF norm i s e).queue = s.queue ∧
      (stepEntryF norm i s e).seen = s.seen ∧
      ∀ ni, s.nodes[i]? = some ni → i < s.nodes.length →
        (stepEntryF norm i s e).nodes[i]? =
          some { ni with children := ni.children ++ [s.nodes.length] }) ∧
    (∀ (s s' : FState) (j : Nat), Relation.ReflTransGen (FStep norm fetch maxc) s s' →
      RetiredF s j → s'.nodes[j]? = s.nodes[j]?) := by
  refine ⟨fun i d s e h => stepFolderM_skip norm h, ?_, ?_⟩
  · intro i s e hkind hseen
    rw [stepEntryF_dup norm hkind hseen]
    refine ⟨?_, rfl, rfl, ?_⟩
    · dsimp only
      exact ext_lookup_len _ _ _ _
    · intro ni hni hilen
      dsimp only
      rw [ext_lookup_self _ _ _ hilen, hni]
      rfl
  · intro s s' j h hret
    exact (ReachF_retired norm fetch h hret).2

/-- Witness for C4 (amended) on a concrete duplicate entry. -/
theorem claim4_amended_witness :
    normOr "r" ∈ (["r"] : List String) ∧
    stepFolderM normOr 0 0 ⟨[{ name := "Root", url := "r", depth := 0 }], [], [], ["r"]⟩
        { name := "R2", url := "r", kind := "FOLDER" } =
      ⟨[{ name := "Root", url := "r", depth := 0 }], [], [], ["r"]⟩ ∧
    (stepEntryF normOr 0
        ⟨[{ name := "Root", url := "r", kind := "FOLDER" }], [], [], ["r"], [0]⟩
        { name := "R2", url := "r", kind := "FOLDER" }).nodes[1]? =
      some { name := "R2", url := "r", kind := "FOLDER" } := by
  refine ⟨by decide, ?_, ?_⟩
  · exact (claim4_amended normOr (fun _ => none) 1).1 0 0
      ⟨[{ name := "Root", url := "r", depth := 0 }], [], [], ["r"]⟩
      { name := "R2", url := "r", kind := "FOLDER" } (by decide)
  · exact ((claim4_amended normOr (fun _ => none) 1).2.1 0
      ⟨[{ name := "Root", url := "r", kind := "FOLDER" }], [], [], ["r"], [0]⟩
      { name := "R2", url := "r", kind := "FOLDER" } rfl (by decide)).1

/-- Counterexample to C5 as stated: in `CatalogCrawler.crawl` (main.py) FILE
entries are never appended as children.  The root page of `fetchC5` parses
to the single FILE entry `p1`, yet in the completed crawl the root node has
no children at all — against the claim that every parsed entry (FOLDER and
FILE alike) is appended exactly once. -/
theorem claim5_counterexample :
    ReachM normOr fetchC5 1 (initM normOr "Root" "r") stateC5 ∧
    stateC5.queue = [] ∧ stateC5.inflight = [] ∧
    fetchC5 "r" = some [{ name := "p1", url := "uf1", kind := "FILE" }] ∧
    (∀ n, stateC5.nodes[0]? = some n → n.children = []) := by
  refine ⟨?_, rfl, rfl, rfl, by decide⟩
  have step1 : MStep normOr fetchC5 1 (initM normOr "Root" "r")
      ⟨[{ name := "Root", url := "r", depth := 0 }], [], [0], ["r"]⟩ :=
    MStep.dispatch _ 0 [] rfl (by decide)
  have step2 : MStep normOr fetchC5 1
      ⟨[{ name := "Root", url := "r", depth := 0 }], [], [0], ["r"]⟩ stateC5 :=
    MStep.complete _ 0 (by decide)
  exact Relation.ReflTransGen.tail (Relation.ReflTransGen.tail
    Relation.ReflTransGen.refl step1) step2

/-- Claim C5 (amended): when the fetch of an in-flight node succeeds with
entry list `es`, `FullCatalogCrawler` appends exactly one child per entry —
FOLDER and FILE alike — in parser order: the node's children become the
consecutively allocated ids and looking them up yields exactly the
`(name, url, kind)` data of `es` in order.  `CatalogCrawler` instead appends
exactly the FOLDER entries that are fresh with respect to the evolving
visited set, in parser order, at depth one below the parent. -/
theorem claim5_amended (norm : String → String)
    (fetch : String → Option (List Entry)) (maxc : Nat) (rn ru : String) :
    (∀ s : FState, ReachF norm fetch maxc (initF norm rn ru) s →
      ∀ i ∈ s.inflight, ∀ (n : FNode) (es : List Entry), s.nodes[i]? = some n →
      fetch n.url = some es →
      ∃ n', (completeF norm fetch i { s with inflight := s.inflight.erase i }).nodes[i]?
          = some n' ∧
        n'.children = List.range' s.nodes.length es.length ∧
        n'.children.map
            (childDataF (completeF norm fetch i { s with inflight := s.inflight.erase i })) =
          es.map (fun e => some (e.name, e.url, e.kind))) ∧
    (∀ s : MState, ReachM norm fetch maxc (initM norm rn ru) s →
      ∀ i ∈ s.inflight, ∀ (n : MNode) (es : List Entry), s.nodes[i]? = some n →
      fetch n.url = some es →
      ∃ n', (completeM norm fetch i { s with inflight := s.inflight.erase i }).nodes[i]?
          = some n' ∧
        n'.children.map
            (childData (completeM norm fetch i { s with inflight := s.inflight.erase i })) =
          (freshFoldersM norm s.seen (es.filter (·.kind == "FOLDER"))).map
            (fun e => some (e.name, e.url, n.depth + 1))) := by
  constructor
  · intro s h i hi n es hn hf
    obtain ⟨invt, hilen, hiq, hii, hienq⟩ := FInv_erase norm (ReachF_inv norm fetch maxc rn ru h) hi
    have hblank : n.children = [] :=
      (ReachF_inv norm fetch maxc rn ru h).pending_blank i (List.mem_append.2 (Or.inr hi)) n hn
    obtain ⟨n', h1, _, _, _, h5, h6, h7⟩ :=
      completeF_spec norm fetch invt hilen hiq hii hienq hn hf
    refine ⟨n', h1, ?_, ?_⟩
    · rw [h5, hblank]
      rfl
    · rw [h5, hblank, List.nil_append]
      refine map_range_eq rfl ?_
      intro t e he
      unfold childDataF
      rw [h7 t e he]
      rfl
  · intro s h i hi n es hn hf
    obtain ⟨invt, hilen, hiq, hii⟩ := MInv_erase norm (ReachM_inv norm fetch maxc rn ru h) hi
    have hblank : n.children = [] :=
      ((ReachM_inv norm fetch maxc rn ru h).pending_blank i (List.mem_append.2 (Or.inr hi)) n hn).1
    obtain ⟨n', h1, _, _, _, _, ids, h6, h7⟩ :=
      completeM_spec norm fetch invt hilen hiq hii hn hf
    refine ⟨n', h1, ?_⟩
    rw [h6, hblank, List.nil_append]
    exact h7

/-- Witness for C5 (amended) on a concrete page with one FOLDER and one FILE
entry. -/
theorem claim5_amended_witness :
    (∃ n', (completeF normOr fetchW5 0
          ⟨[{ name := "Root", url := "r", kind := "FOLDER" }], [], [], ["r"], [0]⟩).nodes[0]?
        = some n' ∧
      n'.children = List.range' 1 2 ∧
      n'.children.map (childDataF (completeF normOr fetchW5 0
          ⟨[{ name := "Root", url := "r", kind := "FOLDER" }], [], [], ["r"], [0]⟩)) =
        [some ("A", "a", "FOLDER"), some ("p1", "uf1", "FILE")]) ∧
    (∃ n', (completeM normOr fetchW5 0
          ⟨[{ name := "Root", url := "r", depth := 0 }], [], [], ["r"]⟩).nodes[0]?
        = some n' ∧
      n'.children.map (childData (completeM normOr fetchW5 0
          ⟨[{ name := "Root", url := "r", depth := 0 }], [], [], ["r"]⟩)) =
        [some ("A", "a", 1)]) := by
  constructor
  · have step1 : FStep normOr fetchW5 1 (initF normOr "Root" "r")
        ⟨[{ name := "Root", url := "r", kind := "FOLDER" }], [], [0], ["r"], [0]⟩ :=
      FStep.dispatch _ 0 [] rfl (by decide)
    have h := (claim5_amended normOr fetchW5 1 "Root" "r").1
      ⟨[{ name := "Root", url := "r", kind := "FOLDER" }], [], [0], ["r"], [0]⟩
      (Relation.ReflTransGen.tail Relation.ReflTransGen.refl step1)
      0 (by decide) { name := "Root", url := "r", kind := "FOLDER" }
      [{ name := "A", url := "a", kind := "FOLDER" },
       { name := "p1", url := "uf1", kind := "FILE" }] rfl rfl
    exact h
  · have step1 : MStep normOr fetchW5 1 (initM normOr "Root" "r")
        ⟨[{ name := "Root", url := "r", depth := 0 }], [], [0], ["r"]⟩ :=
      MStep.dispatch _ 0 [] rfl (by decide)
    have h := (claim5_amended normOr fetchW5 1 "Root" "r").2
      ⟨[{ name := "Root", url := "r", depth := 0 }], [], [0], ["r"]⟩
      (Relation.ReflTransGen.tail Relation.ReflTransGen.refl step1)
      0 (by decide) { name := "Root", url := "r", depth := 0 }
      [{ name := "A", url := "a", kind := "FOLDER" },
       { name := "p1", url := "uf1", kind := "FILE" }] rfl rfl
    exact h

/-- Counterexample to C7 as stated: the root page of `fetchC7` parses to two
FILE entries; in the completed crawl `has_file_children` is `true` although
the node has no children at all — so in the final tree no direct child (let
alone a LEAF child) exists, refuting the claimed equivalence between the
flag and the presence of a LEAF child in the tree. -/
theorem claim7_counterexample :
    ReachM normOr fetchC7 1 (initM normOr "Root" "r") stateC7 ∧
    stateC7.queue = [] ∧ stateC7.inflight = [] ∧
    (∀ n, stateC7.nodes[0]? = some n →
      n.has_file_children = true ∧ n.children = []) := by
  refine ⟨?_, rfl, rfl, by decide⟩
  have step1 : MStep normOr fetchC7 1 (initM normOr "Root" "r")
      ⟨[{ name := "Root", url := "r", depth := 0 }], [], [0], ["r"]⟩ :=
    MStep.dispatch _ 0 [] rfl (by decide)
  have step2 : MStep normOr fetchC7 1
      ⟨[{ name := "Root", url := "r", depth := 0 }], [], [0], ["r"]⟩ stateC7 :=
    MStep.complete _ 0 (by decide)
  exact Relation.ReflTransGen.tail (Relation.ReflTransGen.tail
    Relation.ReflTransGen.refl step1) step2

/-- Claim C7 (amended): `has_file_children` is `false` on every node whose
fetch has not yet completed, is set exactly at completion to whether the
parsed entry list contains a FILE entry, and is frozen afterwards (a retired
node's stored data never changes).  It does not express "some child in the
final tree is a FILE node": FILE entries never become children in
`CatalogCrawler`. -/
theorem claim7_amended (norm : String → String)
    (fetch : String → Option (List Entry)) (maxc : Nat) (rn ru : String)
    (s : MState) (h : ReachM norm fetch maxc (initM norm rn ru) s) :
    (∀ i ∈ s.queue ++ s.inflight, ∀ n, s.nodes[i]? = some n →
      n.has_file_children = false) ∧
    (∀ i ∈ s.inflight, ∀ (n : MNode) (es : List Entry), s.nodes[i]? = some n →
      fetch n.url = some es →
      ∃ n', (completeM norm fetch i { s with inflight := s.inflight.erase i }).nodes[i]?
          = some n' ∧
        n'.has_file_children = es.any (·.kind == "FILE")) ∧
    (∀ j, RetiredM s j → ∀ s', Relation.ReflTransGen (MStep norm fetch maxc) s s' →
      s'.nodes[j]? = s.nodes[j]?) := by
  have inv := ReachM_inv norm fetch maxc rn ru h
  refine ⟨?_, ?_, ?_⟩
  · intro i hi n hn
    exact (inv.pending_blank i hi n hn).2
  · intro i hi n es hn hf
    obtain ⟨invt, hilen, hiq, hii⟩ := MInv_erase norm inv hi
    obtain ⟨n', h1, _, _, _, h5, _⟩ := completeM_spec norm fetch invt hilen hiq hii hn hf
    exact ⟨n', h1, h5⟩
  · intro j hret s' h'
    exact (ReachM_retired norm fetch h' hret).2

/-- Witness for C7 (amended) on a concrete page with a FOLDER and a FILE
entry. -/
theorem claim7_amended_witness :
    (∀ i ∈ (⟨[{ name := "Root", url := "r", depth := 0 }], [], [0], ["r"]⟩ : MState).queue
        ++ (⟨[{ name := "Root", url := "r", depth := 0 }], [], [0], ["r"]⟩ : MState).inflight,
      ∀ n, (⟨[{ name := "Root", url := "r", depth := 0 }], [], [0], ["r"]⟩ : MState).nodes[i]? = some n →
      n.has_file_children = false) ∧
    (∃ n', (completeM normOr fetchW7 0
          ⟨[{ name := "Root", url := "r", depth := 0 }], [], [], ["r"]⟩).nodes[0]?
        = some n' ∧
      n'.has_file_children = ([{ name := "A", url := "a", kind := "FOLDER" },
        { name := "p1", url := "uf1", kind := "FILE" }] : List Entry).any (·.kind == "FILE")) := by
  have step1 : MStep normOr fetchW7 1 (initM normOr "Root" "r")
      ⟨[{ name := "Root", url := "r", depth := 0 }], [], [0], ["r"]⟩ :=
    MStep.dispatch _ 0 [] rfl (by decide)
  have h := claim7_amended normOr fetchW7 1 "Root" "r"
    ⟨[{ name := "Root", url := "r", depth := 0 }], [], [0], ["r"]⟩
    (Relation.ReflTransGen.tail Relation.ReflTransGen.refl step1)
  refine ⟨h.1, ?_⟩
  exact h.2.1 0 (by decide) { name := "Root", url := "r", depth := 0 }
    [{ name := "A", url := "a", kind := "FOLDER" },
     { name := "p1", url := "uf1", kind := "FILE" }] rfl rfl

/-- Counterexample to C9 as stated: `normalize_url` does have a failure
path.  On the address `"//["` the underlying `urlparse` raises
`ValueError("Invalid IPv6 URL")` (an opening bracket in the network
location with no closing bracket), and `normalize_url` has no handler, so
the exception propagates instead of a best-effort canonical form. -/
theorem claim9_counterexample :
    normalize_url "//[" = .error "Invalid IPv6 URL" := rfl

/-- Claim C9 (amended): `normalize_url` is a pure function of its argument
(it is a `def` here, so determinism and freedom from side effects are
inherent), but it is not total: the `ValueError` of `urlparse` on bracket
imbalance propagates.  On every address whose parse succeeds it does exactly
what the claim says: the result is the unparse of the parse with the query
replaced by the re-encoding, in original order, of exactly those parsed
query pairs whose key is not in `{limit, limitstart}`; consequently two
addresses whose parses agree on every component except the query and whose
noise-filtered query pairs coincide normalize to the same identity. -/
theorem claim9_amended (x y : List Char) :
    (∀ P, urlparseE x = .ok P →
      normalizeUrlL x = .ok (urlunparse { P with
        query := urlencode ((parseQsl P.query).filter fun kv => !decide (kv.1 ∈ noiseKeys)) })) ∧
    (∀ P Q, urlparseE x = .ok P → urlparseE y = .ok Q →
      P.scheme = Q.scheme → P.netloc = Q.netloc → P.path = Q.path →
      P.params = Q.params → P.fragment = Q.fragment →
      (parseQsl P.query).filter (fun kv => !decide (kv.1 ∈ noiseKeys)) =
        (parseQsl Q.query).filter (fun kv => !decide (kv.1 ∈ noiseKeys)) →
      normalizeUrlL x = normalizeUrlL y) := by
  constructor
  · intro P hP
    simp [normalizeUrlL, hP, Except.map]
  · intro P Q hP hQ h1 h2 h3 h4 h5 h6
    simp only [normalizeUrlL, hP, hQ, Except.map]
    cases P
    cases Q
    dsimp only at h1 h2 h3 h4 h5 h6 ⊢
    subst h1 h2 h3 h4 h5
    rw [h6]

/-- Witness for C9 (amended): two concrete addresses differing only in a
`limit` versus a `limitstart` parameter receive the same identity. -/
theorem claim9_amended_witness :
    normalizeUrlL "http://h/p?a=1&limit=2".data =
      normalizeUrlL "http://h/p?a=1&limitstart=9".data :=
  (claim9_amended "http://h/p?a=1&limit=2".data "http://h/p?a=1&limitstart=9".data).2
    ⟨"http".data, "h".data, "/p".data, [], "a=1&limit=2".data, []⟩
    ⟨"http".data, "h".data, "/p".data, [], "a=1&limitstart=9".data, []⟩
    rfl rfl rfl rfl rfl rfl rfl rfl

/-- Counterexample to C8 as stated: normalization is not idempotent.  On the
scheme-less, netloc-less address `"/////x"` the parse yields the path
`"///x"` (the empty netloc consumes the first two slashes), which unparses
to `"///x"`; renormalizing parses that as an empty netloc with path `"/x"`,
so a second application shrinks the address again. -/
theorem claim8_counterexample :
    normalize_url "/////x" = .ok "///x" ∧
    normalize_url "///x" = .ok "/x" ∧ ("///x" : String) ≠ "/x" :=
  ⟨rfl, rfl, by decide⟩

/-! ## Reparse and roundtrip lemmas for the normalizer -/



theorem splitFirst_cons (sep c : Char) (t : List Char) :
    splitFirst sep (c :: t) =
      if c = sep then ([], some t)
      else (c :: (splitFirst sep t).1, (splitFirst sep t).2) := rfl

theorem splitSep_cons (sep c : Char) (t : List Char) :
    splitSep sep (c :: t) =
      if c = sep then [] :: splitSep sep t
      else match splitSep sep t with
      | g :: gs => (c :: g) :: gs
      | [] => [[c]] := rfl

theorem rsplitSlash_cons (c : Char) (t : List Char) :
    rsplitSlash (c :: t) =
      match rsplitSlash t with
      | some p => some (c :: p.1, p.2)
      | none => if c = '/' then some ([], t) else none := rfl

theorem splitFirst_eq_none {sep : Char} {u : List Char} (h : sep ∉ u) :
    splitFirst sep u = (u, none) := by
  induction u with
  | nil => rfl
  | cons c cs ih =>
    rw [List.mem_cons] at h
    push_neg at h
    rw [splitFirst_cons, if_neg (fun e : c = sep => h.1 e.symm), ih h.2]

theorem splitFirst_append {sep : Char} {a : List Char} (b : List Char) (h : sep ∉ a) :
    splitFirst sep (a ++ sep :: b) = (a, some b) := by
  induction a with
  | nil => rw [List.nil_append, splitFirst_cons, if_pos rfl]
  | cons c a' ih =>
    rw [List.mem_cons] at h
    push_neg at h
    rw [List.cons_append, splitFirst_cons, if_neg (fun e : c = sep => h.1 e.symm),
      ih h.2]

theorem splitFirst_glue {sep : Char} {u : List Char} : ∀ {a b : List Char},
    splitFirst sep u = (a, some b) → a ++ sep :: b = u ∧ sep ∉ a := by
  induction u with
  | nil => intro a b h; simp [splitFirst] at h
  | cons c cs ih =>
    intro a b h
    rw [splitFirst_cons] at h
    by_cases hc : c = sep
    · rw [if_pos hc] at h
      rw [Prod.ext_iff] at h
      obtain ⟨h1, h2⟩ := h
      dsimp only at h1 h2
      cases Option.some.inj h2
      subst hc
      simp [← h1]
    · rw [if_neg hc] at h
      rw [Prod.ext_iff] at h
      obtain ⟨h1, h2⟩ := h
      dsimp only at h1 h2
      obtain ⟨hg, hm⟩ := ih (a := (splitFirst sep cs).1) (by rw [← h2])
      subst h1
      constructor
      · rw [List.cons_append, hg]
      · intro hmem
        rcases List.mem_cons.1 hmem with h' | h'
        · exact hc h'.symm
        · exact hm h'

theorem splitFirst_none_eq {sep : Char} {u a : List Char}
    (h : splitFirst sep u = (a, none)) : a = u ∧ sep ∉ u := by
  induction u generalizing a with
  | nil =>
    rw [show splitFirst sep [] = ([], none) from rfl] at h
    rw [Prod.ext_iff] at h
    exact ⟨h.1.symm, List.not_mem_nil sep⟩
  | cons c cs ih =>
    rw [splitFirst_cons] at h
    by_cases hc : c = sep
    · rw [if_pos hc] at h
      rw [Prod.ext_iff] at h
      cases h.2
    · rw [if_neg hc] at h
      rw [Prod.ext_iff] at h
      obtain ⟨h1, h2⟩ := h
      dsimp only at h1 h2
      obtain ⟨he, hm⟩ := ih (a := (splitFirst sep cs).1) (by rw [← h2])
      subst h1
      refine ⟨by rw [he], ?_⟩
      intro hmem
      rcases List.mem_cons.1 hmem with h' | h'
      · exact hc h'.symm
      · exact hm h'

theorem splitSep_eq_single {sep : Char} {u : List Char} (h : sep ∉ u) :
    splitSep sep u = [u] := by
  induction u with
  | nil => rfl
  | cons c cs ih =>
    rw [List.mem_cons] at h
    push_neg at h
    rw [splitSep_cons, if_neg (fun e : c = sep => h.1 e.symm), ih h.2]

theorem splitSep_append {sep : Char} {a : List Char} (b : List Char) (h : sep ∉ a) :
    splitSep sep (a ++ sep :: b) = a :: splitSep sep b := by
  induction a with
  | nil => rw [List.nil_append, splitSep_cons, if_pos rfl]
  | cons c a' ih =>
    rw [List.mem_cons] at h
    push_neg at h
    rw [List.cons_append, splitSep_cons, if_neg (fun e : c = sep => h.1 e.symm), ih h.2]

theorem rsplitSlash_eq_none {u : List Char} (h : '/' ∉ u) : rsplitSlash u = none := by
  induction u with
  | nil => rfl
  | cons c cs ih =>
    rw [List.mem_cons] at h
    push_neg at h
    rw [rsplitSlash_cons, ih h.2]
    exact if_neg (fun e : c = '/' => h.1 e.symm)

theorem rsplitSlash_none_not_mem {u : List Char} (h : rsplitSlash u = none) :
    '/' ∉ u := by
  induction u with
  | nil => exact List.not_mem_nil _
  | cons c cs ih =>
    rw [rsplitSlash_cons] at h
    rcases hr : rsplitSlash cs with _ | p
    · rw [hr] at h
      by_cases hc : c = '/'
      · rw [if_pos hc] at h; cases h
      · rw [if_neg hc] at h
        intro hm
        rcases List.mem_cons.1 hm with h' | h'
        · exact hc h'.symm
        · exact ih hr h'
    · rw [hr] at h; cases h

theorem rsplitSlash_glue {u : List Char} : ∀ {a b : List Char},
    rsplitSlash u = some (a, b) → a ++ '/' :: b = u ∧ '/' ∉ b := by
  induction u with
  | nil => intro a b h; cases h
  | cons c cs ih =>
    intro a b h
    rw [rsplitSlash_cons] at h
    rcases hr : rsplitSlash cs with _ | p
    · rw [hr] at h
      by_cases hc : c = '/'
      · rw [if_pos hc] at h
        cases Option.some.inj h
        exact ⟨hc ▸ rfl, rsplitSlash_none_not_mem hr⟩
      · rw [if_neg hc] at h; cases h
    · rw [hr] at h
      have h' := Option.some.inj h
      rw [Prod.ext_iff] at h'
      obtain ⟨h1, h2⟩ := h'
      dsimp only at h1 h2
      obtain ⟨hg, hm⟩ := ih (a := p.1) (b := p.2) (by rw [hr])
      subst h1 h2
      exact ⟨by rw [List.cons_append, hg], hm⟩

theorem rsplitSlash_append {a : List Char} (b : List Char) (h : '/' ∉ b) :
    rsplitSlash (a ++ '/' :: b) = some (a, b) := by
  induction a with
  | nil =>
    rw [List.nil_append, rsplitSlash_cons, rsplitSlash_eq_none h, if_pos rfl]
  | cons c a' ih =>
    rw [List.cons_append, rsplitSlash_cons, ih]



theorem splitParams_eq (u : List Char) :
    splitParams u =
      match rsplitSlash u with
      | some p =>
        match splitFirst ';' p.2 with
        | (b1, some b2) => (p.1 ++ '/' :: b1, b2)
        | (_, none) => (u, [])
      | none =>
        match splitFirst ';' u with
        | (b1, some b2) => (b1, b2)
        | (_, none) => (u, []) := rfl

theorem splitParams_glue {u : List Char} (h : (splitParams u).2 ≠ []) :
    (splitParams u).1 ++ ';' :: (splitParams u).2 = u := by
  rcases hr : rsplitSlash u with _ | p
  · rcases hs : splitFirst ';' u with ⟨b1, _ | b2⟩
    · simp only [splitParams_eq, hr, hs] at h
      cases h rfl
    · simp only [splitParams_eq, hr, hs]
      exact (splitFirst_glue hs).1
  · rcases hs : splitFirst ';' p.2 with ⟨b1, _ | b2⟩
    · simp only [splitParams_eq, hr, hs] at h
      cases h rfl
    · simp only [splitParams_eq, hr, hs]
      obtain ⟨hg2, _⟩ := splitFirst_glue hs
      obtain ⟨hg1, _⟩ := rsplitSlash_glue hr
      rw [List.append_assoc, List.cons_append, hg2, hg1]

theorem splitParams_stable {u : List Char} (h : (splitParams u).2 = []) :
    splitParams (splitParams u).1 = ((splitParams u).1, []) := by
  rcases hr : rsplitSlash u with _ | p
  · rcases hs : splitFirst ';' u with ⟨b1, _ | b2⟩
    · simp only [splitParams_eq, hr, hs]
    · simp only [splitParams_eq, hr, hs] at h ⊢
      subst h
      obtain ⟨hg, hm⟩ := splitFirst_glue hs
      have hsl : '/' ∉ b1 := by
        intro hmem
        exact rsplitSlash_none_not_mem hr (hg ▸ List.mem_append.2 (Or.inl hmem))
      simp only [splitParams_eq, rsplitSlash_eq_none hsl, splitFirst_eq_none hm]
  · rcases hs : splitFirst ';' p.2 with ⟨b1, _ | b2⟩
    · simp only [splitParams_eq, hr, hs]
    · simp only [splitParams_eq, hr, hs] at h ⊢
      subst h
      obtain ⟨hg2, hm2⟩ := splitFirst_glue hs
      obtain ⟨hg1, hm1⟩ := rsplitSlash_glue hr
      have hsl : '/' ∉ b1 := by
        intro hmem
        exact hm1 (hg2 ▸ List.mem_append.2 (Or.inl hmem))
      simp only [splitParams_eq, rsplitSlash_append b1 hsl, splitFirst_eq_none hm2]

theorem pparts_pglue (sch p : List Char) :
    pparts sch (pglue (pparts sch p)) = pparts sch p := by
  by_cases hc : sch ∈ usesParams ∧ ';' ∈ p
  · have he : pparts sch p = splitParams p := by unfold pparts; rw [if_pos hc]
    rw [he]
    by_cases h2 : (splitParams p).2 = []
    · have hg : pglue (splitParams p) = (splitParams p).1 := by
        unfold pglue
        rw [if_neg (not_not_intro h2)]
      rw [hg]
      unfold pparts
      by_cases h3 : ';' ∈ (splitParams p).1
      · rw [if_pos ⟨hc.1, h3⟩, splitParams_stable h2, Prod.ext_iff]
        exact ⟨rfl, h2.symm⟩
      · rw [if_neg (fun hq => h3 hq.2), Prod.ext_iff]
        exact ⟨rfl, h2.symm⟩
    · have hg : pglue (splitParams p) = p := by
        unfold pglue
        rw [if_pos h2, splitParams_glue h2]
      rw [hg]
      unfold pparts
      rw [if_pos hc]
  · have he : pparts sch p = (p, []) := by unfold pparts; rw [if_neg hc]
    rw [he]
    have hg : pglue (p, []) = p := by unfold pglue; simp
    rw [hg, he]



theorem utf8Bytes_one {c : Char} (h : c.toNat < 0x80) : utf8Bytes c = [c.toNat] := by
  simp only [utf8Bytes]
  rw [if_pos h]

theorem utf8Bytes_two {c : Char} (h0 : 0x80 ≤ c.toNat) (h : c.toNat < 0x800) :
    utf8Bytes c = [0xC0 + c.toNat / 64, 0x80 + c.toNat % 64] := by
  simp only [utf8Bytes]
  rw [if_neg (by omega), if_pos h]

theorem utf8Bytes_three {c : Char} (h0 : 0x800 ≤ c.toNat) (h : c.toNat < 0x10000) :
    utf8Bytes c = [0xE0 + c.toNat / 4096, 0x80 + c.toNat / 64 % 64,
      0x80 + c.toNat % 64] := by
  simp only [utf8Bytes]
  rw [if_neg (by omega), if_neg (by omega), if_pos h]

theorem utf8Bytes_four {c : Char} (h0 : 0x10000 ≤ c.toNat) :
    utf8Bytes c = [0xF0 + c.toNat / 262144, 0x80 + c.toNat / 4096 % 64,
      0x80 + c.toNat / 64 % 64, 0x80 + c.toNat % 64] := by
  simp only [utf8Bytes]
  rw [if_neg (by omega), if_neg (by omega), if_neg (by omega)]

theorem utf8DecodeF_cons_eq (f : Nat) (b : Nat) (bs : List Nat) :
    utf8DecodeF (f+1) (b :: bs) =
      (if b < 0x80 then Char.ofNat b :: utf8DecodeF f bs
      else if b < 0xC2 then replChar :: utf8DecodeF f bs
      else if b < 0xE0 then
        match bs with
        | b1 :: bs1 =>
          if 0x80 ≤ b1 ∧ b1 < 0xC0 then
            Char.ofNat ((b - 0xC0) * 64 + (b1 - 0x80)) :: utf8DecodeF f bs1
          else replChar :: utf8DecodeF f bs
        | [] => [replChar]
      else if b < 0xF0 then
        match bs with
        | b1 :: bs1 =>
          if (if b = 0xE0 then 0xA0 ≤ b1 ∧ b1 < 0xC0
              else if b = 0xED then 0x80 ≤ b1 ∧ b1 < 0xA0
              else 0x80 ≤ b1 ∧ b1 < 0xC0) then
            match bs1 with
            | b2 :: bs2 =>
              if 0x80 ≤ b2 ∧ b2 < 0xC0 then
                Char.ofNat ((b - 0xE0) * 4096 + (b1 - 0x80) * 64 + (b2 - 0x80)) ::
                  utf8DecodeF f bs2
              else replChar :: utf8DecodeF f bs1
            | [] => [replChar]
          else replChar :: utf8DecodeF f bs
        | [] => [replChar]
      else if b < 0xF5 then
        match bs with
        | b1 :: bs1 =>
          if (if b = 0xF0 then 0x90 ≤ b1 ∧ b1 < 0xC0
              else if b = 0xF4 then 0x80 ≤ b1 ∧ b1 < 0x90
              else 0x80 ≤ b1 ∧ b1 < 0xC0) then
            match bs1 with
            | b2 :: bs2 =>
              if 0x80 ≤ b2 ∧ b2 < 0xC0 then
                match bs2 with
                | b3 :: bs3 =>
                  if 0x80 ≤ b3 ∧ b3 < 0xC0 then
                    Char.ofNat ((b - 0xF0) * 262144 + (b1 - 0x80) * 4096 +
                      (b2 - 0x80) * 64 + (b3 - 0x80)) :: utf8DecodeF f bs3
                  else replChar :: utf8DecodeF f bs2
                | [] => [replChar]
              else replChar :: utf8DecodeF f bs1
            | [] => [replChar]
          else replChar :: utf8DecodeF f bs
        | [] => [replChar]
      else replChar :: utf8DecodeF f bs) := rfl

theorem utf8DecodeF_one {b : Nat} (bs : List Nat) (f : Nat) (h : b < 0x80) :
    utf8DecodeF (f+1) (b :: bs) = Char.ofNat b :: utf8DecodeF f bs := by
  rw [utf8DecodeF_cons_eq, if_pos h]

theorem utf8DecodeF_two {b b1 : Nat} (bs : List Nat) (f : Nat)
    (h0 : 0xC2 ≤ b) (h1 : b < 0xE0) (h2 : 0x80 ≤ b1) (h3 : b1 < 0xC0) :
    utf8DecodeF (f+1) (b :: b1 :: bs) =
      Char.ofNat ((b - 0xC0) * 64 + (b1 - 0x80)) :: utf8DecodeF f bs := by
  have hshape : utf8DecodeF (f+1) (b :: b1 :: bs) =
      if 0x80 ≤ b1 ∧ b1 < 0xC0 then
        Char.ofNat ((b - 0xC0) * 64 + (b1 - 0x80)) :: utf8DecodeF f bs
      else replChar :: utf8DecodeF f (b1 :: bs) := by
    rw [utf8DecodeF_cons_eq, if_neg (by omega), if_neg (by omega), if_pos h1]
  rw [hshape, if_pos ⟨h2, h3⟩]

theorem utf8DecodeF_three {b b1 b2 : Nat} (bs : List Nat) (f : Nat)
    (h0 : 0xE0 ≤ b) (h1 : b < 0xF0)
    (hc : if b = 0xE0 then 0xA0 ≤ b1 ∧ b1 < 0xC0
          else if b = 0xED then 0x80 ≤ b1 ∧ b1 < 0xA0
          else 0x80 ≤ b1 ∧ b1 < 0xC0)
    (h2 : 0x80 ≤ b2) (h3 : b2 < 0xC0) :
    utf8DecodeF (f+1) (b :: b1 :: b2 :: bs) =
      Char.ofNat ((b - 0xE0) * 4096 + (b1 - 0x80) * 64 + (b2 - 0x80)) ::
        utf8DecodeF f bs := by
  have hshape : utf8DecodeF (f+1) (b :: b1 :: b2 :: bs) =
      if (if b = 0xE0 then 0xA0 ≤ b1 ∧ b1 < 0xC0
          else if b = 0xED then 0x80 ≤ b1 ∧ b1 < 0xA0
          else 0x80 ≤ b1 ∧ b1 < 0xC0) then
        (if 0x80 ≤ b2 ∧ b2 < 0xC0 then
          Char.ofNat ((b - 0xE0) * 4096 + (b1 - 0x80) * 64 + (b2 - 0x80)) ::
            utf8DecodeF f bs
        else replChar :: utf8DecodeF f (b2 :: bs))
      else replChar :: utf8DecodeF f (b1 :: b2 :: bs) := by
    rw [utf8DecodeF_cons_eq, if_neg (by omega), if_neg (by omega), if_neg (by omega),
      if_pos h1]
  rw [hshape, if_pos hc, if_pos ⟨h2, h3⟩]

theorem utf8DecodeF_four {b b1 b2 b3 : Nat} (bs : List Nat) (f : Nat)
    (h0 : 0xF0 ≤ b) (h1 : b < 0xF5)
    (hc : if b = 0xF0 then 0x90 ≤ b1 ∧ b1 < 0xC0
          else if b = 0xF4 then 0x80 ≤ b1 ∧ b1 < 0x90
          else 0x80 ≤ b1 ∧ b1 < 0xC0)
    (h2 : 0x80 ≤ b2) (h3 : b2 < 0xC0) (h4 : 0x80 ≤ b3) (h5 : b3 < 0xC0) :
    utf8DecodeF (f+1) (b :: b1 :: b2 :: b3 :: bs) =
      Char.ofNat ((b - 0xF0) * 262144 + (b1 - 0x80) * 4096 + (b2 - 0x80) * 64 +
        (b3 - 0x80)) :: utf8DecodeF f bs := by
  have hshape : utf8DecodeF (f+1) (b :: b1 :: b2 :: b3 :: bs) =
      if (if b = 0xF0 then 0x90 ≤ b1 ∧ b1 < 0xC0
          else if b = 0xF4 then 0x80 ≤ b1 ∧ b1 < 0x90
          else 0x80 ≤ b1 ∧ b1 < 0xC0) then
        (if 0x80 ≤ b2 ∧ b2 < 0xC0 then
          (if 0x80 ≤ b3 ∧ b3 < 0xC0 then
            Char.ofNat ((b - 0xF0) * 262144 + (b1 - 0x80) * 4096 + (b2 - 0x80) * 64 +
              (b3 - 0x80)) :: utf8DecodeF f bs
          else replChar :: utf8DecodeF f (b3 :: bs))
        else replChar :: utf8DecodeF f (b2 :: b3 :: bs))
      else replChar :: utf8DecodeF f (b1 :: b2 :: b3 :: bs) := by
    rw [utf8DecodeF_cons_eq, if_neg (by omega), if_neg (by omega), if_neg (by omega),
      if_neg (by omega), if_pos h1]
  rw [hshape, if_pos hc, if_pos ⟨h2, h3⟩, if_pos ⟨h4, h5⟩]

theorem utf8DecodeF_encode_cons (c : Char) (rest : List Nat) (f : Nat) :
    utf8DecodeF (f + 1) (utf8Bytes c ++ rest) = c :: utf8DecodeF f rest := by
  have hv : c.toNat < 0xD800 ∨ (0xE000 ≤ c.toNat ∧ c.toNat < 0x110000) := c.valid
  by_cases e1 : c.toNat < 0x80
  · rw [utf8Bytes_one e1, List.singleton_append, utf8DecodeF_one rest f e1,
      Char.ofNat_toNat]
  · by_cases e2 : c.toNat < 0x800
    · rw [utf8Bytes_two (by omega) e2]
      rw [show ([0xC0 + c.toNat / 64, 0x80 + c.toNat % 64] : List Nat) ++ rest =
        (0xC0 + c.toNat / 64) :: (0x80 + c.toNat % 64) :: rest from rfl]
      rw [utf8DecodeF_two rest f (by omega) (by omega) (by omega) (by omega)]
      rw [show (0xC0 + c.toNat / 64 - 0xC0) * 64 + (0x80 + c.toNat % 64 - 0x80) =
        c.toNat by omega, Char.ofNat_toNat]
    · by_cases e3 : c.toNat < 0x10000
      · rw [utf8Bytes_three (by omega) e3]
        rw [show ([0xE0 + c.toNat / 4096, 0x80 + c.toNat / 64 % 64,
          0x80 + c.toNat % 64] : List Nat) ++ rest = (0xE0 + c.toNat / 4096) ::
          (0x80 + c.toNat / 64 % 64) :: (0x80 + c.toNat % 64) :: rest from rfl]
        rw [utf8DecodeF_three rest f (by omega) (by omega)
          (by split
              · omega
              · split
                · rcases hv with hv | hv <;> omega
                · omega)
          (by omega) (by omega)]
        rw [show (0xE0 + c.toNat / 4096 - 0xE0) * 4096 +
          (0x80 + c.toNat / 64 % 64 - 0x80) * 64 + (0x80 + c.toNat % 64 - 0x80) =
          c.toNat by omega, Char.ofNat_toNat]
      · rw [utf8Bytes_four (by omega)]
        rw [show ([0xF0 + c.toNat / 262144, 0x80 + c.toNat / 4096 % 64,
          0x80 + c.toNat / 64 % 64, 0x80 + c.toNat % 64] : List Nat) ++ rest =
          (0xF0 + c.toNat / 262144) :: (0x80 + c.toNat / 4096 % 64) ::
          (0x80 + c.toNat / 64 % 64) :: (0x80 + c.toNat % 64) :: rest from rfl]
        rw [utf8DecodeF_four rest f (by omega) (by rcases hv with hv | hv <;> omega)
          (by split
              · omega
              · split
                · rcases hv with hv | hv <;> omega
                · rcases hv with hv | hv <;> omega)
          (by omega) (by omega) (by omega) (by omega)]
        rw [show (0xF0 + c.toNat / 262144 - 0xF0) * 262144 +
          (0x80 + c.toNat / 4096 % 64 - 0x80) * 4096 +
          (0x80 + c.toNat / 64 % 64 - 0x80) * 64 + (0x80 + c.toNat % 64 - 0x80) =
          c.toNat by omega, Char.ofNat_toNat]

theorem utf8DecodeF_encode {s : List Char} : ∀ {f : Nat}, s.length ≤ f →
    utf8DecodeF f (utf8EncodeList s) = s := by
  induction s with
  | nil =>
    intro f _
    cases f <;> rfl
  | cons c s' ih =>
    intro f hf
    rcases f with _ | f'
    · simp at hf
    · rw [show utf8EncodeList (c :: s') = utf8Bytes c ++ utf8EncodeList s' by
        simp [utf8EncodeList]]
      rw [utf8DecodeF_encode_cons, ih (by simp only [List.length_cons] at hf; omega)]

theorem utf8Decode_encode (s : List Char) : utf8Decode (utf8EncodeList s) = s := by
  unfold utf8Decode
  apply utf8DecodeF_encode
  calc s.length ≤ (utf8EncodeList s).length := by
        unfold utf8EncodeList
        induction s with
        | nil => simp
        | cons c s' ih =>
          simp only [List.flatMap_cons, List.length_append, List.length_cons]
          have : 1 ≤ (utf8Bytes c).length := by
            simp only [utf8Bytes]
            split
            · simp
            · split
              · simp
              · split <;> simp
          omega



theorem char_ne_of_toNat_ne {a b : Char} (h : a.toNat ≠ b.toNat) : a ≠ b :=
  fun e => h (congrArg Char.toNat e)

theorem alwaysSafe_facts {c : Char} (h : alwaysSafe c = true) :
    32 < c.toNat ∧ c.toNat < 128 ∧ c.toNat ≠ 43 ∧ c.toNat ≠ 37 ∧ c.toNat ≠ 38 ∧
    c.toNat ≠ 61 ∧ c.toNat ≠ 35 ∧ c.toNat ≠ 63 ∧ c.toNat ≠ 9 ∧ c.toNat ≠ 10 ∧
    c.toNat ≠ 13 := by
  simp only [alwaysSafe, Bool.or_eq_true, Bool.and_eq_true, decide_eq_true_eq,
    beq_iff_eq] at h
  rcases h with ((((((⟨h1, h2⟩ | ⟨h1, h2⟩) | ⟨h1, h2⟩) | h) | h) | h) | h)
  · have l1 : 65 ≤ c.toNat := h1
    have l2 : c.toNat ≤ 90 := h2
    omega
  · have l1 : 97 ≤ c.toNat := h1
    have l2 : c.toNat ≤ 122 := h2
    omega
  · have l1 : 48 ≤ c.toNat := h1
    have l2 : c.toNat ≤ 57 := h2
    omega
  · subst h
    decide
  · subst h
    decide
  · subst h
    decide
  · subst h
    decide

theorem hexDigit_facts : ∀ n : Nat, n < 16 →
    isHex (hexDigit n) = true ∧ hexVal (hexDigit n) = n ∧
    32 < (hexDigit n).toNat ∧ (hexDigit n).toNat < 128 ∧
    (hexDigit n).toNat ≠ 43 ∧ (hexDigit n).toNat ≠ 37 ∧ (hexDigit n).toNat ≠ 38 ∧
    (hexDigit n).toNat ≠ 61 ∧ (hexDigit n).toNat ≠ 35 ∧ (hexDigit n).toNat ≠ 63 ∧
    (hexDigit n).toNat ≠ 9 ∧ (hexDigit n).toNat ≠ 10 ∧ (hexDigit n).toNat ≠ 13 := by
  decide

theorem utf8Bytes_lt {c : Char} : ∀ b ∈ utf8Bytes c, b < 256 := by
  intro b hb
  have hv : c.toNat < 0xD800 ∨ (0xE000 ≤ c.toNat ∧ c.toNat < 0x110000) := c.valid
  by_cases e1 : c.toNat < 0x80
  · rw [utf8Bytes_one e1] at hb
    rcases List.mem_singleton.1 hb with rfl
    omega
  · by_cases e2 : c.toNat < 0x800
    · rw [utf8Bytes_two (by omega) e2] at hb
      simp only [List.mem_cons, List.mem_singleton, List.not_mem_nil, or_false] at hb
      rcases hb with rfl | rfl <;> omega
    · by_cases e3 : c.toNat < 0x10000
      · rw [utf8Bytes_three (by omega) e3] at hb
        simp only [List.mem_cons, List.mem_singleton, List.not_mem_nil, or_false] at hb
        rcases hb with rfl | rfl | rfl <;> omega
      · rw [utf8Bytes_four (by omega)] at hb
        simp only [List.mem_cons, List.mem_singleton, List.not_mem_nil, or_false] at hb
        rcases hb with rfl | rfl | rfl | rfl <;> rcases hv with hv | hv <;> omega

theorem quotePlus_mem {s : List Char} {c : Char} (h : c ∈ quotePlus s) :
    32 < c.toNat ∧ c.toNat < 128 ∧ c.toNat ≠ 38 ∧ c.toNat ≠ 61 ∧ c.toNat ≠ 35 ∧
    c.toNat ≠ 63 ∧ c.toNat ≠ 9 ∧ c.toNat ≠ 10 ∧ c.toNat ≠ 13 := by
  rw [quotePlus, List.mem_flatMap] at h
  obtain ⟨c0, _, hc⟩ := h
  unfold quotePlusChar at hc
  by_cases hsafe : alwaysSafe c0 = true
  · rw [if_pos hsafe] at hc
    rcases List.mem_singleton.1 hc with rfl
    obtain ⟨f1, f2, _, _, f5, f6, f7, f8, f9, f10, f11⟩ := alwaysSafe_facts hsafe
    exact ⟨f1, f2, f5, f6, f7, f8, f9, f10, f11⟩
  · rw [if_neg hsafe] at hc
    by_cases hsp : c0 = ' '
    · rw [if_pos hsp] at hc
      rcases List.mem_singleton.1 hc with rfl
      decide
    · rw [if_neg hsp] at hc
      rw [List.mem_flatMap] at hc
      obtain ⟨b, hb, hcb⟩ := hc
      have hblt : b < 256 := utf8Bytes_lt b hb
      unfold pctHex at hcb
      simp only [List.mem_cons, List.mem_singleton, List.not_mem_nil, or_false] at hcb
      rcases hcb with rfl | rfl | rfl
      · decide
      · obtain ⟨_, _, a1, a2, _, _, a3, a4, a5, a6, a7, a8, a9⟩ :=
          hexDigit_facts (b / 16) (by omega)
        exact ⟨a1, a2, a3, a4, a5, a6, a7, a8, a9⟩
      · obtain ⟨_, _, a1, a2, _, _, a3, a4, a5, a6, a7, a8, a9⟩ :=
          hexDigit_facts (b % 16) (by omega)
        exact ⟨a1, a2, a3, a4, a5, a6, a7, a8, a9⟩



theorem pctDecodeBytes_esc {c1 c2 : Char} (r : List Char)
    (h : (isHex c1 && isHex c2) = true) :
    pctDecodeBytes ('%' :: c1 :: c2 :: r) =
      (hexVal c1 * 16 + hexVal c2) :: pctDecodeBytes r := by
  rw [show pctDecodeBytes ('%' :: c1 :: c2 :: r) =
    if isHex c1 && isHex c2 then (hexVal c1 * 16 + hexVal c2) :: pctDecodeBytes r
    else 37 :: pctDecodeBytes (c1 :: c2 :: r) from rfl, if_pos h]

theorem pctDecodeBytes_cons_ne {c : Char} (r : List Char) (h : c ≠ '%') :
    pctDecodeBytes (c :: r) = c.toNat :: pctDecodeBytes r := by
  conv_lhs => unfold pctDecodeBytes
  split
  · rename_i heq
    cases heq
  · rename_i c1 c2 r2 heq
    rw [List.cons.injEq] at heq
    exact absurd heq.1 h
  · rename_i c' r2 heq
    rw [List.cons.injEq] at heq
    rw [← heq.1, ← heq.2]

theorem pctDecodeBytes_pctHex {b : Nat} (r : List Char) (hb : b < 256) :
    pctDecodeBytes (pctHex b ++ r) = b :: pctDecodeBytes r := by
  obtain ⟨x1, v1, _⟩ := hexDigit_facts (b / 16) (by omega)
  obtain ⟨x2, v2, _⟩ := hexDigit_facts (b % 16) (by omega)
  unfold pctHex
  rw [show (['%', hexDigit (b / 16), hexDigit (b % 16)] : List Char) ++ r =
    '%' :: hexDigit (b / 16) :: hexDigit (b % 16) :: r from rfl]
  rw [pctDecodeBytes_esc r (by rw [x1, x2]; rfl), v1, v2]
  congr 1
  omega

theorem map_plusToSpace_pctHex {b : Nat} (hb : b < 256) :
    (pctHex b).map (fun c => if c = '+' then ' ' else c) = pctHex b := by
  obtain ⟨_, _, _, _, n1, _⟩ := hexDigit_facts (b / 16) (by omega)
  obtain ⟨_, _, _, _, n2, _⟩ := hexDigit_facts (b % 16) (by omega)
  unfold pctHex
  rw [List.map_cons, List.map_cons, List.map_cons, List.map_nil]
  rw [if_neg (by decide), if_neg (char_ne_of_toNat_ne (by rw [show ('+' : Char).toNat = 43 from rfl]; exact n1)),
    if_neg (char_ne_of_toNat_ne (by rw [show ('+' : Char).toNat = 43 from rfl]; exact n2))]

theorem pctDecodeBytes_quotePlus (s : List Char) :
    pctDecodeBytes ((quotePlus s).map fun c => if c = '+' then ' ' else c) =
      utf8EncodeList s := by
  induction s with
  | nil => rfl
  | cons c s' ih =>
    rw [show quotePlus (c :: s') = quotePlusChar c ++ quotePlus s' by
      simp [quotePlus]]
    rw [List.map_append]
    rw [show utf8EncodeList (c :: s') = utf8Bytes c ++ utf8EncodeList s' by
      simp [utf8EncodeList]]
    unfold quotePlusChar
    by_cases hsafe : alwaysSafe c = true
    · rw [if_pos hsafe]
      obtain ⟨g1, g2, g3, g4, _⟩ := alwaysSafe_facts hsafe
      rw [show ([c] : List Char).map (fun c => if c = '+' then ' ' else c) =
        [if c = '+' then ' ' else c] from rfl]
      rw [if_neg (char_ne_of_toNat_ne (by rw [show ('+' : Char).toNat = 43 from rfl]; exact g3))]
      rw [List.singleton_append,
        pctDecodeBytes_cons_ne _ (char_ne_of_toNat_ne (by rw [show ('%' : Char).toNat = 37 from rfl]; exact g4)),
        ih, utf8Bytes_one g2, List.singleton_append]
    · rw [if_neg hsafe]
      by_cases hsp : c = ' '
      · rw [if_pos hsp, hsp]
        rw [show (['+'] : List Char).map (fun c => if c = '+' then ' ' else c) =
          [' '] from rfl]
        rw [List.singleton_append, pctDecodeBytes_cons_ne _ (by decide), ih]
        rw [show utf8Bytes ' ' = [32] from rfl, show (' ' : Char).toNat = 32 from rfl,
          List.singleton_append]
      · rw [if_neg hsp]
        have hmap : ((utf8Bytes c).flatMap pctHex).map
            (fun c => if c = '+' then ' ' else c) = (utf8Bytes c).flatMap pctHex := by
          rw [List.map_flatMap]
          apply List.flatMap_congr ?_
          intro b hb
          exact map_plusToSpace_pctHex (utf8Bytes_lt b hb)
        rw [hmap]
        have hdec : ∀ (bs : List Nat) (r : List Char), (∀ b ∈ bs, b < 256) →
            pctDecodeBytes (bs.flatMap pctHex ++ r) = bs ++ pctDecodeBytes r := by
          intro bs
          induction bs with
          | nil => intro r _; rw [List.flatMap_nil, List.nil_append, List.nil_append]
          | cons b bs' ihb =>
            intro r hlt
            rw [List.flatMap_cons, List.append_assoc,
              pctDecodeBytes_pctHex _ (hlt b (List.mem_cons_self b bs')),
              ihb r (fun x hx => hlt x (List.mem_cons_of_mem _ hx)), List.cons_append]
        rw [hdec (utf8Bytes c) _ utf8Bytes_lt, ih]

theorem unquoteGo_ascii (s : List Char) : ∀ (acc : List Char),
    (∀ c ∈ s, c.toNat < 128) → unquoteGo acc s = decodeRun (acc.reverse ++ s) := by
  induction s with
  | nil =>
    intro acc _
    rw [show unquoteGo acc [] = decodeRun acc.reverse from rfl, List.append_nil]
  | cons c cs ih =>
    intro acc h
    rw [show unquoteGo acc (c :: cs) =
      if c.toNat < 128 then unquoteGo (c :: acc) cs
      else decodeRun acc.reverse ++ c :: unquoteGo [] cs from rfl]
    rw [if_pos (h c (List.mem_cons_self c cs))]
    rw [ih (c :: acc) (fun x hx => h x (List.mem_cons_of_mem _ hx))]
    rw [List.reverse_cons, List.append_assoc, List.singleton_append]

theorem unquotePlus_quotePlus (s : List Char) : unquotePlus (quotePlus s) = s := by
  unfold unquotePlus unquote
  rw [unquoteGo_ascii _ [] ?hascii]
  · rw [List.reverse_nil, List.nil_append]
    unfold decodeRun
    rw [pctDecodeBytes_quotePlus, utf8Decode_encode]
  case hascii =>
    intro c hc
    rw [List.mem_map] at hc
    obtain ⟨c0, hc0, hmap⟩ := hc
    by_cases he : c0 = '+'
    · rw [← hmap, if_pos he]
      decide
    · rw [← hmap, if_neg he]
      exact (quotePlus_mem hc0).2.1



theorem splitSep_joinAmp {fs : List (List Char)} (hne : fs ≠ [])
    (h : ∀ f ∈ fs, '&' ∉ f) : splitSep '&' (joinAmp fs) = fs := by
  induction fs with
  | nil => cases hne rfl
  | cons f fs' ih =>
    cases fs' with
    | nil => exact splitSep_eq_single (h f (List.mem_cons_self f []))
    | cons g gs =>
      rw [show joinAmp (f :: g :: gs) = f ++ '&' :: joinAmp (g :: gs) from rfl]
      rw [splitSep_append _ (h f (List.mem_cons_self f (g :: gs)))]
      rw [ih (by simp) (fun x hx => h x (List.mem_cons_of_mem _ hx))]

theorem filterMap_id_of_some {α : Type} {f : α → Option α} : ∀ {l : List α},
    (∀ a ∈ l, f a = some a) → l.filterMap f = l := by
  intro l
  induction l with
  | nil => intro _; rfl
  | cons a l' ih =>
    intro h
    rw [List.filterMap_cons, h a (List.mem_cons_self a l'),
      ih (fun x hx => h x (List.mem_cons_of_mem _ hx))]

theorem urlencode_cons_ne_nil (p : List Char × List Char)
    (ps : List (List Char × List Char)) : urlencode (p :: ps) ≠ [] := by
  unfold urlencode
  rw [List.map_cons]
  cases ps with
  | nil => simp [joinAmp]
  | cons q qs =>
    rw [List.map_cons,
      show joinAmp ((quotePlus p.1 ++ '=' :: quotePlus p.2) ::
        (quotePlus q.1 ++ '=' :: quotePlus q.2) :: List.map _ qs) =
        (quotePlus p.1 ++ '=' :: quotePlus p.2) ++ '&' ::
          joinAmp ((quotePlus q.1 ++ '=' :: quotePlus q.2) :: List.map _ qs) from rfl]
    simp

theorem parseQsl_urlencode (pairs : List (List Char × List Char)) :
    parseQsl (urlencode pairs) = pairs := by
  cases pairs with
  | nil => rfl
  | cons p ps =>
    unfold parseQsl
    rw [if_neg (urlencode_cons_ne_nil p ps)]
    unfold urlencode
    rw [splitSep_joinAmp (by simp) ?hfree]
    case hfree =>
      intro f hf hmem
      rw [List.mem_map] at hf
      obtain ⟨q, _, hq⟩ := hf
      rw [← hq] at hmem
      rcases List.mem_append.1 hmem with hm | hm
      · exact (quotePlus_mem hm).2.2.1 rfl
      · rcases List.mem_cons.1 hm with he | hm'
        · cases he
        · exact (quotePlus_mem hm').2.2.1 rfl
    rw [List.filterMap_map]
    apply filterMap_id_of_some
    intro a _
    simp only [Function.comp]
    rw [if_neg (by simp)]
    rw [splitFirst_append (quotePlus a.2) ?hneq]
    case hneq =>
      intro hmem
      exact (quotePlus_mem hmem).2.2.2.1 rfl
    dsimp only [Option.getD]
    rw [unquotePlus_quotePlus, unquotePlus_quotePlus]

theorem filter_noise_parseQsl_urlencode (q : List Char) :
    (parseQsl (urlencode ((parseQsl q).filter
        fun kv => !decide (kv.1 ∈ noiseKeys)))).filter
      (fun kv => !decide (kv.1 ∈ noiseKeys)) =
    (parseQsl q).filter fun kv => !decide (kv.1 ∈ noiseKeys) := by
  rw [parseQsl_urlencode]
  apply List.filter_eq_self.mpr
  intro a ha
  exact (List.mem_filter.1 ha).2



theorem toNat_ofNat_valid {n : Nat} (h : n < 0xD800) : (Char.ofNat n).toNat = n := by
  unfold Char.ofNat
  rw [dif_pos (Or.inl h)]
  rfl

theorem char_toNat_inj {a b : Char} (h : a.toNat = b.toNat) : a = b := by
  have := congrArg Char.ofNat h
  rwa [Char.ofNat_toNat, Char.ofNat_toNat] at this

theorem isAsciiAlpha_ranges {c : Char} (h : isAsciiAlpha c = true) :
    (65 ≤ c.toNat ∧ c.toNat ≤ 90) ∨ (97 ≤ c.toNat ∧ c.toNat ≤ 122) := by
  simp only [isAsciiAlpha, Bool.or_eq_true, Bool.and_eq_true, decide_eq_true_eq] at h
  rcases h with ⟨h1, h2⟩ | ⟨h1, h2⟩
  · exact Or.inl ⟨h1, h2⟩
  · exact Or.inr ⟨h1, h2⟩

theorem isAsciiAlpha_of_toNat {c : Char}
    (h : (65 ≤ c.toNat ∧ c.toNat ≤ 90) ∨ (97 ≤ c.toNat ∧ c.toNat ≤ 122)) :
    isAsciiAlpha c = true := by
  simp only [isAsciiAlpha, Bool.or_eq_true, Bool.and_eq_true, decide_eq_true_eq]
  rcases h with ⟨h1, h2⟩ | ⟨h1, h2⟩
  · exact Or.inl ⟨h1, h2⟩
  · exact Or.inr ⟨h1, h2⟩

theorem toLowerAscii_alpha {c : Char} (h : isAsciiAlpha c = true) :
    isAsciiAlpha (toLowerAscii c) = true := by
  unfold toLowerAscii
  by_cases hu : 'A' ≤ c ∧ c ≤ 'Z'
  · rw [if_pos hu]
    have h1 : 65 ≤ c.toNat := hu.1
    have h2 : c.toNat ≤ 90 := hu.2
    apply isAsciiAlpha_of_toNat
    rw [toNat_ofNat_valid (by omega)]
    omega
  · rw [if_neg hu]
    exact h

theorem toLowerAscii_idem (d : Char) : toLowerAscii (toLowerAscii d) = toLowerAscii d := by
  unfold toLowerAscii
  by_cases h : 'A' ≤ d ∧ d ≤ 'Z'
  · rw [if_pos h]
    have h1 : 65 ≤ d.toNat := h.1
    have h2 : d.toNat ≤ 90 := h.2
    have he : (Char.ofNat (d.toNat + 32)).toNat = d.toNat + 32 :=
      toNat_ofNat_valid (by omega)
    rw [if_neg ?hn]
    case hn =>
      intro hc
      have l1 : 65 ≤ (Char.ofNat (d.toNat + 32)).toNat := hc.1
      have l2 : (Char.ofNat (d.toNat + 32)).toNat ≤ 90 := hc.2
      rw [he] at l1 l2
      omega
  · rw [if_neg h, if_neg h]

theorem schemeChars_facts : ∀ d ∈ schemeChars, 32 < d.toNat ∧ d.toNat ≠ 9 ∧
    d.toNat ≠ 13 ∧ d.toNat ≠ 10 ∧ d.toNat ≠ 58 := by decide

theorem toLowerAscii_mem_schemeChars : ∀ d ∈ schemeChars,
    toLowerAscii d ∈ schemeChars := by decide

theorem strip_noop {u : List Char} (hhead : ∀ c, u.head? = some c → 32 < c.toNat)
    (hall : ∀ c ∈ u, (!(c == '\t' || c == '\r' || c == '\n')) = true) :
    ((u.dropWhile fun c => c.toNat ≤ 32).filter
      fun c => !(c == '\t' || c == '\r' || c == '\n')) = u := by
  have hdrop : u.dropWhile (fun c => decide (c.toNat ≤ 32)) = u := by
    cases u with
    | nil => rfl
    | cons c cs =>
      rw [List.dropWhile_cons_of_neg]
      simp only [decide_eq_true_eq]
      have := hhead c rfl
      omega
  rw [hdrop]
  exact List.filter_eq_self.mpr hall



theorem splitFirst_fst_subset {sep : Char} {u : List Char} :
    ∀ c ∈ (splitFirst sep u).1, c ∈ u := by
  intro c hc
  rcases hs : (splitFirst sep u).2 with _ | b
  · obtain ⟨he, _⟩ := splitFirst_none_eq (Prod.ext rfl hs)
    rwa [← he]
  · obtain ⟨hg, _⟩ := splitFirst_glue (a := (splitFirst sep u).1) (Prod.ext rfl hs)
    rw [← hg]
    exact List.mem_append.2 (Or.inl hc)

theorem splitFirst_fst_not_mem {sep : Char} {u : List Char} :
    sep ∉ (splitFirst sep u).1 := by
  rcases hs : (splitFirst sep u).2 with _ | b
  · obtain ⟨he, hm⟩ := splitFirst_none_eq (Prod.ext rfl hs)
    exact fun hx => hm (he ▸ hx)
  · exact (splitFirst_glue (a := (splitFirst sep u).1) (Prod.ext rfl hs)).2

theorem splitFirst_fst_front {sep : Char} {u : List Char} :
    ∃ r, (splitFirst sep u).1 ++ r = u := by
  rcases hs : (splitFirst sep u).2 with _ | b
  · exact ⟨[], by rw [List.append_nil]; exact (splitFirst_none_eq (Prod.ext rfl hs)).1⟩
  · exact ⟨sep :: b, (splitFirst_glue (a := (splitFirst sep u).1) (Prod.ext rfl hs)).1⟩

theorem splitScheme_eq (u : List Char) :
    splitScheme u = match splitFirst ':' u with
      | (_, none) => ([], u)
      | (pre, some rest) =>
        match pre with
        | [] => ([], u)
        | c :: cs =>
          if isAsciiAlpha c && cs.all (fun d => decide (d ∈ schemeChars)) then
            ((c :: cs).map toLowerAscii, rest)
          else ([], u) := rfl

theorem splitScheme_detect {c0 : Char} {cs0 : List Char} (rest : List Char)
    (halpha : isAsciiAlpha c0 = true)
    (hchars : cs0.all (fun d => decide (d ∈ schemeChars)) = true)
    (hlower : (c0 :: cs0).map toLowerAscii = c0 :: cs0)
    (hnc : ':' ∉ c0 :: cs0) :
    splitScheme ((c0 :: cs0) ++ ':' :: rest) = (c0 :: cs0, rest) := by
  simp only [splitScheme_eq, splitFirst_append rest hnc, halpha, hchars,
    Bool.and_self, if_true]
  rw [hlower]

theorem splitScheme_head_slash {v : List Char} :
    splitScheme ('/' :: v) = ([], '/' :: v) := by
  rcases hs : splitFirst ':' ('/' :: v) with ⟨pre, _ | rest⟩
  · simp only [splitScheme_eq, hs]
  · obtain ⟨hg, _⟩ := splitFirst_glue hs
    cases pre with
    | nil => simp only [splitScheme_eq, hs]
    | cons p ps =>
      rw [List.cons_append] at hg
      have hp : p = '/' := (List.cons.injEq .. ▸ hg).1
      simp only [splitScheme_eq, hs]
      rw [if_neg]
      rw [hp]
      simp [isAsciiAlpha]

theorem splitScheme_snd_subset {u : List Char} : ∀ c ∈ (splitScheme u).2, c ∈ u := by
  intro c hc
  rcases hs : splitFirst ':' u with ⟨pre, _ | rest⟩
  · simp only [splitScheme_eq, hs] at hc
    exact hc
  · obtain ⟨hg, _⟩ := splitFirst_glue hs
    cases pre with
    | nil => simp only [splitScheme_eq, hs] at hc; exact hc
    | cons p ps =>
      simp only [splitScheme_eq, hs] at hc
      by_cases hcond : (isAsciiAlpha p && ps.all fun d => decide (d ∈ schemeChars)) = true
      · rw [if_pos hcond] at hc
        dsimp only at hc
        rw [← hg]
        exact List.mem_append.2 (Or.inr (List.mem_cons_of_mem _ hc))
      · rw [if_neg hcond] at hc
        exact hc

theorem takeWhile_append_all {α : Type} {p : α → Bool} {a b : List α}
    (ha : ∀ c ∈ a, p c = true) (hb : ∀ c, b.head? = some c → p c = false) :
    (a ++ b).takeWhile p = a ∧ (a ++ b).dropWhile p = b := by
  induction a with
  | nil =>
    rw [List.nil_append]
    cases b with
    | nil => exact ⟨rfl, rfl⟩
    | cons c b' =>
      constructor
      · rw [List.takeWhile_cons_of_neg]
        rw [hb c rfl]
        exact Bool.false_ne_true
      · rw [List.dropWhile_cons_of_neg]
        rw [hb c rfl]
        exact Bool.false_ne_true
  | cons c a' ih =>
    obtain ⟨iht, ihd⟩ := ih (fun x hx => ha x (List.mem_cons_of_mem _ hx)) 
    constructor
    · rw [List.cons_append, List.takeWhile_cons_of_pos (ha c (List.mem_cons_self c a')),
        iht]
    · rw [List.cons_append, List.dropWhile_cons_of_pos (ha c (List.mem_cons_self c a')),
        ihd]

theorem netlocSplit_append {a b : List Char}
    (ha : ∀ c ∈ a, (!(c == '/' || c == '?' || c == '#')) = true)
    (hb : ∀ c, b.head? = some c → (!(c == '/' || c == '?' || c == '#')) = false) :
    netlocSplit (a ++ b) = (a, b) := by
  obtain ⟨ht, hd⟩ := takeWhile_append_all ha hb
  unfold netlocSplit
  rw [ht, hd]

theorem dropWhile_head {α : Type} (p : α → Bool) (l : List α) :
    l.dropWhile p = [] ∨
    ∃ c t, l.dropWhile p = c :: t ∧ p c = false := by
  induction l with
  | nil => exact Or.inl rfl
  | cons c l' ih =>
    by_cases h : p c = true
    · rw [List.dropWhile_cons_of_pos h]
      exact ih
    · rw [List.dropWhile_cons_of_neg h]
      exact Or.inr ⟨c, l', rfl, Bool.not_eq_true _ ▸ h⟩

theorem splitFragQuery_build {path q f : List Char}
    (hp1 : '#' ∉ path) (hp2 : '?' ∉ path)
    (hq : ∀ c ∈ q, c ≠ '#' ∧ c ≠ '?') :
    splitFragQuery (path ++ (if q ≠ [] then '?' :: q else []) ++
      (if f ≠ [] then '#' :: f else [])) = (path, q, f) := by
  have hqf : '#' ∉ path ++ (if q ≠ [] then '?' :: q else []) := by
    intro hm
    rcases List.mem_append.1 hm with hm | hm
    · exact hp1 hm
    · by_cases hqe : q = []
      · rw [if_neg (not_not_intro hqe)] at hm
        cases hm
      · rw [if_pos hqe] at hm
        rcases List.mem_cons.1 hm with he | hm'
        · cases he
        · exact (hq _ hm').1 rfl
  have hfront : splitFirst '#' (path ++ (if q ≠ [] then '?' :: q else []) ++
      (if f ≠ [] then '#' :: f else [])) =
      (path ++ (if q ≠ [] then '?' :: q else []), if f ≠ [] then some f else none) := by
    by_cases hfe : f = []
    · rw [if_neg (not_not_intro hfe), if_neg (not_not_intro hfe), List.append_nil,
        splitFirst_eq_none hqf]
    · rw [if_pos hfe, if_pos hfe, splitFirst_append f hqf]
  have hmid : splitFirst '?' (path ++ (if q ≠ [] then '?' :: q else [])) =
      (path, if q ≠ [] then some q else none) := by
    by_cases hqe : q = []
    · rw [if_neg (not_not_intro hqe), if_neg (not_not_intro hqe), List.append_nil,
        splitFirst_eq_none hp2]
    · rw [if_pos hqe, if_pos hqe, splitFirst_append q hp2]
  unfold splitFragQuery
  rw [hfront]
  dsimp only
  rw [hmid]
  dsimp only
  by_cases hqe : q = [] <;> by_cases hfe : f = [] <;>
    simp [hqe, hfe]



theorem splitParams_fst_subset {u : List Char} : ∀ c ∈ (splitParams u).1, c ∈ u := by
  intro c hc
  rcases hr : rsplitSlash u with _ | p
  · rcases hs : splitFirst ';' u with ⟨b1, _ | b2⟩
    · simp only [splitParams_eq, hr, hs] at hc
      exact hc
    · simp only [splitParams_eq, hr, hs] at hc
      obtain ⟨hg, _⟩ := splitFirst_glue hs
      rw [← hg]
      exact List.mem_append.2 (Or.inl hc)
  · rcases hs : splitFirst ';' p.2 with ⟨b1, _ | b2⟩
    · simp only [splitParams_eq, hr, hs] at hc
      exact hc
    · simp only [splitParams_eq, hr, hs] at hc
      obtain ⟨hg1, _⟩ := rsplitSlash_glue hr
      obtain ⟨hg2, _⟩ := splitFirst_glue hs
      rw [← hg1]
      rcases List.mem_append.1 hc with hm | hm
      · exact List.mem_append.2 (Or.inl hm)
      · rcases List.mem_cons.1 hm with he | hm'
        · exact List.mem_append.2 (Or.inr (he ▸ List.mem_cons_self _ _))
        · refine List.mem_append.2 (Or.inr (List.mem_cons_of_mem _ ?_))
          rw [← hg2]
          exact List.mem_append.2 (Or.inl hm')

theorem splitParams_fst_head {u : List Char} (hp : u = [] ∨ u.take 1 = ['/']) :
    (splitParams u).1 = [] ∨ (splitParams u).1.take 1 = ['/'] := by
  rcases hr : rsplitSlash u with _ | p
  · rcases hs : splitFirst ';' u with ⟨b1, _ | b2⟩
    · simp only [splitParams_eq, hr, hs]
      exact hp
    · simp only [splitParams_eq, hr, hs]
      rcases hp with rfl | hp
      · cases hs
      · rcases u with _ | ⟨c, t⟩
        · cases hs
        · have hcs : c = '/' := by
            have : (c :: t).take 1 = [c] := rfl
            rw [this] at hp
            exact (List.cons.injEq .. ▸ hp).1
          exact absurd (hcs ▸ List.mem_cons_self c t) (rsplitSlash_none_not_mem hr)
  · rcases hs : splitFirst ';' p.2 with ⟨b1, _ | b2⟩
    · simp only [splitParams_eq, hr, hs]
      exact hp
    · simp only [splitParams_eq, hr, hs]
      obtain ⟨hg1, _⟩ := rsplitSlash_glue hr
      rcases hp with rfl | hp
      · exact Option.noConfusion hr
      · cases hpp : p.1 with
        | nil =>
          exact Or.inr rfl
        | cons c t =>
          right
          rw [hpp] at hg1
          rw [← hg1] at hp
          have ht1 : ((c :: t) ++ '/' :: p.2).take 1 = [c] := rfl
          rw [ht1] at hp
          have hc : c = '/' := (List.cons.injEq .. ▸ hp).1
          rw [hc]
          rfl

theorem pglue_pparts_subset (sch : List Char) {p : List Char} :
    ∀ c ∈ pglue (pparts sch p), c ∈ p := by
  intro c hc
  by_cases hcond : sch ∈ usesParams ∧ ';' ∈ p
  · rw [show pparts sch p = splitParams p by unfold pparts; rw [if_pos hcond]] at hc
    by_cases h2 : (splitParams p).2 = []
    · rw [show pglue (splitParams p) = (splitParams p).1 by
        unfold pglue; rw [if_neg (not_not_intro h2)]] at hc
      exact splitParams_fst_subset c hc
    · rw [show pglue (splitParams p) = p by
        unfold pglue; rw [if_pos h2, splitParams_glue h2]] at hc
      exact hc
  · rw [show pparts sch p = (p, []) by unfold pparts; rw [if_neg hcond]] at hc
    rw [show pglue (p, []) = p by unfold pglue; simp] at hc
    exact hc

theorem pglue_pparts_head (sch : List Char) {p : List Char}
    (hp : p = [] ∨ p.take 1 = ['/']) :
    pglue (pparts sch p) = [] ∨ (pglue (pparts sch p)).take 1 = ['/'] := by
  by_cases hcond : sch ∈ usesParams ∧ ';' ∈ p
  · rw [show pparts sch p = splitParams p by unfold pparts; rw [if_pos hcond]]
    by_cases h2 : (splitParams p).2 = []
    · rw [show pglue (splitParams p) = (splitParams p).1 by
        unfold pglue; rw [if_neg (not_not_intro h2)]]
      exact splitParams_fst_head hp
    · rw [show pglue (splitParams p) = p by
        unfold pglue; rw [if_pos h2, splitParams_glue h2]]
      exact hp
  · rw [show pparts sch p = (p, []) by unfold pparts; rw [if_neg hcond]]
    rw [show pglue (p, []) = p by unfold pglue; simp]
    exact hp

theorem joinAmp_mem {fs : List (List Char)} {c : Char} (h : c ∈ joinAmp fs) :
    c = '&' ∨ ∃ f ∈ fs, c ∈ f := by
  induction fs with
  | nil => cases h
  | cons f fs' ih =>
    cases fs' with
    | nil =>
      exact Or.inr ⟨f, List.mem_cons_self f [], h⟩
    | cons g gs =>
      rw [show joinAmp (f :: g :: gs) = f ++ '&' :: joinAmp (g :: gs) from rfl] at h
      rcases List.mem_append.1 h with hm | hm
      · exact Or.inr ⟨f, List.mem_cons_self f _, hm⟩
      · rcases List.mem_cons.1 hm with he | hm'
        · exact Or.inl he
        · rcases ih hm' with he | ⟨f', hf', hc'⟩
          · exact Or.inl he
          · exact Or.inr ⟨f', List.mem_cons_of_mem _ hf', hc'⟩

theorem urlencode_mem {pairs : List (List Char × List Char)} {c : Char}
    (h : c ∈ urlencode pairs) :
    32 < c.toNat ∧ c.toNat < 128 ∧ c.toNat ≠ 35 ∧ c.toNat ≠ 63 ∧ c.toNat ≠ 9 ∧
    c.toNat ≠ 13 ∧ c.toNat ≠ 10 := by
  unfold urlencode at h
  rcases joinAmp_mem h with rfl | ⟨f, hf, hc⟩
  · refine ⟨by decide, by decide, by decide, by decide, by decide, by decide, by decide⟩
  · rw [List.mem_map] at hf
    obtain ⟨q, _, hq⟩ := hf
    rw [← hq] at hc
    rcases List.mem_append.1 hc with hm | hm
    · obtain ⟨g1, g2, _, _, g5, g6, g7, g8, g9⟩ := quotePlus_mem hm
      exact ⟨g1, g2, g5, g6, g7, g9, g8⟩
    · rcases List.mem_cons.1 hm with he | hm'
      · subst he
        refine ⟨by decide, by decide, by decide, by decide, by decide, by decide,
          by decide⟩
      · obtain ⟨g1, g2, _, _, g5, g6, g7, g8, g9⟩ := quotePlus_mem hm'
        exact ⟨g1, g2, g5, g6, g7, g9, g8⟩



theorem splitScheme_fst_props (u : List Char) :
    (splitScheme u).1 = [] ∨
    (∃ c cs, (splitScheme u).1 = c :: cs ∧ isAsciiAlpha c = true ∧
      cs.all (fun d => decide (d ∈ schemeChars)) = true ∧
      (c :: cs).map toLowerAscii = c :: cs) := by
  rcases hs : splitFirst ':' u with ⟨pre, _ | rest⟩
  · simp only [splitScheme_eq, hs]
    exact Or.inl trivial
  · cases pre with
    | nil =>
      simp only [splitScheme_eq, hs]
      exact Or.inl trivial
    | cons c cs =>
      by_cases hcond : (isAsciiAlpha c && cs.all fun d => decide (d ∈ schemeChars)) = true
      · simp only [splitScheme_eq, hs]
        rw [if_pos hcond]
        right
        rw [Bool.and_eq_true] at hcond
        refine ⟨toLowerAscii c, cs.map toLowerAscii, by rw [List.map_cons], ?_, ?_, ?_⟩
        · exact toLowerAscii_alpha hcond.1
        · rw [List.all_eq_true]
          intro d hd
          rw [List.mem_map] at hd
          obtain ⟨d0, hd0, rfl⟩ := hd
          rw [List.all_eq_true] at hcond
          exact decide_eq_true (toLowerAscii_mem_schemeChars d0
            (of_decide_eq_true (hcond.2 d0 hd0)))
        · rw [← List.map_cons, List.map_map]
          exact List.map_congr_left (fun d _ => toLowerAscii_idem d)
      · simp only [splitScheme_eq, hs]
        rw [if_neg hcond]
        exact Or.inl rfl

theorem urlparseE_eq (url : List Char) :
    urlparseE url = (urlsplitE url).map fun r =>
      if r.scheme ∈ usesParams ∧ ';' ∈ r.path then
        ⟨r.scheme, r.netloc, (splitParams r.path).1, (splitParams r.path).2,
          r.query, r.fragment⟩
      else ⟨r.scheme, r.netloc, r.path, [], r.query, r.fragment⟩ := rfl

theorem urlparseE_ok {xl : List Char} {P : ParseResult} (h : urlparseE xl = .ok P) :
    ∃ S, urlsplitE xl = .ok S ∧ P.scheme = S.scheme ∧ P.netloc = S.netloc ∧
      (P.path, P.params) = pparts S.scheme S.path ∧ P.query = S.query ∧
      P.fragment = S.fragment := by
  rw [urlparseE_eq] at h
  cases hS : urlsplitE xl with
  | error e =>
    rw [hS] at h
    simp only [Except.map] at h
    cases h
  | ok S =>
    rw [hS] at h
    simp only [Except.map] at h
    have h' := Except.ok.inj h
    refine ⟨S, rfl, ?_⟩
    by_cases hc : S.scheme ∈ usesParams ∧ ';' ∈ S.path
    · rw [if_pos hc] at h'
      subst h'
      refine ⟨rfl, rfl, ?_, rfl, rfl⟩
      unfold pparts
      rw [if_pos hc]
    · rw [if_neg hc] at h'
      subst h'
      refine ⟨rfl, rfl, ?_, rfl, rfl⟩
      unfold pparts
      rw [if_neg hc]

theorem urlunparse_pglue (p : ParseResult) :
    urlunparse p =
      urlunsplit p.scheme p.netloc (pglue (p.path, p.params)) p.query p.fragment := rfl

theorem normalizeUrlL_eq (xl : List Char) :
    normalizeUrlL xl = (urlparseE xl).map fun parsed =>
      urlunparse { parsed with query := urlencode ((parseQsl parsed.query).filter
        fun kv => !decide (kv.1 ∈ noiseKeys)) } := rfl



theorem netlocSplit_eq (u : List Char) :
    netlocSplit u = (u.takeWhile fun c => !(c == '/' || c == '?' || c == '#'),
      u.dropWhile fun c => !(c == '/' || c == '?' || c == '#')) := rfl

theorem splitFragQuery_eq (u : List Char) :
    splitFragQuery u =
      ((splitFirst '?' (splitFirst '#' u).1).1,
       (splitFirst '?' (splitFirst '#' u).1).2.getD [],
       (splitFirst '#' u).2.getD []) := rfl

theorem urlsplitE_ok_facts {xl : List Char} {S : SplitResult}
    (h : urlsplitE xl = .ok S) (hn : S.netloc ≠ []) :
    (∀ c ∈ S.netloc, (!(c == '/' || c == '?' || c == '#')) = true) ∧
    ¬(('[' ∈ S.netloc ∧ ']' ∉ S.netloc) ∨ (']' ∈ S.netloc ∧ '[' ∉ S.netloc)) ∧
    '#' ∉ S.path ∧ '?' ∉ S.path ∧ (S.path = [] ∨ S.path.take 1 = ['/']) ∧
    (S.scheme = [] ∨ ∃ c cs, S.scheme = c :: cs ∧ isAsciiAlpha c = true ∧
      cs.all (fun d => decide (d ∈ schemeChars)) = true ∧
      (c :: cs).map toLowerAscii = c :: cs) ∧
    (∀ c ∈ S.netloc, (!(c == '\t' || c == '\r' || c == '\n')) = true) ∧
    (∀ c ∈ S.path, (!(c == '\t' || c == '\r' || c == '\n')) = true) ∧
    (∀ c ∈ S.fragment, (!(c == '\t' || c == '\r' || c == '\n')) = true) := by
  simp only [urlsplitE] at h
  set u0 := (xl.dropWhile fun c => c.toNat ≤ 32).filter
    (fun c => !(c == '\t' || c == '\r' || c == '\n')) with hu0
  have hu0mem : ∀ c ∈ u0, (!(c == '\t' || c == '\r' || c == '\n')) = true := by
    intro c hc
    rw [hu0] at hc
    exact (List.mem_filter.1 hc).2
  have hsub2 : ∀ c ∈ (splitScheme u0).2.drop 2, c ∈ u0 :=
    fun c hc => splitScheme_snd_subset c (List.drop_subset _ _ hc)
  by_cases h2 : (splitScheme u0).2.take 2 = ['/', '/']
  swap
  · rw [if_neg h2] at h
    exfalso
    apply hn
    rw [← Except.ok.inj h]
  rw [if_pos h2] at h
  by_cases hbr : ('[' ∈ (netlocSplit ((splitScheme u0).2.drop 2)).1 ∧
      ']' ∉ (netlocSplit ((splitScheme u0).2.drop 2)).1) ∨
      (']' ∈ (netlocSplit ((splitScheme u0).2.drop 2)).1 ∧
      '[' ∉ (netlocSplit ((splitScheme u0).2.drop 2)).1)
  · rw [if_pos hbr] at h
    cases h
  rw [if_neg hbr] at h
  have hS := (Except.ok.inj h).symm
  subst hS
  dsimp only
  rw [splitFragQuery_eq]
  dsimp only
  set nl2 := (netlocSplit ((splitScheme u0).2.drop 2)).2 with hnl2
  have hnl2sub : ∀ c ∈ nl2, c ∈ u0 := by
    intro c hc
    rw [hnl2, netlocSplit_eq] at hc
    dsimp only at hc
    exact hsub2 c ((List.dropWhile_sublist _).subset hc)
  have hpathsub : ∀ c ∈ (splitFirst '?' (splitFirst '#' nl2).1).1, c ∈ nl2 :=
    fun c hc => splitFirst_fst_subset c (splitFirst_fst_subset c hc)
  have hp3 : '#' ∉ (splitFirst '?' (splitFirst '#' nl2).1).1 :=
    fun hm => splitFirst_fst_not_mem (splitFirst_fst_subset _ hm)
  have hp4 : '?' ∉ (splitFirst '?' (splitFirst '#' nl2).1).1 :=
    splitFirst_fst_not_mem
  refine ⟨?_, hbr, hp3, hp4, ?_, ?_, ?_, ?_, ?_⟩
  · intro c hc
    rw [netlocSplit_eq] at hc
    dsimp only at hc
    have hw := List.mem_takeWhile_imp hc
    exact hw
  · -- path head
    rcases dropWhile_head (fun c => !(c == '/' || c == '?' || c == '#'))
      ((splitScheme u0).2.drop 2) with hnil | ⟨c, t, hct, hcf⟩
    · left
      have hemp : nl2 = [] := by rw [hnl2, netlocSplit_eq]; exact hnil
      rw [hemp]
      rfl
    · have hnlct : nl2 = c :: t := by rw [hnl2, netlocSplit_eq]; exact hct
      obtain ⟨r1, hr1⟩ := @splitFirst_fst_front '?' (splitFirst '#' nl2).1
      obtain ⟨r2, hr2⟩ := @splitFirst_fst_front '#' nl2
      cases hpc : (splitFirst '?' (splitFirst '#' nl2).1).1 with
      | nil => exact Or.inl rfl
      | cons p0 pr =>
        right
        rw [hpc] at hr1
        have hh : p0 = c := by
          have : (p0 :: pr) ++ r1 ++ r2 = c :: t := by rw [hr1, hr2, hnlct]
          exact (List.cons.injEq .. ▸ this).1
        have hcor : (c == '/' || c == '?' || c == '#') = true := by
          rcases hb : (c == '/' || c == '?' || c == '#') with _ | _
          · rw [hb] at hcf
            cases hcf
          · rfl
        simp only [Bool.or_eq_true, beq_iff_eq] at hcor
        rcases hcor with (hc' | hc') | hc'
        · rw [hh, hc']
          rfl
        · refine absurd ?_ (hpc ▸ hp4)
          rw [← hc', ← hh]
          exact List.mem_cons_self p0 pr
        · refine absurd ?_ (hpc ▸ hp3)
          rw [← hc', ← hh]
          exact List.mem_cons_self p0 pr
  · exact splitScheme_fst_props u0
  · intro c hc
    rw [netlocSplit_eq] at hc
    dsimp only at hc
    exact hu0mem c (hsub2 c ((List.takeWhile_sublist _).subset hc))
  · intro c hc
    exact hu0mem c (hnl2sub c (hpathsub c hc))
  · intro c hc
    cases hf2 : (splitFirst '#' nl2).2 with
    | none =>
      rw [hf2] at hc
      cases hc
    | some b =>
      rw [hf2] at hc
      obtain ⟨hg, _⟩ := splitFirst_glue (a := (splitFirst '#' nl2).1)
        (Prod.ext rfl hf2)
      refine hu0mem c (hnl2sub c ?_)
      rw [← hg]
      exact List.mem_append.2 (Or.inr (List.mem_cons_of_mem _ hc))



theorem urlsplitE_unsplit {scheme netloc C q frag : List Char}
    (hnet : netloc ≠ [])
    (hsch : scheme = [] ∨ ∃ c cs, scheme = c :: cs ∧ isAsciiAlpha c = true ∧
      cs.all (fun d => decide (d ∈ schemeChars)) = true ∧
      (c :: cs).map toLowerAscii = c :: cs)
    (hnl1 : ∀ c ∈ netloc, (!(c == '/' || c == '?' || c == '#')) = true)
    (hbr : ¬(('[' ∈ netloc ∧ ']' ∉ netloc) ∨ (']' ∈ netloc ∧ '[' ∉ netloc)))
    (hC3 : '#' ∉ C) (hC4 : '?' ∉ C) (hChead : C = [] ∨ C.take 1 = ['/'])
    (hq : ∀ c ∈ q, c ≠ '#' ∧ c ≠ '?')
    (htab : ∀ c ∈ scheme ++ netloc ++ C ++ q ++ frag,
      (!(c == '\t' || c == '\r' || c == '\n')) = true) :
    urlsplitE (urlunsplit scheme netloc C q frag) =
      .ok ⟨scheme, netloc, C, q, frag⟩ := by
  have hins : ¬(C ≠ [] ∧ C.take 1 ≠ ['/']) := by
    rcases hChead with he | he
    · exact fun hh => hh.1 he
    · exact fun hh => hh.2 he
  have hunsplit : urlunsplit scheme netloc C q frag =
      (if scheme ≠ [] then scheme ++ [':'] else []) ++ '/' :: '/' ::
      (netloc ++ (C ++ (if q ≠ [] then '?' :: q else []) ++
        (if frag ≠ [] then '#' :: frag else []))) := by
    unfold urlunsplit
    rw [if_pos (Or.inl hnet), if_neg hins]
    by_cases hsA : scheme = [] <;> by_cases hqA : q = [] <;> by_cases hfA : frag = [] <;>
      simp [hsA, hqA, hfA, List.append_assoc]
  have hT : ∀ c, (C ++ (if q ≠ [] then '?' :: q else []) ++
      (if frag ≠ [] then '#' :: frag else [])).head? = some c →
      (!(c == '/' || c == '?' || c == '#')) = false := by
    intro c hc
    cases hCc : C with
    | cons c0 t0 =>
      rw [hCc] at hc
      rw [List.cons_append, List.cons_append, List.head?_cons] at hc
      have hc0 : c0 = '/' := by
        rcases hChead with he | he
        · rw [hCc] at he
          cases he
        · rw [hCc] at he
          exact (List.cons.injEq .. ▸ he).1
      cases Option.some.inj hc
      rw [hc0]
      decide
    | nil =>
      rw [hCc, List.nil_append] at hc
      by_cases hqA : q = []
      · rw [if_neg (not_not_intro hqA), List.nil_append] at hc
        by_cases hfA : frag = []
        · rw [if_neg (not_not_intro hfA)] at hc
          cases hc
        · rw [if_pos hfA, List.head?_cons] at hc
          cases Option.some.inj hc
          decide
      · rw [if_pos hqA, List.cons_append, List.head?_cons] at hc
        cases Option.some.inj hc
        decide
  have htab' : ∀ c ∈ (if scheme ≠ [] then scheme ++ [':'] else []) ++ '/' :: '/' ::
      (netloc ++ (C ++ (if q ≠ [] then '?' :: q else []) ++
        (if frag ≠ [] then '#' :: frag else []))),
      (!(c == '\t' || c == '\r' || c == '\n')) = true := by
    intro c hc
    rcases List.mem_append.1 hc with hm | hm
    · by_cases hsA : scheme = []
      · rw [if_neg (not_not_intro hsA)] at hm
        cases hm
      · rw [if_pos hsA] at hm
        rcases List.mem_append.1 hm with hm' | hm'
        · exact htab c (by simp [hm'])
        · rcases List.mem_singleton.1 hm' with rfl
          decide
    · rcases List.mem_cons.1 hm with rfl | hm'
      · decide
      rcases List.mem_cons.1 hm' with rfl | hm''
      · decide
      rcases List.mem_append.1 hm'' with hm3 | hm3
      · exact htab c (by simp [hm3])
      rcases List.mem_append.1 hm3 with hm4 | hm4
      · rcases List.mem_append.1 hm4 with hm5 | hm5
        · exact htab c (by simp [hm5])
        · by_cases hqA : q = []
          · rw [if_neg (not_not_intro hqA)] at hm5
            cases hm5
          · rw [if_pos hqA] at hm5
            rcases List.mem_cons.1 hm5 with rfl | hm6
            · decide
            · exact htab c (by simp [hm6])
      · by_cases hfA : frag = []
        · rw [if_neg (not_not_intro hfA)] at hm4
          cases hm4
        · rw [if_pos hfA] at hm4
          rcases List.mem_cons.1 hm4 with rfl | hm5
          · decide
          · exact htab c (by simp [hm5])
  rw [hunsplit]
  simp only [urlsplitE]
  rcases hsch with hs0 | ⟨c0, cs0, hs0, halpha, hchars, hlower⟩
  · subst hs0
    rw [show (if ([] : List Char) ≠ [] then [] ++ [':'] else []) = ([] : List Char)
      by simp, List.nil_append]
    rw [strip_noop (by intro c hc; cases Option.some.inj hc; decide)
      (by intro c hc; exact htab' c (by simpa using hc))]
    rw [splitScheme_head_slash]
    rw [show (('/' :: '/' :: (netloc ++ _)) : List Char).take 2 = ['/', '/'] from rfl]
    rw [if_pos rfl]
    rw [show (('/' :: '/' :: (netloc ++ (C ++ (if q ≠ [] then '?' :: q else []) ++
      (if frag ≠ [] then '#' :: frag else [])))) : List Char).drop 2 =
      netloc ++ (C ++ (if q ≠ [] then '?' :: q else []) ++
      (if frag ≠ [] then '#' :: frag else [])) from rfl]
    rw [netlocSplit_append hnl1 hT]
    rw [if_neg hbr]
    rw [splitFragQuery_build hC3 hC4 hq]
  · subst hs0
    rw [show (if (c0 :: cs0 : List Char) ≠ [] then (c0 :: cs0) ++ [':'] else []) =
      (c0 :: cs0) ++ [':'] by simp]
    rw [show ((c0 :: cs0) ++ [':']) ++ '/' :: '/' ::
      (netloc ++ (C ++ (if q ≠ [] then '?' :: q else []) ++
        (if frag ≠ [] then '#' :: frag else []))) =
      (c0 :: cs0) ++ ':' :: ('/' :: '/' ::
      (netloc ++ (C ++ (if q ≠ [] then '?' :: q else []) ++
        (if frag ≠ [] then '#' :: frag else [])))) by
      rw [List.append_assoc, List.singleton_append]]
    have hnotcolon : ':' ∉ (c0 :: cs0 : List Char) := by
      intro hm
      rcases List.mem_cons.1 hm with he | hm'
      · rcases isAsciiAlpha_ranges halpha with ⟨h1, h2⟩ | ⟨h1, h2⟩ <;>
          rw [← he] at h1 h2 <;> revert h1 h2 <;> decide
      · rw [List.all_eq_true] at hchars
        exact (schemeChars_facts ':' (of_decide_eq_true (hchars ':' hm'))).2.2.2.2 rfl
    rw [strip_noop ?hh2 (by intro c hc; exact htab' c (by simpa using hc))]
    case hh2 =>
      intro c hc
      rw [List.cons_append, List.head?_cons] at hc
      cases Option.some.inj hc
      rcases isAsciiAlpha_ranges halpha with ⟨h1, h2⟩ | ⟨h1, h2⟩ <;> omega
    rw [splitScheme_detect _ halpha hchars hlower hnotcolon]
    rw [show (('/' :: '/' :: (netloc ++ _)) : List Char).take 2 = ['/', '/'] from rfl]
    rw [if_pos rfl]
    rw [show (('/' :: '/' :: (netloc ++ (C ++ (if q ≠ [] then '?' :: q else []) ++
      (if frag ≠ [] then '#' :: frag else [])))) : List Char).drop 2 =
      netloc ++ (C ++ (if q ≠ [] then '?' :: q else []) ++
      (if frag ≠ [] then '#' :: frag else [])) from rfl]
    rw [netlocSplit_append hnl1 hT]
    rw [if_neg hbr]
    rw [splitFragQuery_build hC3 hC4 hq]



theorem no_tab_bool {c : Char} (h9 : c.toNat ≠ 9) (h13 : c.toNat ≠ 13)
    (h10 : c.toNat ≠ 10) : (!(c == '\t' || c == '\r' || c == '\n')) = true := by
  have n1 : c ≠ '\t' := char_ne_of_toNat_ne
    (by rw [show ('\t' : Char).toNat = 9 from rfl]; exact h9)
  have n2 : c ≠ '\r' := char_ne_of_toNat_ne
    (by rw [show ('\r' : Char).toNat = 13 from rfl]; exact h13)
  have n3 : c ≠ '\n' := char_ne_of_toNat_ne
    (by rw [show ('\n' : Char).toNat = 10 from rfl]; exact h10)
  simp [n1, n2, n3]

theorem normalizeUrlL_idem {xl : List Char} {P : ParseResult} {ul : List Char}
    (hP : urlparseE xl = .ok P) (hn : P.netloc ≠ [])
    (hu : normalizeUrlL xl = .ok ul) : normalizeUrlL ul = .ok ul := by
  obtain ⟨S, hS, e1, e2, e3, e4, e5⟩ := urlparseE_ok hP
  have hnS : S.netloc ≠ [] := fun hh => hn (by rw [e2, hh])
  obtain ⟨f1, f2, f3, f4, f5, f6, f7, f8, f9⟩ := urlsplitE_ok_facts hS hnS
  set q' := urlencode ((parseQsl S.query).filter
    fun kv => !decide (kv.1 ∈ noiseKeys)) with hq'
  set C := pglue (pparts S.scheme S.path) with hCdef
  have hul : ul = urlunsplit S.scheme S.netloc C q' S.fragment := by
    rw [normalizeUrlL_eq, hP] at hu
    simp only [Except.map] at hu
    rw [← Except.ok.inj hu, urlunparse_pglue]
    dsimp only
    rw [e1, e2, e5, e4, congrArg pglue e3, ← hCdef, ← hq']
  have hCsub : ∀ c ∈ C, c ∈ S.path := fun c hc => pglue_pparts_subset S.scheme c hc
  have hChead : C = [] ∨ C.take 1 = ['/'] := pglue_pparts_head S.scheme f5
  have hC3 : '#' ∉ C := fun hm => f3 (hCsub _ hm)
  have hC4 : '?' ∉ C := fun hm => f4 (hCsub _ hm)
  have hqf : ∀ c ∈ q', c ≠ '#' ∧ c ≠ '?' := by
    intro c hc
    rw [hq'] at hc
    obtain ⟨_, _, g3, g4, _⟩ := urlencode_mem hc
    refine ⟨char_ne_of_toNat_ne ?_, char_ne_of_toNat_ne ?_⟩
    · rw [show ('#' : Char).toNat = 35 from rfl]
      exact g3
    · rw [show ('?' : Char).toNat = 63 from rfl]
      exact g4
  have htab : ∀ c ∈ S.scheme ++ S.netloc ++ C ++ q' ++ S.fragment,
      (!(c == '\t' || c == '\r' || c == '\n')) = true := by
    intro c hc
    rcases List.mem_append.1 hc with hm | hm
    swap
    · exact f9 c hm
    rcases List.mem_append.1 hm with hm | hm
    swap
    · rw [hq'] at hm
      obtain ⟨_, _, _, _, g5, g6, g7⟩ := urlencode_mem hm
      exact no_tab_bool g5 g6 g7
    rcases List.mem_append.1 hm with hm | hm
    swap
    · exact f8 c (hCsub c hm)
    rcases List.mem_append.1 hm with hm | hm
    swap
    · exact f7 c hm
    · rcases f6 with hse | ⟨c0, cs0, hse, halpha, hchars, _⟩
      · rw [hse] at hm
        cases hm
      · rw [hse] at hm
        rcases List.mem_cons.1 hm with rfl | hm'
        · rcases isAsciiAlpha_ranges halpha with ⟨h1, h2⟩ | ⟨h1, h2⟩ <;>
            exact no_tab_bool (by omega) (by omega) (by omega)
        · rw [List.all_eq_true] at hchars
          obtain ⟨_, t9, t13, t10, _⟩ :=
            schemeChars_facts c (of_decide_eq_true (hchars c hm'))
          exact no_tab_bool t9 t13 t10
  have hsplit2 : urlsplitE ul = .ok ⟨S.scheme, S.netloc, C, q', S.fragment⟩ := by
    rw [hul]
    exact urlsplitE_unsplit hnS f6 f1 f2 hC3 hC4 hChead hqf htab
  have hparse2 : urlparseE ul = .ok ⟨S.scheme, S.netloc, (pparts S.scheme C).1,
      (pparts S.scheme C).2, q', S.fragment⟩ := by
    rw [urlparseE_eq, hsplit2]
    simp only [Except.map]
    by_cases hc : S.scheme ∈ usesParams ∧ ';' ∈ C
    · rw [if_pos hc, show pparts S.scheme C = splitParams C by
        unfold pparts; rw [if_pos hc]]
    · rw [if_neg hc, show pparts S.scheme C = (C, []) by
        unfold pparts; rw [if_neg hc]]
  rw [normalizeUrlL_eq, hparse2]
  simp only [Except.map]
  have hq2 : urlencode ((parseQsl q').filter fun kv => !decide (kv.1 ∈ noiseKeys))
      = q' := by
    rw [hq']
    exact congrArg urlencode (filter_noise_parseQsl_urlencode S.query)
  have hC2 : pglue (pparts S.scheme C) = C := by
    rw [hCdef, pparts_pglue]
  refine congrArg Except.ok ?_
  rw [urlunparse_pglue]
  dsimp only
  rw [hq2, show ((pparts S.scheme C).1, (pparts S.scheme C).2) = pparts S.scheme C
    from rfl, hC2, hul]



/-- Claim C8 (amended): normalization is idempotent on every address whose
parse carries a non-empty network location (every `http`/`https` catalog
address has one); the slash-collapsing counterexamples all have an empty
netloc.  When `urlparse` assigns a non-empty netloc, the normalized output
reparses into exactly the same components with the query already in its
re-encoded fixed point, so a second `normalize_url` returns its input. -/
theorem claim8_amended (x : String) (P : ParseResult) (u : String)
    (hP : urlparseE x.data = .ok P) (hn : P.netloc ≠ [])
    (hu : normalize_url x = .ok u) : normalize_url u = .ok u := by
  unfold normalize_url at hu ⊢
  cases hl : normalizeUrlL x.data with
  | error e =>
    rw [hl] at hu
    simp only [Except.map] at hu
    cases hu
  | ok ul =>
    rw [hl] at hu
    simp only [Except.map] at hu
    have hus : u = ul.asString := (Except.ok.inj hu).symm
    have hdata : u.data = ul := by rw [hus]; exact rfl
    rw [hdata, normalizeUrlL_idem hP hn hl]
    simp only [Except.map]
    rw [hus]

/-- Witness for C8 (amended): a concrete catalog-style address with a `limit`
parameter; its normal form is a fixed point of `normalize_url`. -/
theorem claim8_amended_witness :
    normalize_url "http://h/p?a=b" = .ok "http://h/p?a=b" :=
  claim8_amended "http://h/p?a=b&limit=2"
    ⟨"http".data, "h".data, "/p".data, [], "a=b&limit=2".data, []⟩
    "http://h/p?a=b" rfl (by decide) rfl

end Scrawl
